import Mathlib

/-!
# Control server of oneflow (`oneflow/core/control/ctrl_server.cpp`)

A shallow embedding of the request handlers of `CtrlServer`, followed by the
integer overloads of `Clamp` and the constant `NeedsClamp` of
`oneflow/core/common/converter.h`.

* The five member maps of the server (`barrier_calls_`, `name2lock_status_`,
  `kv_`, `pending_kv_calls_`, `count_`) are association lists keyed by strings;
  lookup finds the first entry of a key, new keys are appended.
* A `CtrlCallIf*` is a call handle, a natural number.
* A handler maps the server state, the call handle and the request fields to an
  `Outcome`: the state it leaves, the ordered list of calls it made to
  `SendResponse` and `EnqueueRequest`, and how it ended (`Status`).
* `CHECK`/`CHECK_EQ` failures abort the process (`Status.checkFailed`) and
  `HashMap::at` on a missing key throws (`Status.outOfRange`): the handler stops
  at that point and the outcome records the state and the events up to it.
* Where the code reads through the end iterator or through a null list pointer
  its behaviour is undefined (`Status.undefinedBehavior`): the outcome records
  the state and the events up to that operation and says nothing about what the
  program does from there on.
-/

namespace oneflow

/-! ## Association-list model of `HashMap<std::string, V>` -/

/-- A string-keyed map, as the list of its entries. -/
structure HashMap (V : Type) where
  entries : List (String × V)
deriving DecidableEq, Repr

namespace HashMap

variable {V : Type}

/-- The map without entries (also the result of `clear()`). -/
def clear : HashMap V := ⟨[]⟩

/-- Emptiness test `empty()`. -/
def empty (m : HashMap V) : Bool := m.entries.isEmpty

/-- Lookup `find(k)`: the value of the first entry of `k`, `none` for `end()`. -/
def find (m : HashMap V) (k : String) : Option V := m.entries.lookup k

/-- Insertion `emplace(k, v)`: inserts only when `k` is absent; the flag tells
whether the insertion took place. -/
def emplace (m : HashMap V) (k : String) (v : V) : HashMap V × Bool :=
  match m.find k with
  | some _ => (m, false)
  | none => (⟨m.entries ++ [(k, v)]⟩, true)

/-- Removal `erase(k)`: drops the entries of `k`; the count is the number of
elements removed from a map with unique keys (1 when present, else 0). -/
def erase (m : HashMap V) (k : String) : HashMap V × Nat :=
  (⟨m.entries.filter (fun e => e.1 != k)⟩, if (m.find k).isSome then 1 else 0)

/-- Assignment through an iterator or reference that points at the entry of `k`. -/
def assign (m : HashMap V) (k : String) (v : V) : HashMap V :=
  ⟨m.entries.map (fun e => if e.1 == k then (e.1, v) else e)⟩

/-- Access `operator[](k)`: the value of `k`, after inserting `dflt` when `k` is
absent. -/
def getOrCreate (m : HashMap V) (k : String) (dflt : V) : HashMap V × V :=
  match m.find k with
  | some v => (m, v)
  | none => (⟨m.entries ++ [(k, dflt)]⟩, dflt)

end HashMap

/-! ## Calls, responses and the server state -/

/-- A call handle (`CtrlCallIf*`). -/
abbrev CallId := Nat

/-- The values of `TryLockResult`. -/
inductive TryLockResult
  | kLocked
  | kDoing
  | kDone
deriving DecidableEq, Repr

/-- The thirteen request kinds, in the order of the handler table of the
constructor. -/
inductive CtrlMethod
  | kLoadServer
  | kBarrier
  | kTryLock
  | kNotifyDone
  | kWaitUntilDone
  | kPushKV
  | kClearKV
  | kPullKV
  | kPushActEvent
  | kClear
  | kIncreaseCount
  | kEraseCount
  | kPushAvgActInterval
deriving DecidableEq, Repr

/-- The response message a call carries when `SendResponse` is called on it. -/
inductive Payload
  | empty
  | result (r : TryLockResult)
  | val (v : String)
  | count (v : Int)
deriving DecidableEq, Repr

/-- The observable actions of a handler: the calls to `SendResponse` (with the
response message of the call) and to `EnqueueRequest`, and the calls into the
two telemetry sinks, whose arguments are kept as plain numbers. -/
inductive Event
  | SendResponse (call : CallId) (response : Payload)
  | EnqueueRequest (method : CtrlMethod)
  | PrintActEventToLogDir (act_event : Nat)
  | PushAvgActInterval (actor_id : Int) (avg_act_interval : Nat)
deriving DecidableEq, Repr

/-- The member maps of `CtrlServer`.  A lock status is a `void*`: `some ws` is a
pointer to the live list `ws` of waiting calls, `none` is `nullptr`. -/
structure CtrlServer where
  barrier_calls_ : HashMap (List CallId × Int)
  name2lock_status_ : HashMap (Option (List CallId))
  kv_ : HashMap String
  pending_kv_calls_ : HashMap (List CallId)
  count_ : HashMap Int
deriving DecidableEq, Repr

/-- The server right after construction: all maps empty. -/
def CtrlServer.init : CtrlServer :=
  ⟨HashMap.clear, HashMap.clear, HashMap.clear, HashMap.clear, HashMap.clear⟩

/-- How a handler ended: it returned (`ok`), a `CHECK` failed and aborted the
process (`checkFailed`), `std::out_of_range` was thrown (`outOfRange`), or it
reached an operation whose behaviour the language does not define
(`undefinedBehavior`). -/
inductive Status
  | ok
  | checkFailed
  | outOfRange
  | undefinedBehavior
deriving DecidableEq, Repr

/-- What a handler did: the state it left, its actions in order, its end. -/
structure Outcome where
  server : CtrlServer
  events : List Event
  status : Status
deriving DecidableEq, Repr

/-! ## Machine integers -/

/-- Conversion of an `int32_t` to `size_t` (64 bits) for a mixed comparison. -/
def castToSizeT (x : Int) : Nat := (x % (2 ^ 64 : Int)).toNat

/-- The value `std::list::size()` returns, a `size_t`. -/
def listSize (l : List CallId) : Nat := l.length % 2 ^ 64

/-- Two's complement reduction of an integer to `int32_t`. -/
def toInt32 (x : Int) : Int := (x + 2 ^ 31) % (2 ^ 32 : Int) - 2 ^ 31

/-- Range of `int32_t`. -/
def isInt32 (x : Int) : Prop := -(2 ^ 31 : Int) ≤ x ∧ x < (2 ^ 31 : Int)

instance (x : Int) : Decidable (isInt32 x) := by
  unfold isInt32; exact inferInstance

/-! ## The handlers -/

/-- Handler `LoadServerHandler` (lines 76-79). -/
def LoadServerHandler (s : CtrlServer) (call : CallId) : Outcome :=
  ⟨s, [Event.SendResponse call Payload.empty,
       Event.EnqueueRequest CtrlMethod.kLoadServer], Status.ok⟩

/-- Lines 90-97 of `BarrierHandler`, with `barrier_call_it` pointing at the entry
`entry` of `barrier_name` in `s.barrier_calls_`. -/
def BarrierHandler.arrive (s : CtrlServer) (call : CallId) (barrier_name : String)
    (barrier_num : Int) (entry : List CallId × Int) : Outcome :=
  if barrier_num ≠ entry.2 then
    ⟨s, [], Status.checkFailed⟩
  else
    let calls := entry.1 ++ [call]
    if listSize calls = castToSizeT entry.2 then
      ⟨{ s with barrier_calls_ := (s.barrier_calls_.erase barrier_name).1 },
        calls.map (fun pending_call => Event.SendResponse pending_call Payload.empty)
          ++ [Event.EnqueueRequest CtrlMethod.kBarrier],
        Status.ok⟩
    else
      ⟨{ s with barrier_calls_ := s.barrier_calls_.assign barrier_name (calls, entry.2) },
        [Event.EnqueueRequest CtrlMethod.kBarrier], Status.ok⟩

/-- Handler `BarrierHandler` (lines 81-98). -/
def BarrierHandler (s : CtrlServer) (call : CallId) (barrier_name : String)
    (barrier_num : Int) : Outcome :=
  match s.barrier_calls_.find barrier_name with
  | none =>
    BarrierHandler.arrive
      { s with barrier_calls_ := (s.barrier_calls_.emplace barrier_name ([], barrier_num)).1 }
      call barrier_name barrier_num ([], barrier_num)
  | some entry => BarrierHandler.arrive s call barrier_name barrier_num entry

/-- Handler `TryLockHandler` (lines 100-116). -/
def TryLockHandler (s : CtrlServer) (call : CallId) (lock_name : String) : Outcome :=
  match s.name2lock_status_.find lock_name with
  | none =>
    let r := s.name2lock_status_.emplace lock_name (some [])
    if r.2 then
      ⟨{ s with name2lock_status_ := r.1 },
        [Event.SendResponse call (Payload.result TryLockResult.kLocked),
         Event.EnqueueRequest CtrlMethod.kTryLock], Status.ok⟩
    else
      ⟨{ s with name2lock_status_ := r.1 }, [], Status.checkFailed⟩
  | some (some _) =>
    ⟨s, [Event.SendResponse call (Payload.result TryLockResult.kDoing),
         Event.EnqueueRequest CtrlMethod.kTryLock], Status.ok⟩
  | some none =>
    ⟨s, [Event.SendResponse call (Payload.result TryLockResult.kDone),
         Event.EnqueueRequest CtrlMethod.kTryLock], Status.ok⟩

/-- Handler `NotifyDoneHandler` (lines 118-127).  The iterator returned by
`find` is dereferenced without a test against `end()`, and the list pointer
without a test against `nullptr`: on a name without an entry and on a name
whose entry holds `nullptr` the handler reaches undefined behaviour before any
other action.  The outcome then holds the state and the events up to that
operation; what the program does afterwards is not modelled. -/
def NotifyDoneHandler (s : CtrlServer) (call : CallId) (lock_name : String) : Outcome :=
  match s.name2lock_status_.find lock_name with
  | none => ⟨s, [], Status.undefinedBehavior⟩
  | some none => ⟨s, [], Status.undefinedBehavior⟩
  | some (some waiting_calls) =>
    ⟨{ s with name2lock_status_ := s.name2lock_status_.assign lock_name none },
      waiting_calls.map (fun waiting_call => Event.SendResponse waiting_call Payload.empty)
        ++ [Event.SendResponse call Payload.empty,
            Event.EnqueueRequest CtrlMethod.kNotifyDone],
      Status.ok⟩

/-- Handler `WaitUntilDoneHandler` (lines 129-139). -/
def WaitUntilDoneHandler (s : CtrlServer) (call : CallId) (lock_name : String) : Outcome :=
  match s.name2lock_status_.find lock_name with
  | none => ⟨s, [], Status.outOfRange⟩
  | some (some waiting_calls) =>
    ⟨{ s with name2lock_status_ :=
          s.name2lock_status_.assign lock_name (some (waiting_calls ++ [call])) },
      [Event.EnqueueRequest CtrlMethod.kWaitUntilDone], Status.ok⟩
  | some none =>
    ⟨s, [Event.SendResponse call Payload.empty,
         Event.EnqueueRequest CtrlMethod.kWaitUntilDone], Status.ok⟩

/-- Handler `PushKVHandler` (lines 141-156). -/
def PushKVHandler (s : CtrlServer) (call : CallId) (k v : String) : Outcome :=
  let r := s.kv_.emplace k v
  if r.2 then
    match s.pending_kv_calls_.find k with
    | some pending =>
      ⟨{ s with kv_ := r.1, pending_kv_calls_ := (s.pending_kv_calls_.erase k).1 },
        pending.map (fun pending_call => Event.SendResponse pending_call (Payload.val v))
          ++ [Event.SendResponse call Payload.empty,
              Event.EnqueueRequest CtrlMethod.kPushKV],
        Status.ok⟩
    | none =>
      ⟨{ s with kv_ := r.1 },
        [Event.SendResponse call Payload.empty,
         Event.EnqueueRequest CtrlMethod.kPushKV], Status.ok⟩
  else
    ⟨{ s with kv_ := r.1 }, [], Status.checkFailed⟩

/-- Handler `ClearKVHandler` (lines 158-164). -/
def ClearKVHandler (s : CtrlServer) (call : CallId) (k : String) : Outcome :=
  let r := s.kv_.erase k
  if r.2 ≠ 1 then
    ⟨{ s with kv_ := r.1 }, [], Status.checkFailed⟩
  else if (s.pending_kv_calls_.find k).isSome then
    ⟨{ s with kv_ := r.1 }, [], Status.checkFailed⟩
  else
    ⟨{ s with kv_ := r.1 },
      [Event.SendResponse call Payload.empty,
       Event.EnqueueRequest CtrlMethod.kClearKV], Status.ok⟩

/-- Handler `PullKVHandler` (lines 166-176). -/
def PullKVHandler (s : CtrlServer) (call : CallId) (k : String) : Outcome :=
  match s.kv_.find k with
  | some v =>
    ⟨s, [Event.SendResponse call (Payload.val v),
         Event.EnqueueRequest CtrlMethod.kPullKV], Status.ok⟩
  | none =>
    let r := s.pending_kv_calls_.getOrCreate k []
    ⟨{ s with pending_kv_calls_ := r.1.assign k (r.2 ++ [call]) },
      [Event.EnqueueRequest CtrlMethod.kPullKV], Status.ok⟩

/-- Handler `PushActEventHandler` (lines 178-183). -/
def PushActEventHandler (s : CtrlServer) (call : CallId) (act_event : Nat) : Outcome :=
  ⟨s, [Event.SendResponse call Payload.empty,
       Event.PrintActEventToLogDir act_event,
       Event.EnqueueRequest CtrlMethod.kPushActEvent], Status.ok⟩

/-- Handler `ClearHandler` (lines 185-191). -/
def ClearHandler (s : CtrlServer) (call : CallId) : Outcome :=
  let s1 := { s with name2lock_status_ := HashMap.clear, kv_ := HashMap.clear }
  if s.pending_kv_calls_.empty then
    ⟨s1, [Event.SendResponse call Payload.empty,
          Event.EnqueueRequest CtrlMethod.kClear], Status.ok⟩
  else
    ⟨s1, [], Status.checkFailed⟩

/-- Handler `IncreaseCountHandler` (lines 193-199).  The `int32_t` sum is reduced
to 32 bits in two's complement. -/
def IncreaseCountHandler (s : CtrlServer) (call : CallId) (key : String) (val : Int) :
    Outcome :=
  let r := s.count_.getOrCreate key 0
  let count := toInt32 (r.2 + val)
  ⟨{ s with count_ := r.1.assign key count },
    [Event.SendResponse call (Payload.count count),
     Event.EnqueueRequest CtrlMethod.kIncreaseCount], Status.ok⟩

/-- Handler `EraseCountHandler` (lines 201-205). -/
def EraseCountHandler (s : CtrlServer) (call : CallId) (key : String) : Outcome :=
  let r := s.count_.erase key
  if r.2 ≠ 1 then
    ⟨{ s with count_ := r.1 }, [], Status.checkFailed⟩
  else
    ⟨{ s with count_ := r.1 },
      [Event.SendResponse call Payload.empty,
       Event.EnqueueRequest CtrlMethod.kEraseCount], Status.ok⟩

/-- Handler `PushAvgActIntervalHandler` (lines 207-213). -/
def PushAvgActIntervalHandler (s : CtrlServer) (call : CallId) (actor_id : Int)
    (avg_act_interval : Nat) : Outcome :=
  ⟨s, [Event.PushAvgActInterval actor_id avg_act_interval,
       Event.SendResponse call Payload.empty,
       Event.EnqueueRequest CtrlMethod.kPushAvgActInterval], Status.ok⟩

/-! ## Dispatch -/

/-- A decoded request, one constructor per request kind. -/
inductive Request
  | LoadServer
  | Barrier (name : String) (num : Int)
  | TryLock (name : String)
  | NotifyDone (name : String)
  | WaitUntilDone (name : String)
  | PushKV (key val : String)
  | ClearKV (key : String)
  | PullKV (key : String)
  | PushActEvent (act_event : Nat)
  | Clear
  | IncreaseCount (key : String) (val : Int)
  | EraseCount (key : String)
  | PushAvgActInterval (actor_id : Int) (avg_act_interval : Nat)
deriving DecidableEq, Repr

/-- The effect of `call->Process()`: the handler bound to the call by
`EnqueueRequest` runs on the call. -/
def Process (s : CtrlServer) (call : CallId) : Request → Outcome
  | Request.LoadServer => LoadServerHandler s call
  | Request.Barrier name num => BarrierHandler s call name num
  | Request.TryLock name => TryLockHandler s call name
  | Request.NotifyDone name => NotifyDoneHandler s call name
  | Request.WaitUntilDone name => WaitUntilDoneHandler s call name
  | Request.PushKV key val => PushKVHandler s call key val
  | Request.ClearKV key => ClearKVHandler s call key
  | Request.PullKV key => PullKVHandler s call key
  | Request.PushActEvent act_event => PushActEventHandler s call act_event
  | Request.Clear => ClearHandler s call
  | Request.IncreaseCount key val => IncreaseCountHandler s call key val
  | Request.EraseCount key => EraseCountHandler s call key
  | Request.PushAvgActInterval actor_id avg => PushAvgActIntervalHandler s call actor_id avg

/-- The loop of `HandleRpcs` on a finite sequence of completed calls: each call
is processed in turn; the loop ends with the first handler that does not return. -/
def HandleRpcs (s : CtrlServer) : List (CallId × Request) → Outcome
  | [] => ⟨s, [], Status.ok⟩
  | (call, req) :: rest =>
    let o := Process s call req
    match o.status with
    | Status.ok =>
      let o2 := HandleRpcs o.server rest
      ⟨o2.server, o.events ++ o2.events, o2.status⟩
    | _ => o


/-! ## Observations on event lists and request sequences -/

/-- The calls to `SendResponse` among the events, in order. -/
def responses : List Event → List (CallId × Payload)
  | [] => []
  | Event.SendResponse call response :: rest => (call, response) :: responses rest
  | _ :: rest => responses rest

/-- The calls to `EnqueueRequest` among the events, in order. -/
def enqueued : List Event → List CtrlMethod
  | [] => []
  | Event.EnqueueRequest method :: rest => method :: enqueued rest
  | _ :: rest => enqueued rest

/-- The three lock states of a name: no entry, an entry with a live waiter
list, an entry holding `nullptr`. -/
inductive LockState
  | Unset
  | LockedActive
  | Done
deriving DecidableEq, Repr

/-- The lock state of `lock_name` in the server. -/
def lockState (s : CtrlServer) (lock_name : String) : LockState :=
  match s.name2lock_status_.find lock_name with
  | none => LockState.Unset
  | some (some _) => LockState.LockedActive
  | some none => LockState.Done

/-- The requests of the calls `calls`, each an arrival at the barrier
`barrier_name` declaring the count `barrier_num`. -/
def arrivals (barrier_name : String) (barrier_num : Int) (calls : List CallId) :
    List (CallId × Request) :=
  calls.map (fun c => (c, Request.Barrier barrier_name barrier_num))

/-- The calls parked at the barrier `barrier_name`, in arrival order; none when
the name has no barrier. -/
def arrived (s : CtrlServer) (barrier_name : String) : List CallId :=
  match s.barrier_calls_.find barrier_name with
  | none => []
  | some entry => entry.1

/-- The reads parked under the key `k`, in parking order; none when the key has
no entry in `pending_kv_calls_`. -/
def parkedReads (s : CtrlServer) (k : String) : List CallId :=
  match s.pending_kv_calls_.find k with
  | none => []
  | some pending => pending

/-- The requests of a series of increments of the counter `key`: each element
is a call and its delta. -/
def increases (key : String) (steps : List (CallId × Int)) : List (CallId × Request) :=
  steps.map (fun x => (x.1, Request.IncreaseCount key x.2))

/-- The sum of a list of deltas over the integers. -/
def sumDeltas : List Int → Int
  | [] => 0
  | d :: rest => d + sumDeltas rest

/-- Consistency of the store with the pending reads: a published key has no
entry in `pending_kv_calls_`, and every entry of `pending_kv_calls_` holds at
least one call. -/
def kvConsistent (s : CtrlServer) : Prop :=
  (∀ k, s.kv_.find k ≠ none → s.pending_kv_calls_.find k = none) ∧
  (∀ k l, s.pending_kv_calls_.find k = some l → l ≠ [])

/-- The value `count_[key]` refers to: the stored value, or the zero a missing
counter is created with. -/
def counterValue (s : CtrlServer) (key : String) : Int :=
  match s.count_.find key with
  | none => 0
  | some v => v

/-- The request kind of a request: the kind named after its message type. -/
def Request.method : Request → CtrlMethod
  | Request.LoadServer => CtrlMethod.kLoadServer
  | Request.Barrier _ _ => CtrlMethod.kBarrier
  | Request.TryLock _ => CtrlMethod.kTryLock
  | Request.NotifyDone _ => CtrlMethod.kNotifyDone
  | Request.WaitUntilDone _ => CtrlMethod.kWaitUntilDone
  | Request.PushKV _ _ => CtrlMethod.kPushKV
  | Request.ClearKV _ => CtrlMethod.kClearKV
  | Request.PullKV _ => CtrlMethod.kPullKV
  | Request.PushActEvent _ => CtrlMethod.kPushActEvent
  | Request.Clear => CtrlMethod.kClear
  | Request.IncreaseCount _ _ => CtrlMethod.kIncreaseCount
  | Request.EraseCount _ => CtrlMethod.kEraseCount
  | Request.PushAvgActInterval _ _ => CtrlMethod.kPushAvgActInterval

/-- The four registries of named resources. -/
inductive Registry
  | barriers
  | locks
  | kv
  | counters
deriving DecidableEq, Repr

/-- The calls parked under a name of a registry, in parking order: the list of
a barrier, the live waiter list of a lock, the pending reads of a key.
Counters park no call. -/
def parkedUnder (s : CtrlServer) : Registry → String → List CallId
  | Registry.barriers, name => arrived s name
  | Registry.locks, name =>
    match s.name2lock_status_.find name with
    | some (some waiting_calls) => waiting_calls
    | _ => []
  | Registry.kv, key => parkedReads s key
  | Registry.counters, _ => []

/-- The registry and the name a request works on; none for the reset, the load
request and the telemetry requests. -/
def Request.target : Request → Option (Registry × String)
  | Request.Barrier name _ => some (Registry.barriers, name)
  | Request.TryLock name => some (Registry.locks, name)
  | Request.NotifyDone name => some (Registry.locks, name)
  | Request.WaitUntilDone name => some (Registry.locks, name)
  | Request.PushKV key _ => some (Registry.kv, key)
  | Request.ClearKV key => some (Registry.kv, key)
  | Request.PullKV key => some (Registry.kv, key)
  | Request.IncreaseCount key _ => some (Registry.counters, key)
  | Request.EraseCount key => some (Registry.counters, key)
  | _ => none

/-- The state `t` agrees with `s` outside the entry of `name` in the registry
`reg`: the maps of the other registries are equal, and in the maps of `reg`
every other name has the entry it had. -/
def sameOutside (reg : Registry) (name : String) (s t : CtrlServer) : Prop :=
  match reg with
  | Registry.barriers =>
    t.name2lock_status_ = s.name2lock_status_ ∧ t.kv_ = s.kv_ ∧
    t.pending_kv_calls_ = s.pending_kv_calls_ ∧ t.count_ = s.count_ ∧
    ∀ k, k ≠ name → t.barrier_calls_.find k = s.barrier_calls_.find k
  | Registry.locks =>
    t.barrier_calls_ = s.barrier_calls_ ∧ t.kv_ = s.kv_ ∧
    t.pending_kv_calls_ = s.pending_kv_calls_ ∧ t.count_ = s.count_ ∧
    ∀ k, k ≠ name → t.name2lock_status_.find k = s.name2lock_status_.find k
  | Registry.kv =>
    t.barrier_calls_ = s.barrier_calls_ ∧ t.name2lock_status_ = s.name2lock_status_ ∧
    t.count_ = s.count_ ∧
    ∀ k, k ≠ name →
      t.kv_.find k = s.kv_.find k ∧ t.pending_kv_calls_.find k = s.pending_kv_calls_.find k
  | Registry.counters =>
    t.barrier_calls_ = s.barrier_calls_ ∧ t.name2lock_status_ = s.name2lock_status_ ∧
    t.kv_ = s.kv_ ∧ t.pending_kv_calls_ = s.pending_kv_calls_ ∧
    ∀ k, k ≠ name → t.count_.find k = s.count_.find k

/-- The calls a list of events answers, in order. -/
def answeredCalls (events : List Event) : List CallId :=
  (responses events).map (fun x => x.1)

/-- What one handler step does to the answered calls and to the queues, in one
of three shapes.  Quiet: it answers nothing or only its own call `c`, and every
queue is as before or empty.  Park: it answers nothing and puts `c` at the tail
of one queue.  Flush: it answers the calls of one queue in order and then `c`,
and empties that queue.  In the last two shapes all other queues are as
before. -/
def StepShape (s : CtrlServer) (c : CallId) (t : CtrlServer) (ids : List CallId) : Prop :=
  ((ids = [] ∨ ids = [c]) ∧
    ∀ reg k, parkedUnder t reg k = parkedUnder s reg k ∨ parkedUnder t reg k = []) ∨
  (∃ reg name, ids = [] ∧ parkedUnder t reg name = parkedUnder s reg name ++ [c] ∧
    ∀ reg2 k, (reg2, k) ≠ (reg, name) → parkedUnder t reg2 k = parkedUnder s reg2 k) ∨
  (∃ reg name, ids = parkedUnder s reg name ++ [c] ∧ parkedUnder t reg name = [] ∧
    ∀ reg2 k, (reg2, k) ≠ (reg, name) → parkedUnder t reg2 k = parkedUnder s reg2 k)

/-- Consistency of the parked and the answered calls, given the calls
`answered` so far and the call handles `used` so far: no call was answered
twice; no queue holds a call twice; no call is in two queues; no parked call
was answered; parked and answered calls are among the used handles. -/
def callsConsistent (s : CtrlServer) (answered used : List CallId) : Prop :=
  answered.Nodup ∧
  (∀ reg k, (parkedUnder s reg k).Nodup) ∧
  (∀ reg1 k1 reg2 k2 a, a ∈ parkedUnder s reg1 k1 → a ∈ parkedUnder s reg2 k2 →
    (reg1, k1) = (reg2, k2)) ∧
  (∀ reg k a, a ∈ parkedUnder s reg k → a ∉ answered) ∧
  (∀ reg k a, a ∈ parkedUnder s reg k → a ∈ used) ∧
  (∀ a, a ∈ answered → a ∈ used)

/-! ## Integer conversions (`oneflow/core/common/converter.h`)

Values of the fixed-width integer types are integers within the range of the
type; a conversion to a type reduces modulo two to the power of its width. -/

/-- The fixed-width integer types. -/
inductive IntType
  | int8_t
  | int16_t
  | int32_t
  | int64_t
  | uint8_t
  | uint16_t
  | uint32_t
  | uint64_t
deriving DecidableEq, Repr

/-- The value of `sizeof(T)`. -/
def IntType.sizeof : IntType → Nat
  | IntType.int8_t => 1
  | IntType.int16_t => 2
  | IntType.int32_t => 4
  | IntType.int64_t => 8
  | IntType.uint8_t => 1
  | IntType.uint16_t => 2
  | IntType.uint32_t => 4
  | IntType.uint64_t => 8

/-- The value of `std::is_unsigned<T>::value`. -/
def IntType.is_unsigned : IntType → Bool
  | IntType.int8_t => false
  | IntType.int16_t => false
  | IntType.int32_t => false
  | IntType.int64_t => false
  | IntType.uint8_t => true
  | IntType.uint16_t => true
  | IntType.uint32_t => true
  | IntType.uint64_t => true

/-- Modelled from the spec: `GetMinVal<T>()` of `data_type.h`, which is not
among the sources; it is taken as the least value of the type `T` (the
`MIN_To` of the claims). -/
def GetMinVal (T : IntType) : Int :=
  if T.is_unsigned then 0 else -((2 ^ (8 * T.sizeof - 1) : Nat) : Int)

/-- Modelled from the spec: `GetMaxVal<T>()` of `data_type.h`, which is not
among the sources; it is taken as the greatest value of the type `T` (the
`MAX_To` of the claims). -/
def GetMaxVal (T : IntType) : Int :=
  if T.is_unsigned then ((2 ^ (8 * T.sizeof) : Nat) : Int) - 1
  else ((2 ^ (8 * T.sizeof - 1) : Nat) : Int) - 1

/-- The integer `v` is a value of the type `T`. -/
def IntType.holds (T : IntType) (v : Int) : Prop := GetMinVal T ≤ v ∧ v ≤ GetMaxVal T

instance (T : IntType) (v : Int) : Decidable (T.holds v) := by
  unfold IntType.holds; exact inferInstance

/-- Conversion `static_cast<T>(v)` of an integer value: reduction modulo
`2^(8 * sizeof(T))` into the range of `T`. -/
def staticCast (T : IntType) (v : Int) : Int :=
  if T.is_unsigned then v % ((2 ^ (8 * T.sizeof) : Nat) : Int)
  else (v + ((2 ^ (8 * T.sizeof - 1) : Nat) : Int)) % ((2 ^ (8 * T.sizeof) : Nat) : Int)
    - ((2 ^ (8 * T.sizeof - 1) : Nat) : Int)

/-- The constant `NeedsClamp<From, To>::value` (lines 37-52) as a function of
the type traits it is computed from. -/
def NeedsClampValue (from_fp to_fp from_unsigned to_unsigned : Bool)
    (sizeof_From sizeof_To : Nat) : Bool :=
  (from_fp == to_fp && decide (sizeof_To < sizeof_From)) ||
  (from_fp && !to_fp) ||
  (!from_unsigned && to_unsigned) ||
  (from_unsigned && !to_unsigned && decide (sizeof_To ≤ sizeof_From))

/-- The constant `NeedsClamp<From, To>::value` for two fixed-width integer
types: `IsFloatingOrHalf` is false on both. -/
def NeedsClamp (From To : IntType) : Bool :=
  NeedsClampValue false false From.is_unsigned To.is_unsigned From.sizeof To.sizeof

/-- The overload "not clamp" (lines 104-108), enabled when
`NeedsClamp<U, T>::value` is false: it returns the value, converted to `T`. -/
def Clamp_not_clamp (T : IntType) (value : Int) : Int := staticCast T value

/-- Overload `int32_t Clamp(uint32_t value, ret_type<int32_t>)` (lines 110-112).
The conditional has the type `uint32_t`; its value is converted to `int32_t`. -/
def Clamp_uint32_to_int32 (value : Int) : Int :=
  staticCast IntType.int32_t
    (if value.toNat &&& 0x80000000 ≠ 0 then 0x7fffffff else value)

/-- Overload `uint32_t Clamp(int32_t value, ret_type<uint32_t>)` (lines
114-116). -/
def Clamp_int32_to_uint32 (value : Int) : Int :=
  if value < 0 then 0 else staticCast IntType.uint32_t value

/-- Overload `int32_t Clamp(int64_t value, ret_type<int32_t>)` (lines 118-123). -/
def Clamp_int64_to_int32 (value : Int) : Int :=
  if value < staticCast IntType.int64_t (GetMinVal IntType.int32_t) then
    GetMinVal IntType.int32_t
  else if value > staticCast IntType.int64_t (GetMaxVal IntType.int32_t) then
    GetMaxVal IntType.int32_t
  else staticCast IntType.int32_t value

/-- Overload `int32_t Clamp(uint64_t value, ret_type<int32_t>)` (lines 125-129). -/
def Clamp_uint64_to_int32 (value : Int) : Int :=
  if value > staticCast IntType.uint64_t (GetMaxVal IntType.int32_t) then
    GetMaxVal IntType.int32_t
  else staticCast IntType.int32_t value

/-- Overload `uint32_t Clamp(int64_t value, ret_type<uint32_t>)` (lines
131-137). -/
def Clamp_int64_to_uint32 (value : Int) : Int :=
  if value < 0 then 0
  else if value > staticCast IntType.int64_t (GetMaxVal IntType.uint32_t) then
    GetMaxVal IntType.uint32_t
  else staticCast IntType.uint32_t value

/-- Overload `uint32_t Clamp(uint64_t value, ret_type<uint32_t>)` (lines
139-143). -/
def Clamp_uint64_to_uint32 (value : Int) : Int :=
  if value > staticCast IntType.uint64_t (GetMaxVal IntType.uint32_t) then
    GetMaxVal IntType.uint32_t
  else staticCast IntType.uint32_t value

/-- The function `f` from the values of `From` saturates into `To`: on every
value `v` of `From` it returns `min (max v MIN_To) MAX_To`; so its result is a
value of `To`, it is `v` when `v` is a value of `To`, and `f` is monotone. -/
def Saturates (From To : IntType) (f : Int → Int) : Prop :=
  ∀ v, From.holds v →
    f v = min (max v (GetMinVal To)) (GetMaxVal To) ∧
    To.holds (f v) ∧
    (To.holds v → f v = v) ∧
    ∀ w, From.holds w → v ≤ w → f v ≤ f w

/-- The calls of the live waiter lists among the entries of a lock map. -/
def waitersOf : List (String × Option (List CallId)) → List CallId
  | [] => []
  | (_, some waiting_calls) :: rest => waiting_calls ++ waitersOf rest
  | (_, none) :: rest => waitersOf rest

/-- The calls waiting on a lock, over all lock names. -/
def lockWaiters (s : CtrlServer) : List CallId := waitersOf s.name2lock_status_.entries

/-- The calls whose waiter lists a request drops without answering them: the
reset clears `name2lock_status_` and with it the pointers to the waiter lists;
no other request drops a list. -/
def resetDrops (s : CtrlServer) : Request → List CallId
  | Request.Clear => lockWaiters s
  | _ => []

/-- The calls that were waiting on a lock when a reset of the run was
processed.  The run is followed as `HandleRpcs` follows it. -/
def discarded (s : CtrlServer) : List (CallId × Request) → List CallId
  | [] => []
  | (call, req) :: rest =>
    resetDrops s req ++
    (match (Process s call req).status with
      | Status.ok => discarded (Process s call req).server rest
      | _ => [])

/-! ## Lemmas on the map operations -/

namespace HashMap

variable {V : Type}

theorem find_clear (k : String) : (clear : HashMap V).find k = none := rfl

theorem lookup_cons_self (t : List (String × V)) (k : String) (b : V) :
    List.lookup k ((k, b) :: t) = some b := by
  rw [List.lookup_cons, beq_self_eq_true]

theorem lookup_cons_ne (t : List (String × V)) (k a : String) (b : V) (h : k ≠ a) :
    List.lookup k ((a, b) :: t) = List.lookup k t := by
  have hb : (k == a) = false := beq_eq_false_iff_ne.mpr h
  rw [List.lookup_cons, hb]

theorem lookup_snoc (l : List (String × V)) (k k2 : String) (v : V) :
    List.lookup k (l ++ [(k2, v)]) =
      match List.lookup k l with
      | some x => some x
      | none => if k = k2 then some v else none := by
  induction l with
  | nil =>
    by_cases hk : k = k2
    · subst hk; simp [lookup_cons_self]
    · simp [lookup_cons_ne _ _ _ _ hk, hk]
  | cons e t ih =>
    obtain ⟨a, b⟩ := e
    by_cases hk : k = a
    · subst hk; simp [lookup_cons_self]
    · simp only [List.cons_append, lookup_cons_ne _ _ _ _ hk, ih]

theorem lookup_filter_ne (l : List (String × V)) (k k2 : String) :
    List.lookup k (l.filter (fun e => e.1 != k2)) =
      if k = k2 then none else List.lookup k l := by
  induction l with
  | nil => simp
  | cons e t ih =>
    obtain ⟨a, b⟩ := e
    by_cases h2 : a = k2
    · subst h2
      have hf : List.filter (fun e => e.1 != a) ((a, b) :: t)
          = List.filter (fun e => e.1 != a) t := by simp [List.filter_cons]
      rw [hf, ih]
      by_cases hk : k = a
      · simp [hk]
      · simp [hk, lookup_cons_ne _ _ _ _ hk]
    · have hf : List.filter (fun e => e.1 != k2) ((a, b) :: t)
          = (a, b) :: List.filter (fun e => e.1 != k2) t := by simp [List.filter_cons, h2]
      rw [hf]
      by_cases hk : k = a
      · subst hk
        simp [lookup_cons_self, h2]
      · rw [lookup_cons_ne _ _ _ _ hk, lookup_cons_ne _ _ _ _ hk, ih]

theorem lookup_map_assign (l : List (String × V)) (k k2 : String) (v : V) :
    List.lookup k (l.map (fun e => if e.1 == k2 then (e.1, v) else e)) =
      if k = k2 then (List.lookup k l).map (fun _ => v) else List.lookup k l := by
  induction l with
  | nil => simp
  | cons e t ih =>
    obtain ⟨a, b⟩ := e
    by_cases h2 : a = k2
    · subst h2
      have hm : List.map (fun e => if e.1 == a then (e.1, v) else e) ((a, b) :: t)
          = (a, v) :: List.map (fun e => if e.1 == a then (e.1, v) else e) t := by simp
      rw [hm]
      by_cases hk : k = a
      · subst hk; simp [lookup_cons_self]
      · rw [lookup_cons_ne _ _ _ _ hk, lookup_cons_ne _ _ _ _ hk, ih]
    · have hm : List.map (fun e => if e.1 == k2 then (e.1, v) else e) ((a, b) :: t)
          = (a, b) :: List.map (fun e => if e.1 == k2 then (e.1, v) else e) t := by simp [h2]
      rw [hm]
      by_cases hk : k = a
      · subst hk
        simp [lookup_cons_self, h2]
      · rw [lookup_cons_ne _ _ _ _ hk, lookup_cons_ne _ _ _ _ hk, ih]

theorem find_emplace (m : HashMap V) (k k2 : String) (v : V) (h : m.find k2 = none) :
    (m.emplace k2 v).1.find k = if k = k2 then some v else m.find k := by
  unfold emplace
  rw [h]
  show List.lookup k (m.entries ++ [(k2, v)]) = _
  rw [lookup_snoc]
  by_cases hk : k = k2
  · subst hk
    have : List.lookup k m.entries = none := h
    simp [this]
  · simp only [hk, if_false]
    cases hl : List.lookup k m.entries with
    | some x => simp [find, hl]
    | none => simp [find, hl]

theorem emplace_snd (m : HashMap V) (k : String) (v : V) :
    (m.emplace k v).2 = (m.find k).isNone := by
  unfold emplace
  cases m.find k <;> rfl

theorem emplace_present (m : HashMap V) (k : String) (v x : V) (h : m.find k = some x) :
    m.emplace k v = (m, false) := by
  unfold emplace
  rw [h]

theorem find_erase (m : HashMap V) (k k2 : String) :
    (m.erase k2).1.find k = if k = k2 then none else m.find k :=
  lookup_filter_ne m.entries k k2

theorem erase_snd (m : HashMap V) (k : String) :
    (m.erase k).2 = if (m.find k).isSome then 1 else 0 := rfl

theorem find_assign (m : HashMap V) (k k2 : String) (v : V) :
    (m.assign k2 v).find k = if k = k2 then (m.find k).map (fun _ => v) else m.find k :=
  lookup_map_assign m.entries k k2 v

theorem find_getOrCreate (m : HashMap V) (k k2 : String) (d : V) :
    (m.getOrCreate k2 d).1.find k =
      if k = k2 then some (m.getOrCreate k2 d).2 else m.find k := by
  unfold getOrCreate
  cases h : m.find k2 with
  | some x =>
    by_cases hk : k = k2
    · subst hk; simp [h]
    · simp [hk]
  | none =>
    show List.lookup k (m.entries ++ [(k2, d)]) = _
    rw [lookup_snoc]
    by_cases hk : k = k2
    · subst hk
      have : List.lookup k m.entries = none := h
      simp [this]
    · simp only [hk, if_false]
      cases hl : List.lookup k m.entries with
      | some x => simp [find, hl]
      | none => simp [find, hl]

end HashMap


/-! ## The loop -/

theorem HandleRpcs_nil (s : CtrlServer) : HandleRpcs s [] = ⟨s, [], Status.ok⟩ := rfl

theorem HandleRpcs_cons_ok (s : CtrlServer) (call : CallId) (req : Request)
    (rest : List (CallId × Request)) (h : (Process s call req).status = Status.ok) :
    HandleRpcs s ((call, req) :: rest) =
      ⟨(HandleRpcs (Process s call req).server rest).server,
       (Process s call req).events ++ (HandleRpcs (Process s call req).server rest).events,
       (HandleRpcs (Process s call req).server rest).status⟩ := by
  simp only [HandleRpcs, h]

theorem HandleRpcs_cons_stop (s : CtrlServer) (call : CallId) (req : Request)
    (rest : List (CallId × Request)) (h : (Process s call req).status ≠ Status.ok) :
    HandleRpcs s ((call, req) :: rest) = Process s call req := by
  cases hs : (Process s call req).status with
  | ok => exact absurd hs h
  | checkFailed => simp only [HandleRpcs, hs]
  | outOfRange => simp only [HandleRpcs, hs]
  | undefinedBehavior => simp only [HandleRpcs, hs]

theorem HandleRpcs_append (xs ys : List (CallId × Request)) (s : CtrlServer)
    (h : (HandleRpcs s xs).status = Status.ok) :
    HandleRpcs s (xs ++ ys) =
      ⟨(HandleRpcs (HandleRpcs s xs).server ys).server,
       (HandleRpcs s xs).events ++ (HandleRpcs (HandleRpcs s xs).server ys).events,
       (HandleRpcs (HandleRpcs s xs).server ys).status⟩ := by
  induction xs generalizing s with
  | nil => simp [HandleRpcs_nil]
  | cons x t ih =>
    obtain ⟨call, req⟩ := x
    by_cases hx : (Process s call req).status = Status.ok
    · rw [HandleRpcs_cons_ok _ _ _ _ hx] at h
      simp only [List.cons_append, HandleRpcs_cons_ok _ _ _ _ hx]
      rw [ih _ h]
      simp
    · rw [HandleRpcs_cons_stop _ _ _ _ hx] at h
      exact absurd h hx

/-! ## Single steps of `BarrierHandler` -/

theorem listSize_snoc (pre : List CallId) (c : CallId) (n : Int) (hint : isInt32 n)
    (hpos : 0 < n) (hle : ((pre.length + 1 : Nat) : Int) ≤ n) :
    listSize (pre ++ [c]) = castToSizeT n ↔ ((pre.length + 1 : Nat) : Int) = n := by
  unfold isInt32 at hint
  simp only [listSize, castToSizeT, List.length_append, List.length_singleton]
  omega

theorem BarrierHandler_existing (s : CtrlServer) (c : CallId) (name : String) (n : Int)
    (e : List CallId × Int) (h : s.barrier_calls_.find name = some e) :
    BarrierHandler s c name n = BarrierHandler.arrive s c name n e := by
  simp only [BarrierHandler, h]

theorem BarrierHandler_fresh (s : CtrlServer) (c : CallId) (name : String) (n : Int)
    (h : s.barrier_calls_.find name = none) :
    BarrierHandler s c name n =
      BarrierHandler.arrive
        { s with barrier_calls_ := (s.barrier_calls_.emplace name ([], n)).1 }
        c name n ([], n) := by
  simp only [BarrierHandler, h]

theorem arrive_park (s : CtrlServer) (c : CallId) (name : String) (n : Int)
    (pre : List CallId) (hint : isInt32 n) (hpos : 0 < n)
    (hlt : ((pre.length + 1 : Nat) : Int) < n) :
    BarrierHandler.arrive s c name n (pre, n) =
      ⟨{ s with barrier_calls_ := s.barrier_calls_.assign name (pre ++ [c], n) },
        [Event.EnqueueRequest CtrlMethod.kBarrier], Status.ok⟩ := by
  have hne : ¬ listSize (pre ++ [c]) = castToSizeT n := by
    rw [listSize_snoc pre c n hint hpos (le_of_lt hlt)]
    exact ne_of_lt hlt
  simp [BarrierHandler.arrive, hne]

theorem arrive_release (s : CtrlServer) (c : CallId) (name : String) (n : Int)
    (pre : List CallId) (hint : isInt32 n) (hpos : 0 < n)
    (heq : ((pre.length + 1 : Nat) : Int) = n) :
    BarrierHandler.arrive s c name n (pre, n) =
      ⟨{ s with barrier_calls_ := (s.barrier_calls_.erase name).1 },
        (pre ++ [c]).map (fun p => Event.SendResponse p Payload.empty)
          ++ [Event.EnqueueRequest CtrlMethod.kBarrier], Status.ok⟩ := by
  have hsz : listSize (pre ++ [c]) = castToSizeT n :=
    (listSize_snoc pre c n hint hpos (le_of_eq heq)).mpr heq
  simp [BarrierHandler.arrive, hsz]

/-- A run of arrivals that does not fill an in-flight barrier parks every call. -/
theorem arrivals_park (name : String) (n : Int) (hint : isInt32 n) (hpos : 0 < n)
    (calls : List CallId) :
    ∀ (s : CtrlServer) (pre : List CallId),
      s.barrier_calls_.find name = some (pre, n) →
      ((pre.length + calls.length : Nat) : Int) < n →
      (HandleRpcs s (arrivals name n calls)).status = Status.ok ∧
      (HandleRpcs s (arrivals name n calls)).events
        = calls.map (fun _ => Event.EnqueueRequest CtrlMethod.kBarrier) ∧
      (HandleRpcs s (arrivals name n calls)).server.barrier_calls_.find
        name = some (pre ++ calls, n) := by
  induction calls with
  | nil => intro s pre h _; simp [arrivals, HandleRpcs_nil, h]
  | cons c t ih =>
    intro s pre h hlt
    have hlt1 : ((pre.length + 1 : Nat) : Int) < n := by
      simp only [List.length_cons] at hlt; omega
    have hstep : Process s c (Request.Barrier name n) =
        ⟨{ s with barrier_calls_ := s.barrier_calls_.assign name (pre ++ [c], n) },
          [Event.EnqueueRequest CtrlMethod.kBarrier], Status.ok⟩ := by
      show BarrierHandler s c name n = _
      rw [BarrierHandler_existing s c name n _ h, arrive_park s c name n pre hint hpos hlt1]
    have hfind : ({ s with barrier_calls_ := s.barrier_calls_.assign name (pre ++ [c], n) } :
        CtrlServer).barrier_calls_.find name = some (pre ++ [c], n) := by
      simp [HashMap.find_assign, h]
    have hlt2 : (((pre ++ [c]).length + t.length : Nat) : Int) < n := by
      simp only [List.length_cons, List.length_append, List.length_nil] at hlt ⊢; omega
    have := ih _ (pre ++ [c]) hfind hlt2
    simp only [arrivals, List.map_cons]
    rw [HandleRpcs_cons_ok _ _ _ _ (by rw [hstep])]
    rw [hstep]
    simpa [arrivals] using this

/-! ## Observations on events -/

theorem responses_append (a b : List Event) :
    responses (a ++ b) = responses a ++ responses b := by
  induction a with
  | nil => rfl
  | cons e t ih => cases e <;> simp [responses, ih]

theorem responses_enqueues (l : List CallId) (m : CtrlMethod) :
    responses (l.map (fun _ => Event.EnqueueRequest m)) = [] := by
  induction l with
  | nil => rfl
  | cons e t ih => simpa [responses] using ih

theorem responses_sends (l : List CallId) (p : Payload) :
    responses (l.map (fun c => Event.SendResponse c p)) = l.map (fun c => (c, p)) := by
  induction l with
  | nil => rfl
  | cons e t ih => simpa [responses] using ih

/-! ## Runs of arrivals at a fresh barrier -/

theorem fresh_first_park (s : CtrlServer) (c : CallId) (name : String) (n : Int)
    (hfresh : s.barrier_calls_.find name = none) (hint : isInt32 n) (hgt : 1 < n) :
    (BarrierHandler s c name n).status = Status.ok ∧
    (BarrierHandler s c name n).events = [Event.EnqueueRequest CtrlMethod.kBarrier] ∧
    (BarrierHandler s c name n).server.barrier_calls_.find name = some ([c], n) := by
  rw [BarrierHandler_fresh s c name n hfresh,
    arrive_park _ c name n [] hint (by omega) (by simpa using hgt)]
  simp [HashMap.find_assign, HashMap.find_emplace _ _ _ _ hfresh]

theorem arrivals_fresh_park (name : String) (n : Int) (hint : isInt32 n) (hpos : 0 < n)
    (calls : List CallId) (s : CtrlServer) (hfresh : s.barrier_calls_.find name = none)
    (hlt : (calls.length : Int) < n) :
    (HandleRpcs s (arrivals name n calls)).status = Status.ok ∧
    (HandleRpcs s (arrivals name n calls)).events
      = calls.map (fun _ => Event.EnqueueRequest CtrlMethod.kBarrier) ∧
    (HandleRpcs s (arrivals name n calls)).server.barrier_calls_.find name
      = if calls = [] then none else some (calls, n) := by
  cases calls with
  | nil => simp [arrivals, HandleRpcs_nil, hfresh]
  | cons c t =>
    have hgt : 1 < n := by simp only [List.length_cons] at hlt; omega
    obtain ⟨h1, h2, h3⟩ := fresh_first_park s c name n hfresh hint hgt
    have hlt2 : ((([c] : List CallId).length + t.length : Nat) : Int) < n := by
      simp only [List.length_cons, List.length_nil] at hlt ⊢; omega
    obtain ⟨k1, k2, k3⟩ := arrivals_park name n hint hpos t _ [c] h3 hlt2
    have hp : (Process s c (Request.Barrier name n)) = BarrierHandler s c name n := rfl
    have hsplit : arrivals name n (c :: t) = (c, Request.Barrier name n) :: arrivals name n t := rfl
    rw [hsplit, HandleRpcs_cons_ok _ _ _ _ (by rw [hp]; exact h1), hp]
    refine ⟨k1, ?_, ?_⟩
    · simp [h2, k2]
    · simpa using k3


/-- The last arrival at a barrier that misses exactly one call releases it. -/
theorem last_arrival (s : CtrlServer) (name : String) (n : Int) (calls : List CallId)
    (last : CallId) (hpos : 0 < n) (hint : isInt32 n)
    (hlen : ((calls.length + 1 : Nat) : Int) = n)
    (hfind : s.barrier_calls_.find name = if calls = [] then none else some (calls, n)) :
    BarrierHandler s last name n =
      ⟨{ s with barrier_calls_ :=
            ((if calls = [] then (s.barrier_calls_.emplace name ([], n)).1
              else s.barrier_calls_).erase name).1 },
        (calls ++ [last]).map (fun c => Event.SendResponse c Payload.empty)
          ++ [Event.EnqueueRequest CtrlMethod.kBarrier], Status.ok⟩ := by
  by_cases hc : calls = []
  · subst hc
    simp only [if_true] at hfind ⊢
    rw [BarrierHandler_fresh s last name n hfind, arrive_release _ last name n [] hint hpos hlen]
  · simp only [hc, if_false] at hfind ⊢
    rw [BarrierHandler_existing s last name n _ hfind,
      arrive_release _ last name n calls hint hpos hlen]

/-- C1 (barrier release).  From a state without a barrier under `name`, let the
calls `calls` followed by `last` arrive, `n` calls in all with `0 < n`, each
declaring the count `n`.  The first `n - 1` arrivals are processed without a
failure and without any response; the handler of the `n`-th arrival returns
normally, its actions are one `SendResponse` (success, no payload) per call in
arrival order, `last` being the final one, followed by the re-arming, and it
leaves no entry for `name` in the barrier map. -/
theorem barrier_release (s : CtrlServer) (name : String) (n : Int) (calls : List CallId)
    (last : CallId) (hfresh : s.barrier_calls_.find name = none) (hpos : 0 < n)
    (hint : isInt32 n) (hlen : ((calls.length + 1 : Nat) : Int) = n) :
    (HandleRpcs s (arrivals name n calls)).status = Status.ok ∧
    responses (HandleRpcs s (arrivals name n calls)).events = [] ∧
    (BarrierHandler (HandleRpcs s (arrivals name n calls)).server last name n).status
      = Status.ok ∧
    (BarrierHandler (HandleRpcs s (arrivals name n calls)).server last name n).events
      = (calls ++ [last]).map (fun c => Event.SendResponse c Payload.empty)
          ++ [Event.EnqueueRequest CtrlMethod.kBarrier] ∧
    (BarrierHandler (HandleRpcs s (arrivals name n calls)).server last name n).server.barrier_calls_.find
      name = none := by
  have hlt : (calls.length : Int) < n := by omega
  obtain ⟨h1, h2, h3⟩ := arrivals_fresh_park name n hint hpos calls s hfresh hlt
  have hl := last_arrival _ name n calls last hpos hint hlen h3
  refine ⟨h1, ?_, ?_, ?_, ?_⟩
  · rw [h2, responses_enqueues]
  · rw [hl]
  · rw [hl]
  · rw [hl]
    simp [HashMap.find_erase]

/-- Witness of C1: three calls arrive at the fresh barrier "epoch0" of the
initial server. -/
theorem barrier_release_witness :
    (BarrierHandler (HandleRpcs CtrlServer.init (arrivals "epoch0" 3 [10, 11])).server
        12 "epoch0" 3).events
      = [Event.SendResponse 10 Payload.empty, Event.SendResponse 11 Payload.empty,
         Event.SendResponse 12 Payload.empty, Event.EnqueueRequest CtrlMethod.kBarrier] :=
  (barrier_release CtrlServer.init "epoch0" 3 [10, 11] 12 rfl (by decide)
    (by decide) (by decide)).2.2.2.1

/-- An arrival that leaves the barrier short of its count parks the call and
touches nothing but the entry of the barrier. -/
theorem arrival_short (s : CtrlServer) (c : CallId) (name : String) (n : Int)
    (hpos : 0 < n) (hint : isInt32 n)
    (hcount : ∀ e, s.barrier_calls_.find name = some e → e.2 = n)
    (hfew : (((arrived s name).length + 1 : Nat) : Int) < n) :
    (BarrierHandler s c name n).status = Status.ok ∧
    (BarrierHandler s c name n).events = [Event.EnqueueRequest CtrlMethod.kBarrier] ∧
    (BarrierHandler s c name n).server.barrier_calls_.find name
      = some (arrived s name ++ [c], n) ∧
    (∀ k, k ≠ name →
      (BarrierHandler s c name n).server.barrier_calls_.find k = s.barrier_calls_.find k) ∧
    (BarrierHandler s c name n).server.name2lock_status_ = s.name2lock_status_ ∧
    (BarrierHandler s c name n).server.kv_ = s.kv_ ∧
    (BarrierHandler s c name n).server.pending_kv_calls_ = s.pending_kv_calls_ ∧
    (BarrierHandler s c name n).server.count_ = s.count_ := by
  cases hf : s.barrier_calls_.find name with
  | none =>
    have ha : arrived s name = [] := by simp [arrived, hf]
    rw [ha] at hfew ⊢
    rw [BarrierHandler_fresh s c name n hf, arrive_park _ c name n [] hint hpos hfew]
    refine ⟨rfl, rfl, ?_, ?_, rfl, rfl, rfl, rfl⟩
    · simp [HashMap.find_assign, HashMap.find_emplace _ _ _ _ hf]
    · intro k hk
      simp [HashMap.find_assign, HashMap.find_emplace _ _ _ _ hf, hk]
  | some e =>
    obtain ⟨pre, m⟩ := e
    have hm : m = n := hcount _ hf
    subst hm
    have ha : arrived s name = pre := by simp [arrived, hf]
    rw [ha] at hfew ⊢
    rw [BarrierHandler_existing s c name m _ hf, arrive_park _ c name m pre hint hpos hfew]
    refine ⟨rfl, rfl, ?_, ?_, rfl, rfl, rfl, rfl⟩
    · simp [HashMap.find_assign, hf]
    · intro k hk
      simp [HashMap.find_assign, hk]

/-- C2 (no partial release).  First part: for a count `n > 0`, an arrival at
the barrier `name` (fresh, or in flight with the stored count `n`) after which
fewer than `n` calls have arrived returns normally, its only action is the
re-arming (no response is sent), the barrier holds the earlier calls followed by
the new one, and no other barrier and no other map changes.  Second part: when
three calls arrive at the fresh barrier "epoch0" with count 3, the first two
handlers send no response and the third handler sends the three responses, in
arrival order. -/
theorem no_partial_release :
    (∀ (s : CtrlServer) (c : CallId) (name : String) (n : Int),
      0 < n → isInt32 n →
      (∀ e, s.barrier_calls_.find name = some e → e.2 = n) →
      (((arrived s name).length + 1 : Nat) : Int) < n →
      (BarrierHandler s c name n).status = Status.ok ∧
      (BarrierHandler s c name n).events = [Event.EnqueueRequest CtrlMethod.kBarrier] ∧
      responses (BarrierHandler s c name n).events = [] ∧
      (BarrierHandler s c name n).server.barrier_calls_.find name
        = some (arrived s name ++ [c], n) ∧
      (∀ k, k ≠ name →
        (BarrierHandler s c name n).server.barrier_calls_.find k = s.barrier_calls_.find k) ∧
      (BarrierHandler s c name n).server.name2lock_status_ = s.name2lock_status_ ∧
      (BarrierHandler s c name n).server.kv_ = s.kv_ ∧
      (BarrierHandler s c name n).server.pending_kv_calls_ = s.pending_kv_calls_ ∧
      (BarrierHandler s c name n).server.count_ = s.count_) ∧
    (∀ (s : CtrlServer) (c1 c2 c3 : CallId),
      s.barrier_calls_.find "epoch0" = none →
      responses (BarrierHandler s c1 "epoch0" 3).events = [] ∧
      responses (BarrierHandler (BarrierHandler s c1 "epoch0" 3).server c2 "epoch0" 3).events
        = [] ∧
      responses (BarrierHandler
          (BarrierHandler (BarrierHandler s c1 "epoch0" 3).server c2 "epoch0" 3).server
          c3 "epoch0" 3).events
        = [(c1, Payload.empty), (c2, Payload.empty), (c3, Payload.empty)]) := by
  constructor
  · intro s c name n hpos hint hcount hfew
    obtain ⟨h1, h2, h3, h4, h5, h6, h7, h8⟩ := arrival_short s c name n hpos hint hcount hfew
    exact ⟨h1, h2, by rw [h2]; rfl, h3, h4, h5, h6, h7, h8⟩
  · intro s c1 c2 c3 hfresh
    have hi : isInt32 3 := by decide
    have ha0 : arrived s "epoch0" = [] := by simp [arrived, hfresh]
    obtain ⟨_, e1, f1, _⟩ := arrival_short s c1 "epoch0" 3 (by decide) hi
      (by intro e he; rw [hfresh] at he; cases he) (by rw [ha0]; decide)
    rw [ha0] at f1
    have f1b : (BarrierHandler s c1 "epoch0" 3).server.barrier_calls_.find "epoch0"
        = some ([c1], 3) := f1
    have ha1 : arrived (BarrierHandler s c1 "epoch0" 3).server "epoch0" = [c1] := by
      simp [arrived, f1b]
    obtain ⟨_, e2, f2, _⟩ := arrival_short (BarrierHandler s c1 "epoch0" 3).server c2
      "epoch0" 3 (by decide) hi
      (by intro e he; rw [f1b] at he; cases he; rfl) (by rw [ha1]; simp)
    rw [ha1] at f2
    have f3 : (BarrierHandler (BarrierHandler s c1 "epoch0" 3).server c2 "epoch0"
        3).server.barrier_calls_.find "epoch0" = some ([c1, c2], 3) := f2
    refine ⟨by rw [e1]; rfl, by rw [e2]; rfl, ?_⟩
    rw [BarrierHandler_existing _ c3 "epoch0" 3 _ f3,
      arrive_release _ c3 "epoch0" 3 [c1, c2] hi (by decide) (by simp)]
    rfl

/-- Witness of C2: the second of three arrivals at "epoch0" in the initial
server is parked behind the first one, and the scenario holds for the calls 10,
11 and 12. -/
theorem no_partial_release_witness :
    (BarrierHandler (BarrierHandler CtrlServer.init 10 "epoch0" 3).server 11 "epoch0"
        3).server.barrier_calls_.find "epoch0" = some ([10, 11], 3) ∧
    responses (BarrierHandler
        (BarrierHandler (BarrierHandler CtrlServer.init 10 "epoch0" 3).server 11 "epoch0"
          3).server 12 "epoch0" 3).events
      = [(10, Payload.empty), (11, Payload.empty), (12, Payload.empty)] :=
  ⟨(no_partial_release.1 (BarrierHandler CtrlServer.init 10 "epoch0" 3).server 11 "epoch0" 3
      (by decide) (by decide) (by decide) (by decide)).2.2.2.1,
   (no_partial_release.2 CtrlServer.init 10 11 12 rfl).2.2⟩


theorem HandleRpcs_singleton (s : CtrlServer) (call : CallId) (req : Request) :
    HandleRpcs s [(call, req)] = Process s call req := by
  by_cases h : (Process s call req).status = Status.ok
  · rw [HandleRpcs_cons_ok _ _ _ _ h, HandleRpcs_nil]
    simp [← h]
  · exact HandleRpcs_cons_stop _ _ _ _ h

/-- A run of exactly `n` arrivals at a fresh barrier of count `n` answers every
call once, in arrival order, and leaves no barrier under the name. -/
theorem arrivals_complete (s : CtrlServer) (name : String) (n : Int) (calls : List CallId)
    (hfresh : s.barrier_calls_.find name = none) (hpos : 0 < n) (hint : isInt32 n)
    (hlen : (calls.length : Int) = n) :
    (HandleRpcs s (arrivals name n calls)).status = Status.ok ∧
    responses (HandleRpcs s (arrivals name n calls)).events
      = calls.map (fun c => (c, Payload.empty)) ∧
    (HandleRpcs s (arrivals name n calls)).server.barrier_calls_.find name = none := by
  rcases List.eq_nil_or_concat calls with hnil | ⟨front, last, hcat⟩
  · subst hnil; simp at hlen; omega
  · rw [List.concat_eq_append] at hcat
    subst hcat
    have hlen1 : ((front.length + 1 : Nat) : Int) = n := by
      simpa using hlen
    have hlt : (front.length : Int) < n := by omega
    obtain ⟨h1, h2, h3⟩ := arrivals_fresh_park name n hint hpos front s hfresh hlt
    have hl := last_arrival _ name n front last hpos hint hlen1 h3
    have hsplit : arrivals name n (front ++ [last])
        = arrivals name n front ++ [(last, Request.Barrier name n)] := by
      simp [arrivals]
    have hp : ∀ t, Process t last (Request.Barrier name n) = BarrierHandler t last name n :=
      fun _ => rfl
    rw [hsplit, HandleRpcs_append _ _ _ h1, HandleRpcs_singleton, hp, hl]
    refine ⟨rfl, ?_, ?_⟩
    · simp only [h2, responses_append, responses_enqueues, responses_sends]
      simp [responses]
    · simp [HashMap.find_erase]


/-- Counterexample to C3 as stated (count `m = 1`).  The barrier "b" of count 2
is completed by the calls 10 and 11.  The next arrival, call 12 declaring the
count 1, is accepted, but no barrier holding only call 12 is left in the map:
the new barrier is complete with its first arrival, call 12 is answered in the
same step and the entry is erased. -/
theorem fresh_barrier_counterexample :
    responses (HandleRpcs CtrlServer.init (arrivals "b" 2 [10, 11])).events
      = [(10, Payload.empty), (11, Payload.empty)] ∧
    (BarrierHandler (HandleRpcs CtrlServer.init (arrivals "b" 2 [10, 11])).server
        12 "b" 1).status = Status.ok ∧
    (BarrierHandler (HandleRpcs CtrlServer.init (arrivals "b" 2 [10, 11])).server
        12 "b" 1).server.barrier_calls_.find "b" ≠ some ([12], 1) ∧
    (BarrierHandler (HandleRpcs CtrlServer.init (arrivals "b" 2 [10, 11])).server
        12 "b" 1).server.barrier_calls_.find "b" = none ∧
    responses (BarrierHandler (HandleRpcs CtrlServer.init (arrivals "b" 2 [10, 11])).server
        12 "b" 1).events = [(12, Payload.empty)] := by
  decide

/-- C3 as amended (fresh barrier after release).  From a state without a
barrier under `name`, let exactly `n` calls arrive declaring the count `n > 0`:
the run ends normally, each call is answered once, in arrival order, and no
barrier is left under `name`.  The next arrival at `name`, by a call `c`
declaring any count `m > 0`, returns normally and sends a response to no call
other than `c`.  If `m > 1` it sends no response at all and leaves under `name`
a barrier of count `m` that holds only `c`.  If `m = 1` the new barrier is
complete at once: `c` is answered and no barrier is left under `name`. -/
theorem fresh_barrier_after_release (s : CtrlServer) (name : String) (n m : Int)
    (calls : List CallId) (c : CallId)
    (hfresh : s.barrier_calls_.find name = none) (hn : 0 < n) (hnint : isInt32 n)
    (hlen : (calls.length : Int) = n) (hm : 0 < m) (hmint : isInt32 m) :
    (HandleRpcs s (arrivals name n calls)).status = Status.ok ∧
    responses (HandleRpcs s (arrivals name n calls)).events
      = calls.map (fun a => (a, Payload.empty)) ∧
    (HandleRpcs s (arrivals name n calls)).server.barrier_calls_.find name = none ∧
    (BarrierHandler (HandleRpcs s (arrivals name n calls)).server c name m).status
      = Status.ok ∧
    (∀ a p, (a, p) ∈ responses
        (BarrierHandler (HandleRpcs s (arrivals name n calls)).server c name m).events →
      a = c) ∧
    (1 < m →
      (BarrierHandler (HandleRpcs s (arrivals name n calls)).server c name m).events
        = [Event.EnqueueRequest CtrlMethod.kBarrier] ∧
      (BarrierHandler (HandleRpcs s (arrivals name n calls)).server c name
        m).server.barrier_calls_.find name = some ([c], m)) ∧
    (m = 1 →
      (BarrierHandler (HandleRpcs s (arrivals name n calls)).server c name m).events
        = [Event.SendResponse c Payload.empty, Event.EnqueueRequest CtrlMethod.kBarrier] ∧
      (BarrierHandler (HandleRpcs s (arrivals name n calls)).server c name
        m).server.barrier_calls_.find name = none) := by
  obtain ⟨h1, h2, h3⟩ := arrivals_complete s name n calls hfresh hn hnint hlen
  refine ⟨h1, h2, h3, ?_⟩
  generalize (HandleRpcs s (arrivals name n calls)).server = t at h3 ⊢
  by_cases h1m : m = 1
  · subst h1m
    have hl := last_arrival t name 1 [] c (by decide) hmint (by simp) (by simpa using h3)
    simp only [List.nil_append, List.map_cons, List.map_nil, List.singleton_append,
      if_true] at hl
    rw [hl]
    refine ⟨rfl, ?_, ?_, ?_⟩
    · intro a p hmem
      simp only [responses, List.mem_singleton, Prod.mk.injEq] at hmem
      exact hmem.1
    · intro h; exact absurd h (by decide)
    · intro _
      exact ⟨rfl, by simp [HashMap.find_erase]⟩
  · have hgt : 1 < m := by omega
    obtain ⟨k1, k2, k3⟩ := fresh_first_park t c name m h3 hmint hgt
    refine ⟨k1, ?_, ?_, ?_⟩
    · intro a p hmem
      rw [k2] at hmem
      simp [responses] at hmem
    · intro _; exact ⟨k2, k3⟩
    · intro h; exact absurd h h1m

/-- Witness of C3 as amended: after the calls 10 and 11 completed the barrier
"b" of count 2, call 12 declaring the count 3 opens a new barrier. -/
theorem fresh_barrier_after_release_witness :
    (BarrierHandler (HandleRpcs CtrlServer.init (arrivals "b" 2 [10, 11])).server 12 "b"
        3).server.barrier_calls_.find "b" = some ([12], 3) :=
  ((fresh_barrier_after_release CtrlServer.init "b" 2 3 [10, 11] 12 rfl (by decide)
      (by decide) (by decide) (by decide) (by decide)).2.2.2.2.2.1 (by decide)).2

/-- C4 (barrier count mismatch).  While the barrier `name` is in flight with the
stored count `n`, an arrival declaring a count `m ≠ n` fails the `CHECK_EQ`:
the handler stops with no action at all (no response, no re-arming) and the
server state, the list of the barrier included, is as before.  An arrival
declaring `n` itself returns normally. -/
theorem barrier_count_mismatch (s : CtrlServer) (c : CallId) (name : String)
    (pre : List CallId) (n m : Int)
    (hflight : s.barrier_calls_.find name = some (pre, n)) :
    (m ≠ n → BarrierHandler s c name m = ⟨s, [], Status.checkFailed⟩) ∧
    (BarrierHandler s c name n).status = Status.ok := by
  constructor
  · intro hne
    rw [BarrierHandler_existing s c name m _ hflight]
    simp [BarrierHandler.arrive, hne]
  · rw [BarrierHandler_existing s c name n _ hflight]
    simp only [BarrierHandler.arrive, ne_eq, not_true_eq_false, if_false]
    split <;> rfl

/-- Witness of C4: call 10 opened the barrier "b" with count 3; call 11
declaring the count 2 fails the check and changes nothing. -/
theorem barrier_count_mismatch_witness :
    BarrierHandler (BarrierHandler CtrlServer.init 10 "b" 3).server 11 "b" 2
      = ⟨(BarrierHandler CtrlServer.init 10 "b" 3).server, [], Status.checkFailed⟩ :=
  (barrier_count_mismatch (BarrierHandler CtrlServer.init 10 "b" 3).server 11 "b" [10] 3 2
    (by decide)).1 (by decide)


/-! ## The lock state of a name along a run -/

theorem arrive_locks (s : CtrlServer) (c : CallId) (name : String) (n : Int)
    (e : List CallId × Int) :
    (BarrierHandler.arrive s c name n e).server.name2lock_status_ = s.name2lock_status_ := by
  unfold BarrierHandler.arrive
  split
  · rfl
  · dsimp only
    split <;> rfl

/-- Requests other than the three lock requests and the reset leave the lock
map as it is. -/
theorem locks_frame (s : CtrlServer) (c : CallId) (r : Request)
    (h1 : ∀ n, r ≠ Request.TryLock n) (h2 : ∀ n, r ≠ Request.NotifyDone n)
    (h3 : ∀ n, r ≠ Request.WaitUntilDone n) (h4 : r ≠ Request.Clear) :
    (Process s c r).server.name2lock_status_ = s.name2lock_status_ := by
  cases r with
  | LoadServer => rfl
  | Barrier name num =>
    simp only [Process, BarrierHandler]
    split <;> rw [arrive_locks]
  | TryLock n => exact absurd rfl (h1 n)
  | NotifyDone n => exact absurd rfl (h2 n)
  | WaitUntilDone n => exact absurd rfl (h3 n)
  | PushKV key val =>
    simp only [Process, PushKVHandler]
    split
    · split <;> rfl
    · rfl
  | ClearKV key =>
    simp only [Process, ClearKVHandler]
    split
    · rfl
    · split <;> rfl
  | PullKV key =>
    simp only [Process, PullKVHandler]
    split <;> rfl
  | PushActEvent a => rfl
  | Clear => exact absurd rfl h4
  | IncreaseCount key val => rfl
  | EraseCount key =>
    simp only [Process, EraseCountHandler]
    split <;> rfl
  | PushAvgActInterval a b => rfl

theorem find_TryLock (s : CtrlServer) (c : CallId) (n name : String) :
    (TryLockHandler s c n).server.name2lock_status_.find name =
      if n = name ∧ s.name2lock_status_.find name = none then some (some [])
      else s.name2lock_status_.find name := by
  unfold TryLockHandler
  cases h : s.name2lock_status_.find n with
  | none =>
    have he : (s.name2lock_status_.emplace n (some [])).2 = true := by
      rw [HashMap.emplace_snd, h]; rfl
    simp only [he, if_true]
    rw [HashMap.find_emplace _ _ _ _ h]
    by_cases hn : n = name
    · subst hn; simp [h]
    · have : ¬ name = n := fun e => hn e.symm
      simp [hn, this]
  | some st =>
    have hne : ∀ (hn : n = name), s.name2lock_status_.find name ≠ none := by
      intro hn; subst hn; rw [h]; exact Option.some_ne_none _
    cases st with
    | none =>
      by_cases hn : n = name
      · simp [hn, hne hn]
      · simp [hn]
    | some ws =>
      by_cases hn : n = name
      · simp [hn, hne hn]
      · simp [hn]

theorem find_NotifyDone (s : CtrlServer) (c : CallId) (n name : String) :
    (NotifyDoneHandler s c n).server.name2lock_status_.find name =
      if n = name ∧ (NotifyDoneHandler s c n).status = Status.ok then some none
      else s.name2lock_status_.find name := by
  unfold NotifyDoneHandler
  cases h : s.name2lock_status_.find n with
  | none => simp
  | some st =>
    cases st with
    | none => simp
    | some ws =>
      simp only [HashMap.find_assign]
      by_cases hn : n = name
      · subst hn; simp [h]
      · have : ¬ name = n := fun e => hn e.symm
        simp [hn, this]

theorem status_NotifyDone (s : CtrlServer) (c : CallId) (n : String) :
    (NotifyDoneHandler s c n).status = Status.ok ↔ lockState s n = LockState.LockedActive := by
  unfold NotifyDoneHandler lockState
  cases h : s.name2lock_status_.find n with
  | none => simp
  | some st => cases st <;> simp

theorem find_WaitUntilDone (s : CtrlServer) (c : CallId) (n name : String) :
    (WaitUntilDoneHandler s c n).server.name2lock_status_.find name =
      match s.name2lock_status_.find name with
      | some (some ws) => if n = name then some (some (ws ++ [c])) else some (some ws)
      | other => other := by
  by_cases hn : n = name
  · subst hn
    unfold WaitUntilDoneHandler
    cases h : s.name2lock_status_.find n with
    | none => simp [h]
    | some st =>
      cases st with
      | none => simp [h]
      | some ws => simp [HashMap.find_assign, h]
  · have hk : ¬ name = n := fun e => hn e.symm
    have hsame : (WaitUntilDoneHandler s c n).server.name2lock_status_.find name
        = s.name2lock_status_.find name := by
      unfold WaitUntilDoneHandler
      cases h : s.name2lock_status_.find n with
      | none => rfl
      | some st =>
        cases st with
        | none => rfl
        | some ws => simp [HashMap.find_assign, hk]
    rw [hsame]
    cases s.name2lock_status_.find name with
    | none => rfl
    | some st => cases st <;> simp [hn]


theorem lockState_eq_of_find (s t : CtrlServer) (name : String)
    (h : t.name2lock_status_.find name = s.name2lock_status_.find name) :
    lockState t name = lockState s name := by
  unfold lockState; rw [h]

theorem lockState_unset_iff (s : CtrlServer) (name : String) :
    lockState s name = LockState.Unset ↔ s.name2lock_status_.find name = none := by
  unfold lockState
  cases s.name2lock_status_.find name with
  | none => simp
  | some st => cases st <;> simp

/-- The lock state of `name` after one request other than the reset. -/
theorem lockState_step (s : CtrlServer) (c : CallId) (r : Request) (name : String)
    (hr : r ≠ Request.Clear) :
    lockState (Process s c r).server name =
      if r = Request.TryLock name ∧ lockState s name = LockState.Unset then
        LockState.LockedActive
      else if r = Request.NotifyDone name ∧ lockState s name = LockState.LockedActive then
        LockState.Done
      else lockState s name := by
  by_cases h1 : ∃ n, r = Request.TryLock n
  · obtain ⟨n, rfl⟩ := h1
    have hf := find_TryLock s c n name
    simp only [Request.TryLock.injEq, reduceCtorEq, false_and, if_false]
    show lockState (TryLockHandler s c n).server name = _
    by_cases hn : n = name
    · subst hn
      by_cases hu : lockState s n = LockState.Unset
      · have hnone := (lockState_unset_iff s n).mp hu
        simp only [hu, and_self, if_true]
        unfold lockState
        rw [hf]; simp [hnone]
      · have hnone : ¬ s.name2lock_status_.find n = none :=
          fun e => hu ((lockState_unset_iff s n).mpr e)
        simp only [hu, and_false, if_false]
        apply lockState_eq_of_find
        rw [hf]; simp [hnone]
    · simp only [hn, false_and, if_false]
      apply lockState_eq_of_find
      rw [hf]; simp [hn]
  by_cases h2 : ∃ n, r = Request.NotifyDone n
  · obtain ⟨n, rfl⟩ := h2
    have hf := find_NotifyDone s c n name
    have hs := status_NotifyDone s c n
    simp only [Request.NotifyDone.injEq, reduceCtorEq, false_and, if_false]
    show lockState (NotifyDoneHandler s c n).server name = _
    by_cases hn : n = name
    · subst hn
      by_cases ha : lockState s n = LockState.LockedActive
      · simp only [ha, and_self, if_true]
        unfold lockState
        rw [hf]; simp [hs.mpr ha]
      · have hnot : ¬ (NotifyDoneHandler s c n).status = Status.ok := fun e => ha (hs.mp e)
        simp only [ha, and_false, if_false]
        apply lockState_eq_of_find
        rw [hf]; simp [hnot]
    · simp only [hn, false_and, if_false]
      apply lockState_eq_of_find
      rw [hf]; simp [hn]
  by_cases h3 : ∃ n, r = Request.WaitUntilDone n
  · obtain ⟨n, rfl⟩ := h3
    have hf := find_WaitUntilDone s c n name
    simp only [reduceCtorEq, false_and, if_false]
    show lockState (WaitUntilDoneHandler s c n).server name = _
    unfold lockState
    rw [hf]
    cases s.name2lock_status_.find name with
    | none => rfl
    | some st =>
      cases st with
      | none => rfl
      | some ws => by_cases hn : n = name <;> simp [hn]
  · have hfr := locks_frame s c r (fun n e => h1 ⟨n, e⟩) (fun n e => h2 ⟨n, e⟩)
      (fun n e => h3 ⟨n, e⟩) hr
    have ht : ¬ r = Request.TryLock name := fun e => h1 ⟨name, e⟩
    have hd : ¬ r = Request.NotifyDone name := fun e => h2 ⟨name, e⟩
    simp only [ht, hd, false_and, if_false]
    apply lockState_eq_of_find
    rw [hfr]

theorem HandleRpcs_cons_status (s : CtrlServer) (x : CallId × Request)
    (t : List (CallId × Request)) (h : (HandleRpcs s (x :: t)).status = Status.ok) :
    (Process s x.1 x.2).status = Status.ok ∧
    HandleRpcs s (x :: t) =
      ⟨(HandleRpcs (Process s x.1 x.2).server t).server,
       (Process s x.1 x.2).events ++ (HandleRpcs (Process s x.1 x.2).server t).events,
       (HandleRpcs (Process s x.1 x.2).server t).status⟩ := by
  obtain ⟨c, r⟩ := x
  by_cases hx : (Process s c r).status = Status.ok
  · exact ⟨hx, HandleRpcs_cons_ok _ _ _ _ hx⟩
  · rw [HandleRpcs_cons_stop _ _ _ _ hx] at h
    exact absurd h hx

/-- The state a run ends in is the state the run of the tail ends in, started
after the first request, whenever the whole run ends normally. -/
theorem HandleRpcs_cons_server (s : CtrlServer) (x : CallId × Request)
    (t : List (CallId × Request)) (h : (HandleRpcs s (x :: t)).status = Status.ok) :
    (Process s x.1 x.2).status = Status.ok ∧
    (HandleRpcs (Process s x.1 x.2).server t).status = Status.ok ∧
    (HandleRpcs s (x :: t)).server = (HandleRpcs (Process s x.1 x.2).server t).server := by
  obtain ⟨h1, h2⟩ := HandleRpcs_cons_status s x t h
  rw [h2] at h
  exact ⟨h1, h, by rw [h2]⟩

/-- Without a `TryLock` on `name`, an unset name is unset after a run that ends
normally. -/
theorem unset_run (name : String) (pre : List (CallId × Request)) :
    ∀ s : CtrlServer, lockState s name = LockState.Unset →
      (∀ x ∈ pre, x.2 ≠ Request.Clear) →
      (∀ x ∈ pre, x.2 ≠ Request.TryLock name) →
      (HandleRpcs s pre).status = Status.ok →
      lockState (HandleRpcs s pre).server name = LockState.Unset := by
  induction pre with
  | nil => intro s h _ _ _; simpa [HandleRpcs_nil] using h
  | cons x t ih =>
    intro s h hc ht hok
    obtain ⟨_, k2, k3⟩ := HandleRpcs_cons_server s x t hok
    rw [k3]
    apply ih _ _ (fun y hy => hc y (List.mem_cons_of_mem _ hy))
      (fun y hy => ht y (List.mem_cons_of_mem _ hy)) k2
    rw [lockState_step s x.1 x.2 name (hc x (List.mem_cons_self _ _))]
    simp [ht x (List.mem_cons_self _ _), h]

/-- Without a `NotifyDone` on `name`, a locked name stays locked along a run. -/
theorem active_run (name : String) (pre : List (CallId × Request)) :
    ∀ s : CtrlServer, lockState s name = LockState.LockedActive →
      (∀ x ∈ pre, x.2 ≠ Request.Clear) →
      (∀ x ∈ pre, x.2 ≠ Request.NotifyDone name) →
      (HandleRpcs s pre).status = Status.ok →
      lockState (HandleRpcs s pre).server name = LockState.LockedActive := by
  induction pre with
  | nil => intro s h _ _ _; simpa [HandleRpcs_nil] using h
  | cons x t ih =>
    intro s h hc ht hok
    obtain ⟨_, k2, k3⟩ := HandleRpcs_cons_server s x t hok
    rw [k3]
    apply ih _ _ (fun y hy => hc y (List.mem_cons_of_mem _ hy))
      (fun y hy => ht y (List.mem_cons_of_mem _ hy)) k2
    rw [lockState_step s x.1 x.2 name (hc x (List.mem_cons_self _ _))]
    simp [ht x (List.mem_cons_self _ _), h]

/-- A done name stays done along a run without reset. -/
theorem done_run (name : String) (pre : List (CallId × Request)) :
    ∀ s : CtrlServer, lockState s name = LockState.Done →
      (∀ x ∈ pre, x.2 ≠ Request.Clear) →
      (HandleRpcs s pre).status = Status.ok →
      lockState (HandleRpcs s pre).server name = LockState.Done := by
  induction pre with
  | nil => intro s h _ _; simpa [HandleRpcs_nil] using h
  | cons x t ih =>
    intro s h hc hok
    obtain ⟨_, k2, k3⟩ := HandleRpcs_cons_server s x t hok
    rw [k3]
    apply ih _ _ (fun y hy => hc y (List.mem_cons_of_mem _ hy)) k2
    rw [lockState_step s x.1 x.2 name (hc x (List.mem_cons_self _ _))]
    simp [h]


/-- A name that is not unset is not unset after a run without reset. -/
theorem nonunset_run (name : String) (pre : List (CallId × Request)) :
    ∀ s : CtrlServer, lockState s name ≠ LockState.Unset →
      (∀ x ∈ pre, x.2 ≠ Request.Clear) →
      (HandleRpcs s pre).status = Status.ok →
      lockState (HandleRpcs s pre).server name ≠ LockState.Unset := by
  induction pre with
  | nil => intro s h _ _; simpa [HandleRpcs_nil] using h
  | cons x t ih =>
    intro s h hc hok
    obtain ⟨_, k2, k3⟩ := HandleRpcs_cons_server s x t hok
    rw [k3]
    apply ih _ _ (fun y hy => hc y (List.mem_cons_of_mem _ hy)) k2
    rw [lockState_step s x.1 x.2 name (hc x (List.mem_cons_self _ _))]
    split
    · simp
    · split
      · simp
      · exact h

/-- After a run that contains a `TryLock` on `name` the name is not unset. -/
theorem nonunset_after_try (name : String) (pre : List (CallId × Request)) :
    ∀ s : CtrlServer,
      (∀ x ∈ pre, x.2 ≠ Request.Clear) →
      (∃ x ∈ pre, x.2 = Request.TryLock name) →
      (HandleRpcs s pre).status = Status.ok →
      lockState (HandleRpcs s pre).server name ≠ LockState.Unset := by
  induction pre with
  | nil => intro s _ hex _; obtain ⟨x, hx, _⟩ := hex; cases hx
  | cons x t ih =>
    intro s hc hex hok
    obtain ⟨_, k2, k3⟩ := HandleRpcs_cons_server s x t hok
    rw [k3]
    have hct : ∀ y ∈ t, y.2 ≠ Request.Clear := fun y hy => hc y (List.mem_cons_of_mem _ hy)
    by_cases hx : x.2 = Request.TryLock name
    · apply nonunset_run name t _ _ hct k2
      rw [lockState_step s x.1 x.2 name (hc x (List.mem_cons_self _ _))]
      by_cases hu : lockState s name = LockState.Unset
      · simp [hx, hu]
      · simp [hx, hu]
    · apply ih _ hct _ k2
      obtain ⟨y, hy, hyt⟩ := hex
      rcases List.mem_cons.mp hy with rfl | hy2
      · exact absurd hyt hx
      · exact ⟨y, hy2, hyt⟩

/-- After a run from an unset name that contains a `TryLock` and no
`NotifyDone` on `name`, the name is locked. -/
theorem active_after_try (name : String) (pre : List (CallId × Request)) :
    ∀ s : CtrlServer, lockState s name = LockState.Unset →
      (∀ x ∈ pre, x.2 ≠ Request.Clear) →
      (∃ x ∈ pre, x.2 = Request.TryLock name) →
      (∀ x ∈ pre, x.2 ≠ Request.NotifyDone name) →
      (HandleRpcs s pre).status = Status.ok →
      lockState (HandleRpcs s pre).server name = LockState.LockedActive := by
  induction pre with
  | nil => intro s _ _ hex _ _; obtain ⟨x, hx, _⟩ := hex; cases hx
  | cons x t ih =>
    intro s hu hc hex hnd hok
    obtain ⟨_, k2, k3⟩ := HandleRpcs_cons_server s x t hok
    rw [k3]
    have hct : ∀ y ∈ t, y.2 ≠ Request.Clear := fun y hy => hc y (List.mem_cons_of_mem _ hy)
    have hndt : ∀ y ∈ t, y.2 ≠ Request.NotifyDone name :=
      fun y hy => hnd y (List.mem_cons_of_mem _ hy)
    by_cases hx : x.2 = Request.TryLock name
    · apply active_run name t _ _ hct hndt k2
      rw [lockState_step s x.1 x.2 name (hc x (List.mem_cons_self _ _))]
      simp [hx, hu]
    · apply ih _ _ hct _ hndt k2
      · rw [lockState_step s x.1 x.2 name (hc x (List.mem_cons_self _ _))]
        simp [hx, hu]
      · obtain ⟨y, hy, hyt⟩ := hex
        rcases List.mem_cons.mp hy with rfl | hy2
        · exact absurd hyt hx
        · exact ⟨y, hy2, hyt⟩

/-- After a run that contains a `NotifyDone` on `name` the name is done. -/
theorem done_after_notify (name : String) (pre : List (CallId × Request)) :
    ∀ s : CtrlServer,
      (∀ x ∈ pre, x.2 ≠ Request.Clear) →
      (∃ x ∈ pre, x.2 = Request.NotifyDone name) →
      (HandleRpcs s pre).status = Status.ok →
      lockState (HandleRpcs s pre).server name = LockState.Done := by
  induction pre with
  | nil => intro s _ hex _; obtain ⟨x, hx, _⟩ := hex; cases hx
  | cons x t ih =>
    intro s hc hex hok
    obtain ⟨k1, k2, k3⟩ := HandleRpcs_cons_server s x t hok
    rw [k3]
    have hct : ∀ y ∈ t, y.2 ≠ Request.Clear := fun y hy => hc y (List.mem_cons_of_mem _ hy)
    by_cases hx : x.2 = Request.NotifyDone name
    · apply done_run name t _ _ hct k2
      rw [hx] at k1
      have ha : lockState s name = LockState.LockedActive :=
        (status_NotifyDone s x.1 name).mp k1
      rw [lockState_step s x.1 x.2 name (hc x (List.mem_cons_self _ _))]
      simp [hx, ha]
    · apply ih _ hct _ k2
      obtain ⟨y, hy, hyt⟩ := hex
      rcases List.mem_cons.mp hy with rfl | hy2
      · exact absurd hyt hx
      · exact ⟨y, hy2, hyt⟩

/-- The answer of `TryLockHandler` is determined by the lock state of the name. -/
theorem TryLock_answer (s : CtrlServer) (c : CallId) (name : String) :
    (TryLockHandler s c name).status = Status.ok ∧
    (TryLockHandler s c name).events =
      [Event.SendResponse c (Payload.result
          (match lockState s name with
           | LockState.Unset => TryLockResult.kLocked
           | LockState.LockedActive => TryLockResult.kDoing
           | LockState.Done => TryLockResult.kDone)),
       Event.EnqueueRequest CtrlMethod.kTryLock] := by
  unfold TryLockHandler lockState
  cases h : s.name2lock_status_.find name with
  | none =>
    have he : (s.name2lock_status_.emplace name (some [])).2 = true := by
      rw [HashMap.emplace_snd, h]; rfl
    simp [he]
  | some st => cases st <;> simp

theorem lockState_init (name : String) : lockState CtrlServer.init name = LockState.Unset :=
  rfl

/-- C5 (TryAcquire result sequence).  Let `pre` be any sequence of requests
without a reset that the server, started in its initial state, has processed
without failure, and let call `c` then try to acquire `name`.  The handler
returns normally and its actions are the response to `c` followed by the
re-arming: the response is `kLocked` if `pre` holds no `TryLock` on `name`;
`kDoing` if `pre` holds a `TryLock` and no `NotifyDone` on `name`; `kDone` if
`pre` holds a `NotifyDone` on `name`. -/
theorem try_acquire_sequence (name : String) (pre : List (CallId × Request)) (c : CallId)
    (hnoreset : ∀ x ∈ pre, x.2 ≠ Request.Clear)
    (hok : (HandleRpcs CtrlServer.init pre).status = Status.ok) :
    (TryLockHandler (HandleRpcs CtrlServer.init pre).server c name).status = Status.ok ∧
    ((∀ x ∈ pre, x.2 ≠ Request.TryLock name) →
      (TryLockHandler (HandleRpcs CtrlServer.init pre).server c name).events
        = [Event.SendResponse c (Payload.result TryLockResult.kLocked),
           Event.EnqueueRequest CtrlMethod.kTryLock]) ∧
    ((∃ x ∈ pre, x.2 = Request.TryLock name) →
      (∀ x ∈ pre, x.2 ≠ Request.NotifyDone name) →
      (TryLockHandler (HandleRpcs CtrlServer.init pre).server c name).events
        = [Event.SendResponse c (Payload.result TryLockResult.kDoing),
           Event.EnqueueRequest CtrlMethod.kTryLock]) ∧
    ((∃ x ∈ pre, x.2 = Request.NotifyDone name) →
      (TryLockHandler (HandleRpcs CtrlServer.init pre).server c name).events
        = [Event.SendResponse c (Payload.result TryLockResult.kDone),
           Event.EnqueueRequest CtrlMethod.kTryLock]) := by
  obtain ⟨h1, h2⟩ := TryLock_answer (HandleRpcs CtrlServer.init pre).server c name
  refine ⟨h1, ?_, ?_, ?_⟩
  · intro hno
    rw [h2, unset_run name pre _ (lockState_init name) hnoreset hno hok]
  · intro hex hnd
    rw [h2, active_after_try name pre _ (lockState_init name) hnoreset hex hnd hok]
  · intro hex
    rw [h2, done_after_notify name pre _ hnoreset hex hok]

/-- Witness of C5: after A acquired "ckpt", C parked a wait, B polled and A
signalled completion, the poll of D (call 5) is answered with `kDone`. -/
theorem try_acquire_sequence_witness :
    (TryLockHandler (HandleRpcs CtrlServer.init
        [(1, Request.TryLock "ckpt"), (2, Request.WaitUntilDone "ckpt"),
         (3, Request.TryLock "ckpt"), (4, Request.NotifyDone "ckpt")]).server 5 "ckpt").events
      = [Event.SendResponse 5 (Payload.result TryLockResult.kDone),
         Event.EnqueueRequest CtrlMethod.kTryLock] :=
  (try_acquire_sequence "ckpt"
      [(1, Request.TryLock "ckpt"), (2, Request.WaitUntilDone "ckpt"),
       (3, Request.TryLock "ckpt"), (4, Request.NotifyDone "ckpt")] 5
      (by decide) (by decide)).2.2.2 (by decide)


/-- C6 (exactly one winner).  Let `pre` be any sequence of requests without a
reset, processed without failure from an arbitrary state `s` (the initial
state, or the state a reset left), and let call `c` then try to acquire `name`.
If `pre` already holds a `TryLock` on `name`, the answer to `c` is not
`kLocked`; so among the `TryLock` requests on `name` of a sequence only the
first can be answered `kLocked`.  The first one is answered `kLocked` when
`name` was unset at the start of the sequence.  And no request other than the
reset takes a name that is not unset back to unset. -/
theorem exactly_one_winner (s : CtrlServer) (name : String)
    (pre : List (CallId × Request)) (c : CallId)
    (hnoreset : ∀ x ∈ pre, x.2 ≠ Request.Clear)
    (hok : (HandleRpcs s pre).status = Status.ok) :
    ((∃ x ∈ pre, x.2 = Request.TryLock name) →
      ∃ r, r ≠ TryLockResult.kLocked ∧
        (TryLockHandler (HandleRpcs s pre).server c name).events
          = [Event.SendResponse c (Payload.result r),
             Event.EnqueueRequest CtrlMethod.kTryLock]) ∧
    (lockState s name = LockState.Unset →
      (∀ x ∈ pre, x.2 ≠ Request.TryLock name) →
      (TryLockHandler (HandleRpcs s pre).server c name).events
        = [Event.SendResponse c (Payload.result TryLockResult.kLocked),
           Event.EnqueueRequest CtrlMethod.kTryLock]) ∧
    (∀ (t : CtrlServer) (call : CallId) (r : Request), r ≠ Request.Clear →
      lockState t name ≠ LockState.Unset →
      lockState (Process t call r).server name ≠ LockState.Unset) := by
  obtain ⟨_, h2⟩ := TryLock_answer (HandleRpcs s pre).server c name
  refine ⟨?_, ?_, ?_⟩
  · intro hex
    have hne := nonunset_after_try name pre s hnoreset hex hok
    rw [h2]
    cases hl : lockState (HandleRpcs s pre).server name with
    | Unset => exact absurd hl hne
    | LockedActive => exact ⟨TryLockResult.kDoing, by decide, rfl⟩
    | Done => exact ⟨TryLockResult.kDone, by decide, rfl⟩
  · intro hu hno
    rw [h2, unset_run name pre s hu hnoreset hno hok]
  · intro t call r hr hne
    rw [lockState_step t call r name hr]
    split
    · simp
    · split
      · simp
      · exact hne

/-- Witness of C6: after a first `TryLock` on "ckpt" and a wait, the second
`TryLock` on "ckpt" (call 3) is not answered `kLocked`. -/
theorem exactly_one_winner_witness :
    ∃ r, r ≠ TryLockResult.kLocked ∧
      (TryLockHandler (HandleRpcs CtrlServer.init
          [(1, Request.TryLock "ckpt"), (2, Request.WaitUntilDone "ckpt")]).server
          3 "ckpt").events
        = [Event.SendResponse 3 (Payload.result r),
           Event.EnqueueRequest CtrlMethod.kTryLock] :=
  (exactly_one_winner CtrlServer.init "ckpt"
      [(1, Request.TryLock "ckpt"), (2, Request.WaitUntilDone "ckpt")] 3
      (by decide) (by decide)).1 (by decide)

/-- C7 (TryAcquire without side effect).  When `name` is locked or done,
`TryLockHandler` returns the server state unchanged (all five maps), and its
actions are its own response (`kDoing` when locked, `kDone` when done) and the
re-arming. -/
theorem try_acquire_no_side_effect (s : CtrlServer) (c : CallId) (name : String)
    (hset : lockState s name = LockState.LockedActive ∨ lockState s name = LockState.Done) :
    (TryLockHandler s c name).server = s ∧
    (TryLockHandler s c name).status = Status.ok ∧
    (TryLockHandler s c name).events
      = [Event.SendResponse c (Payload.result
            (if lockState s name = LockState.LockedActive then TryLockResult.kDoing
             else TryLockResult.kDone)),
         Event.EnqueueRequest CtrlMethod.kTryLock] := by
  unfold lockState at hset ⊢
  unfold TryLockHandler
  cases h : s.name2lock_status_.find name with
  | none => rw [h] at hset; simp at hset
  | some st => cases st <;> simp

/-- Witness of C7: a second `TryLock` on "ckpt" leaves the server as it was. -/
theorem try_acquire_no_side_effect_witness :
    (TryLockHandler (TryLockHandler CtrlServer.init 1 "ckpt").server 2 "ckpt").server
      = (TryLockHandler CtrlServer.init 1 "ckpt").server :=
  (try_acquire_no_side_effect (TryLockHandler CtrlServer.init 1 "ckpt").server 2 "ckpt"
    (by decide)).1

/-- C8 (precondition of SignalDone), evaluated at the failing inputs.  On the
never acquired name "ckpt", and on the name "ckpt" after its completion was
signalled, `NotifyDoneHandler` reaches its unguarded dereference: it ends
neither in a failed `CHECK` nor in a thrown exception, so the code defines no
fatal failure there.  On the same unset name the sibling `WaitUntilDoneHandler`
does fail in a defined way (`at` throws). -/
theorem signal_done_unchecked :
    (NotifyDoneHandler CtrlServer.init 1 "ckpt").status = Status.undefinedBehavior ∧
    (NotifyDoneHandler (HandleRpcs CtrlServer.init
        [(1, Request.TryLock "ckpt"), (2, Request.NotifyDone "ckpt")]).server 3
        "ckpt").status = Status.undefinedBehavior ∧
    (WaitUntilDoneHandler CtrlServer.init 1 "ckpt").status = Status.outOfRange := by
  decide

/-- C9 (SignalDone flushes the waiters in FIFO order).  When `name` is locked
with the waiter list `ws` (in parking order, possibly empty),
`NotifyDoneHandler` returns normally; its responses are one per waiter, in the
order of `ws`, followed by the response to the caller `c`, and then the
re-arming; afterwards the entry of `name` holds the null pointer: the name is
done and has no waiter list.  Nothing else in the server changes. -/
theorem signal_done_flushes (s : CtrlServer) (c : CallId) (name : String)
    (ws : List CallId) (hactive : s.name2lock_status_.find name = some (some ws)) :
    NotifyDoneHandler s c name =
      ⟨{ s with name2lock_status_ := s.name2lock_status_.assign name none },
        ws.map (fun w => Event.SendResponse w Payload.empty)
          ++ [Event.SendResponse c Payload.empty,
              Event.EnqueueRequest CtrlMethod.kNotifyDone],
        Status.ok⟩ ∧
    responses (NotifyDoneHandler s c name).events
      = ws.map (fun w => (w, Payload.empty)) ++ [(c, Payload.empty)] ∧
    (NotifyDoneHandler s c name).server.name2lock_status_.find name = some none ∧
    lockState (NotifyDoneHandler s c name).server name = LockState.Done := by
  have heq : NotifyDoneHandler s c name =
      ⟨{ s with name2lock_status_ := s.name2lock_status_.assign name none },
        ws.map (fun w => Event.SendResponse w Payload.empty)
          ++ [Event.SendResponse c Payload.empty,
              Event.EnqueueRequest CtrlMethod.kNotifyDone],
        Status.ok⟩ := by
    unfold NotifyDoneHandler
    rw [hactive]
  have hfind : (NotifyDoneHandler s c name).server.name2lock_status_.find name = some none := by
    rw [heq]; simp [HashMap.find_assign, hactive]
  refine ⟨heq, ?_, hfind, ?_⟩
  · rw [heq]
    simp only [responses_append, responses_sends]
    rfl
  · unfold lockState; rw [hfind]

/-- Witness of C9: calls 2 and 3 wait on "ckpt", then call 4 signals. -/
theorem signal_done_flushes_witness :
    responses (NotifyDoneHandler (HandleRpcs CtrlServer.init
        [(1, Request.TryLock "ckpt"), (2, Request.WaitUntilDone "ckpt"),
         (3, Request.WaitUntilDone "ckpt")]).server 4 "ckpt").events
      = [(2, Payload.empty), (3, Payload.empty), (4, Payload.empty)] :=
  (signal_done_flushes (HandleRpcs CtrlServer.init
        [(1, Request.TryLock "ckpt"), (2, Request.WaitUntilDone "ckpt"),
         (3, Request.WaitUntilDone "ckpt")]).server 4 "ckpt" [2, 3] (by decide)).2.1

/-- C10 (AwaitDone by lock state).  (i) When `name` is locked with the waiter
list `ws`, `WaitUntilDoneHandler` returns normally, sends no response (its only
action is the re-arming) and the waiter list of `name` becomes `ws` followed by
the call.  (ii) When `name` is done, it returns normally, its actions are the
response to the call and the re-arming, and the server state is unchanged.
(iii) When `name` is unset, it does not return (`at` throws): no action, the
call is not parked, the state is unchanged. -/
theorem await_done_by_state (s : CtrlServer) (c : CallId) (name : String) :
    (∀ ws, s.name2lock_status_.find name = some (some ws) →
      WaitUntilDoneHandler s c name =
        ⟨{ s with name2lock_status_ :=
              s.name2lock_status_.assign name (some (ws ++ [c])) },
          [Event.EnqueueRequest CtrlMethod.kWaitUntilDone], Status.ok⟩ ∧
      (WaitUntilDoneHandler s c name).server.name2lock_status_.find name
        = some (some (ws ++ [c]))) ∧
    (s.name2lock_status_.find name = some none →
      WaitUntilDoneHandler s c name =
        ⟨s, [Event.SendResponse c Payload.empty,
             Event.EnqueueRequest CtrlMethod.kWaitUntilDone], Status.ok⟩) ∧
    (s.name2lock_status_.find name = none →
      WaitUntilDoneHandler s c name = ⟨s, [], Status.outOfRange⟩) := by
  refine ⟨?_, ?_, ?_⟩
  · intro ws h
    have heq : WaitUntilDoneHandler s c name =
        ⟨{ s with name2lock_status_ :=
              s.name2lock_status_.assign name (some (ws ++ [c])) },
          [Event.EnqueueRequest CtrlMethod.kWaitUntilDone], Status.ok⟩ := by
      unfold WaitUntilDoneHandler; rw [h]
    refine ⟨heq, ?_⟩
    rw [heq]; simp [HashMap.find_assign, h]
  · intro h; unfold WaitUntilDoneHandler; rw [h]
  · intro h; unfold WaitUntilDoneHandler; rw [h]

/-- Witness of C10: on "ckpt" locked with call 2 waiting, call 3 is parked
behind call 2; on the unset name "other" the handler throws. -/
theorem await_done_by_state_witness :
    (WaitUntilDoneHandler (HandleRpcs CtrlServer.init
        [(1, Request.TryLock "ckpt"), (2, Request.WaitUntilDone "ckpt")]).server
        3 "ckpt").server.name2lock_status_.find "ckpt" = some (some [2, 3]) ∧
    WaitUntilDoneHandler CtrlServer.init 3 "other" = ⟨CtrlServer.init, [], Status.outOfRange⟩ :=
  ⟨((await_done_by_state (HandleRpcs CtrlServer.init
        [(1, Request.TryLock "ckpt"), (2, Request.WaitUntilDone "ckpt")]).server
        3 "ckpt").1 [2] (by decide)).2,
   (await_done_by_state CtrlServer.init 3 "other").2.2 (by decide)⟩

/-! ## The key-value store and the pending reads, step by step -/

theorem arrive_kv (s : CtrlServer) (c : CallId) (name : String) (n : Int)
    (e : List CallId × Int) :
    (BarrierHandler.arrive s c name n e).server.kv_ = s.kv_ ∧
    (BarrierHandler.arrive s c name n e).server.pending_kv_calls_ = s.pending_kv_calls_ ∧
    (BarrierHandler.arrive s c name n e).server.count_ = s.count_ := by
  unfold BarrierHandler.arrive
  split
  · exact ⟨rfl, rfl, rfl⟩
  · dsimp only
    split <;> exact ⟨rfl, rfl, rfl⟩

/-- Requests other than the three key-value requests and the reset leave the
store and the pending reads as they are. -/
theorem kv_frame (s : CtrlServer) (c : CallId) (r : Request)
    (h1 : ∀ k v, r ≠ Request.PushKV k v) (h2 : ∀ k, r ≠ Request.ClearKV k)
    (h3 : ∀ k, r ≠ Request.PullKV k) (h4 : r ≠ Request.Clear) :
    (Process s c r).server.kv_ = s.kv_ ∧
    (Process s c r).server.pending_kv_calls_ = s.pending_kv_calls_ := by
  cases r with
  | LoadServer => exact ⟨rfl, rfl⟩
  | Barrier name num =>
    simp only [Process, BarrierHandler]
    split
    · exact ⟨(arrive_kv _ c name num _).1, (arrive_kv _ c name num _).2.1⟩
    · exact ⟨(arrive_kv _ c name num _).1, (arrive_kv _ c name num _).2.1⟩
  | TryLock n =>
    simp only [Process, TryLockHandler]
    split
    · split <;> exact ⟨rfl, rfl⟩
    · exact ⟨rfl, rfl⟩
    · exact ⟨rfl, rfl⟩
  | NotifyDone n =>
    simp only [Process, NotifyDoneHandler]
    split <;> exact ⟨rfl, rfl⟩
  | WaitUntilDone n =>
    simp only [Process, WaitUntilDoneHandler]
    split <;> exact ⟨rfl, rfl⟩
  | PushKV key val => exact absurd rfl (h1 key val)
  | ClearKV key => exact absurd rfl (h2 key)
  | PullKV key => exact absurd rfl (h3 key)
  | PushActEvent a => exact ⟨rfl, rfl⟩
  | Clear => exact absurd rfl h4
  | IncreaseCount key val => exact ⟨rfl, rfl⟩
  | EraseCount key =>
    simp only [Process, EraseCountHandler]
    split <;> exact ⟨rfl, rfl⟩
  | PushAvgActInterval a b => exact ⟨rfl, rfl⟩

theorem PushKV_published (s : CtrlServer) (c : CallId) (k v x : String)
    (h : s.kv_.find k = some x) :
    PushKVHandler s c k v = ⟨s, [], Status.checkFailed⟩ := by
  unfold PushKVHandler
  rw [HashMap.emplace_present _ _ _ _ h]
  rfl

theorem PushKV_unpublished (s : CtrlServer) (c : CallId) (k v : String)
    (h : s.kv_.find k = none) :
    PushKVHandler s c k v =
      ⟨{ s with kv_ := (s.kv_.emplace k v).1,
                pending_kv_calls_ := (s.pending_kv_calls_.erase k).1 },
        (parkedReads s k).map (fun p => Event.SendResponse p (Payload.val v))
          ++ [Event.SendResponse c Payload.empty, Event.EnqueueRequest CtrlMethod.kPushKV],
        Status.ok⟩ ∨
    (s.pending_kv_calls_.find k = none ∧
      PushKVHandler s c k v =
        ⟨{ s with kv_ := (s.kv_.emplace k v).1 },
          [Event.SendResponse c Payload.empty, Event.EnqueueRequest CtrlMethod.kPushKV],
          Status.ok⟩) := by
  have he : (s.kv_.emplace k v).2 = true := by rw [HashMap.emplace_snd, h]; rfl
  unfold PushKVHandler parkedReads
  cases hp : s.pending_kv_calls_.find k with
  | none => right; simp [he]
  | some l => left; simp [he]

theorem find_kv_PushKV (s : CtrlServer) (c : CallId) (k v key : String) :
    (PushKVHandler s c k v).server.kv_.find key =
      if key = k ∧ s.kv_.find k = none then some v else s.kv_.find key := by
  cases h : s.kv_.find k with
  | some x => rw [PushKV_published s c k v x h]; simp
  | none =>
    have hf := HashMap.find_emplace s.kv_ key k v h
    rcases PushKV_unpublished s c k v h with he | ⟨_, he⟩
    · rw [he]
      by_cases hk : key = k
      · subst hk; simpa using hf
      · simp [hf, hk]
    · rw [he]
      by_cases hk : key = k
      · subst hk; simpa using hf
      · simp [hf, hk]

theorem find_pending_PushKV (s : CtrlServer) (c : CallId) (k v key : String) :
    (PushKVHandler s c k v).server.pending_kv_calls_.find key =
      if key = k ∧ s.kv_.find k = none then none else s.pending_kv_calls_.find key := by
  cases h : s.kv_.find k with
  | some x => rw [PushKV_published s c k v x h]; simp
  | none =>
    rcases PushKV_unpublished s c k v h with he | ⟨hn, he⟩
    · rw [he]
      by_cases hk : key = k
      · simp [HashMap.find_erase, hk]
      · simp [HashMap.find_erase, hk]
    · rw [he]
      by_cases hk : key = k
      · subst hk; simp [hn]
      · simp [hk]

theorem find_kv_ClearKV (s : CtrlServer) (c : CallId) (k key : String) :
    (ClearKVHandler s c k).server.kv_.find key = (if key = k then none else s.kv_.find key) ∧
    (ClearKVHandler s c k).server.pending_kv_calls_ = s.pending_kv_calls_ := by
  unfold ClearKVHandler
  dsimp only
  split
  · exact ⟨HashMap.find_erase _ _ _, rfl⟩
  · split <;> exact ⟨HashMap.find_erase _ _ _, rfl⟩

theorem find_pending_PullKV (s : CtrlServer) (c : CallId) (k key : String) :
    (PullKVHandler s c k).server.kv_ = s.kv_ ∧
    (PullKVHandler s c k).server.pending_kv_calls_.find key =
      if key = k ∧ s.kv_.find k = none then some (parkedReads s k ++ [c])
      else s.pending_kv_calls_.find key := by
  unfold PullKVHandler parkedReads
  cases h : s.kv_.find k with
  | some x => simp
  | none =>
    refine ⟨rfl, ?_⟩
    simp only [HashMap.find_assign, HashMap.find_getOrCreate]
    by_cases hk : key = k
    · subst hk
      cases hp : s.pending_kv_calls_.find key with
      | none => simp [HashMap.getOrCreate, hp]
      | some l => simp [HashMap.getOrCreate, hp]
    · simp [hk]

theorem Clear_kv (s : CtrlServer) (c : CallId) :
    (ClearHandler s c).server.kv_ = HashMap.clear ∧
    (ClearHandler s c).server.name2lock_status_ = HashMap.clear ∧
    (ClearHandler s c).server.pending_kv_calls_ = s.pending_kv_calls_ ∧
    (ClearHandler s c).server.barrier_calls_ = s.barrier_calls_ ∧
    (ClearHandler s c).server.count_ = s.count_ := by
  unfold ClearHandler
  dsimp only
  split <;> exact ⟨rfl, rfl, rfl, rfl, rfl⟩

/-- A property of the server that every request of a guarded kind preserves
holds at the end of every run of such requests. -/
theorem HandleRpcs_preserves (P : CtrlServer → Prop) (G : Request → Prop)
    (hstep : ∀ s c r, G r → P s → P (Process s c r).server) :
    ∀ (pre : List (CallId × Request)) (s : CtrlServer),
      (∀ x ∈ pre, G x.2) → P s → P (HandleRpcs s pre).server := by
  intro pre
  induction pre with
  | nil => intro s _ h; simpa [HandleRpcs_nil] using h
  | cons x t ih =>
    intro s hg h
    obtain ⟨c, r⟩ := x
    have hnext := hstep s c r (hg (c, r) (List.mem_cons_self _ _)) h
    by_cases hx : (Process s c r).status = Status.ok
    · rw [HandleRpcs_cons_ok _ _ _ _ hx]
      exact ih _ (fun y hy => hg y (List.mem_cons_of_mem _ hy)) hnext
    · rw [HandleRpcs_cons_stop _ _ _ _ hx]
      exact hnext

theorem kvConsistent_init : kvConsistent CtrlServer.init :=
  ⟨fun _ h => absurd rfl h, fun _ _ h => by cases h⟩

/-- Every request keeps the store consistent with the pending reads. -/
theorem kvConsistent_step (s : CtrlServer) (c : CallId) (r : Request)
    (h : kvConsistent s) : kvConsistent (Process s c r).server := by
  obtain ⟨i1, i2⟩ := h
  by_cases h1 : ∃ k v, r = Request.PushKV k v
  · obtain ⟨k, v, rfl⟩ := h1
    show kvConsistent (PushKVHandler s c k v).server
    constructor
    · intro key hk
      rw [find_kv_PushKV] at hk
      rw [find_pending_PushKV]
      by_cases hc : key = k ∧ s.kv_.find k = none
      · simp [hc]
      · simp only [hc, if_false] at hk ⊢
        exact i1 key hk
    · intro key l hl
      rw [find_pending_PushKV] at hl
      by_cases hc : key = k ∧ s.kv_.find k = none
      · simp [hc] at hl
      · simp only [hc, if_false] at hl
        exact i2 key l hl
  by_cases h2 : ∃ k, r = Request.ClearKV k
  · obtain ⟨k, rfl⟩ := h2
    show kvConsistent (ClearKVHandler s c k).server
    constructor
    · intro key hk
      rw [(find_kv_ClearKV s c k key).1] at hk
      rw [(find_kv_ClearKV s c k key).2]
      by_cases hc : key = k
      · simp [hc] at hk
      · simp only [hc, if_false] at hk
        exact i1 key hk
    · intro key l hl
      rw [(find_kv_ClearKV s c k key).2] at hl
      exact i2 key l hl
  by_cases h3 : ∃ k, r = Request.PullKV k
  · obtain ⟨k, rfl⟩ := h3
    show kvConsistent (PullKVHandler s c k).server
    constructor
    · intro key hk
      rw [(find_pending_PullKV s c k key).1] at hk
      rw [(find_pending_PullKV s c k key).2]
      by_cases hc : key = k ∧ s.kv_.find k = none
      · obtain ⟨e1, e2⟩ := hc
        subst e1
        exact absurd e2 hk
      · simp only [hc, if_false]
        exact i1 key hk
    · intro key l hl
      rw [(find_pending_PullKV s c k key).2] at hl
      by_cases hc : key = k ∧ s.kv_.find k = none
      · simp only [hc, and_self, if_true, Option.some.injEq] at hl
        rw [← hl]; simp
      · simp only [hc, if_false] at hl
        exact i2 key l hl
  by_cases h4 : r = Request.Clear
  · subst h4
    show kvConsistent (ClearHandler s c).server
    obtain ⟨f1, _, f3, _⟩ := Clear_kv s c
    constructor
    · intro key hk
      rw [f1] at hk
      exact absurd (HashMap.find_clear key) hk
    · intro key l hl
      rw [f3] at hl
      exact i2 key l hl
  · obtain ⟨f1, f2⟩ := kv_frame s c r (fun k v e => h1 ⟨k, v, e⟩) (fun k e => h2 ⟨k, e⟩)
      (fun k e => h3 ⟨k, e⟩) h4
    constructor
    · intro key hk
      rw [f1] at hk; rw [f2]
      exact i1 key hk
    · intro key l hl
      rw [f2] at hl
      exact i2 key l hl

/-- Every state the server reaches from its initial state is consistent. -/
theorem kvConsistent_reachable (pre : List (CallId × Request)) :
    kvConsistent (HandleRpcs CtrlServer.init pre).server :=
  HandleRpcs_preserves kvConsistent (fun _ => True)
    (fun s c r _ h => kvConsistent_step s c r h) pre CtrlServer.init
    (fun _ _ => trivial) kvConsistent_init

/-- C11 (Done is absorbing).  When `name` is done, it is done after every
single request other than the reset, whether or not the handler returns, and it
is done at the end of every run without reset that is processed without
failure.  The reset leaves `name` unset, and it returns normally when no read
is pending. -/
theorem done_is_absorbing (s : CtrlServer) (name : String)
    (hdone : lockState s name = LockState.Done) :
    (∀ (c : CallId) (r : Request), r ≠ Request.Clear →
      lockState (Process s c r).server name = LockState.Done) ∧
    (∀ pre : List (CallId × Request), (∀ x ∈ pre, x.2 ≠ Request.Clear) →
      (HandleRpcs s pre).status = Status.ok →
      lockState (HandleRpcs s pre).server name = LockState.Done) ∧
    (∀ c : CallId, lockState (Process s c Request.Clear).server name = LockState.Unset) ∧
    (∀ c : CallId, s.pending_kv_calls_.empty = true →
      (Process s c Request.Clear).status = Status.ok) := by
  refine ⟨?_, ?_, ?_, ?_⟩
  · intro c r hr
    rw [lockState_step s c r name hr]
    simp [hdone]
  · intro pre hc hok
    exact done_run name pre s hdone hc hok
  · intro c
    show lockState (ClearHandler s c).server name = LockState.Unset
    rw [lockState_unset_iff, (Clear_kv s c).2.1]
    exact HashMap.find_clear name
  · intro c he
    show (ClearHandler s c).status = Status.ok
    simp [ClearHandler, he]

/-- Witness of C11: "ckpt" was acquired and signalled done; a further `TryLock`
on it leaves it done. -/
theorem done_is_absorbing_witness :
    lockState (Process (HandleRpcs CtrlServer.init
        [(1, Request.TryLock "ckpt"), (2, Request.NotifyDone "ckpt")]).server
        3 (Request.TryLock "ckpt")).server "ckpt" = LockState.Done :=
  (done_is_absorbing (HandleRpcs CtrlServer.init
      [(1, Request.TryLock "ckpt"), (2, Request.NotifyDone "ckpt")]).server "ckpt"
      (by decide)).1 3 (Request.TryLock "ckpt") (by decide)

/-- C12 (duplicate publish is fatal).  When `key` is published with the value
`v`, `PushKVHandler` on `key` with any value `w` fails its `CHECK`: it stops with
no action (no response, no re-arming), the server state is unchanged, and the
value stored under `key` is still `v`. -/
theorem duplicate_publish_fatal (s : CtrlServer) (c : CallId) (key v w : String)
    (hpub : s.kv_.find key = some v) :
    PushKVHandler s c key w = ⟨s, [], Status.checkFailed⟩ ∧
    (PushKVHandler s c key w).server.kv_.find key = some v := by
  have h := PushKV_published s c key w v hpub
  exact ⟨h, by rw [h]; exact hpub⟩

/-- Witness of C12: "cfg" is published with "v1"; publishing "v1" again fails
and changes nothing. -/
theorem duplicate_publish_fatal_witness :
    PushKVHandler (PushKVHandler CtrlServer.init 1 "cfg" "v1").server 2 "cfg" "v1"
      = ⟨(PushKVHandler CtrlServer.init 1 "cfg" "v1").server, [], Status.checkFailed⟩ :=
  (duplicate_publish_fatal (PushKVHandler CtrlServer.init 1 "cfg" "v1").server 2 "cfg"
    "v1" "v1" (by decide)).1

/-- C13 (publish flushes the pending reads).  When `key` is unpublished,
`PushKVHandler` on `key` with the value `v` returns normally; its actions are
one response with payload `v` per read parked under `key`, in parking order,
then the response to the publisher, then the re-arming; afterwards `key` is
published with `v`, `pending_kv_calls_` has no entry for `key`, and the entries
of all other keys are as before. -/
theorem publish_flushes (s : CtrlServer) (c : CallId) (key v : String)
    (hunpub : s.kv_.find key = none) :
    (PushKVHandler s c key v).status = Status.ok ∧
    (PushKVHandler s c key v).events
      = (parkedReads s key).map (fun p => Event.SendResponse p (Payload.val v))
          ++ [Event.SendResponse c Payload.empty, Event.EnqueueRequest CtrlMethod.kPushKV] ∧
    responses (PushKVHandler s c key v).events
      = (parkedReads s key).map (fun p => (p, Payload.val v)) ++ [(c, Payload.empty)] ∧
    (PushKVHandler s c key v).server.kv_.find key = some v ∧
    (PushKVHandler s c key v).server.pending_kv_calls_.find key = none ∧
    (∀ k, k ≠ key →
      (PushKVHandler s c key v).server.pending_kv_calls_.find k
        = s.pending_kv_calls_.find k) := by
  have hev : (PushKVHandler s c key v).status = Status.ok ∧
      (PushKVHandler s c key v).events
        = (parkedReads s key).map (fun p => Event.SendResponse p (Payload.val v))
          ++ [Event.SendResponse c Payload.empty,
              Event.EnqueueRequest CtrlMethod.kPushKV] := by
    rcases PushKV_unpublished s c key v hunpub with he | ⟨hn, he⟩
    · rw [he]; exact ⟨rfl, rfl⟩
    · rw [he]
      have hp : parkedReads s key = [] := by simp [parkedReads, hn]
      rw [hp]; exact ⟨rfl, rfl⟩
  refine ⟨hev.1, hev.2, ?_, ?_, ?_, ?_⟩
  · rw [hev.2, responses_append, responses_sends]
    rfl
  · rw [find_kv_PushKV]; simp [hunpub]
  · rw [find_pending_PushKV]; simp [hunpub]
  · intro k hk
    rw [find_pending_PushKV]; simp [hk]

/-- Witness of C13: calls 1 and 2 read "cfg" before call 3 publishes "v1". -/
theorem publish_flushes_witness :
    responses (PushKVHandler (HandleRpcs CtrlServer.init
        [(1, Request.PullKV "cfg"), (2, Request.PullKV "cfg")]).server 3 "cfg" "v1").events
      = [(1, Payload.val "v1"), (2, Payload.val "v1"), (3, Payload.empty)] :=
  (publish_flushes (HandleRpcs CtrlServer.init
      [(1, Request.PullKV "cfg"), (2, Request.PullKV "cfg")]).server 3 "cfg" "v1"
      (by decide)).2.2.1

/-! ## A key along a run -/

/-- A published key keeps its value under every request other than its
withdrawal and the reset. -/
theorem published_step (s : CtrlServer) (c : CallId) (r : Request) (k v : String)
    (hr : r ≠ Request.Clear ∧ r ≠ Request.ClearKV k) (h : s.kv_.find k = some v) :
    (Process s c r).server.kv_.find k = some v := by
  by_cases h1 : ∃ k2 w, r = Request.PushKV k2 w
  · obtain ⟨k2, w, rfl⟩ := h1
    show (PushKVHandler s c k2 w).server.kv_.find k = some v
    rw [find_kv_PushKV]
    by_cases hk : k = k2
    · subst hk; simp [h]
    · simp [hk, h]
  by_cases h2 : ∃ k2, r = Request.ClearKV k2
  · obtain ⟨k2, rfl⟩ := h2
    show (ClearKVHandler s c k2).server.kv_.find k = some v
    rw [(find_kv_ClearKV s c k2 k).1]
    have hk : ¬ k = k2 := fun e => hr.2 (by rw [e])
    simp [hk, h]
  by_cases h3 : ∃ k2, r = Request.PullKV k2
  · obtain ⟨k2, rfl⟩ := h3
    show (PullKVHandler s c k2).server.kv_.find k = some v
    rw [(find_pending_PullKV s c k2 k).1]
    exact h
  · rw [(kv_frame s c r (fun k v e => h1 ⟨k, v, e⟩) (fun k e => h2 ⟨k, e⟩)
      (fun k e => h3 ⟨k, e⟩) hr.1).1]
    exact h

/-- An unpublished key stays unpublished, and the reads parked under it stay
parked in their order (later reads being added behind them), under every
request other than a publish of the key. -/
theorem parked_step (s : CtrlServer) (c : CallId) (r : Request) (k : String)
    (base : List CallId) (hr : ∀ w, r ≠ Request.PushKV k w)
    (h : s.kv_.find k = none ∧ ∃ extra, s.pending_kv_calls_.find k = some (base ++ extra)) :
    (Process s c r).server.kv_.find k = none ∧
    ∃ extra, (Process s c r).server.pending_kv_calls_.find k = some (base ++ extra) := by
  obtain ⟨hu, extra, hp⟩ := h
  by_cases h1 : ∃ k2 w, r = Request.PushKV k2 w
  · obtain ⟨k2, w, rfl⟩ := h1
    have hk : ¬ k = k2 := fun e => hr w (by rw [e])
    show (PushKVHandler s c k2 w).server.kv_.find k = none ∧
      ∃ extra, (PushKVHandler s c k2 w).server.pending_kv_calls_.find k = some (base ++ extra)
    rw [find_kv_PushKV, find_pending_PushKV]
    simp only [hk, false_and, if_false]
    exact ⟨hu, extra, hp⟩
  by_cases h2 : ∃ k2, r = Request.ClearKV k2
  · obtain ⟨k2, rfl⟩ := h2
    show (ClearKVHandler s c k2).server.kv_.find k = none ∧
      ∃ extra, (ClearKVHandler s c k2).server.pending_kv_calls_.find k = some (base ++ extra)
    rw [(find_kv_ClearKV s c k2 k).1, (find_kv_ClearKV s c k2 k).2]
    refine ⟨?_, extra, hp⟩
    by_cases hk : k = k2
    · simp [hk]
    · simp [hk, hu]
  by_cases h3 : ∃ k2, r = Request.PullKV k2
  · obtain ⟨k2, rfl⟩ := h3
    show (PullKVHandler s c k2).server.kv_.find k = none ∧
      ∃ extra, (PullKVHandler s c k2).server.pending_kv_calls_.find k = some (base ++ extra)
    rw [(find_pending_PullKV s c k2 k).1, (find_pending_PullKV s c k2 k).2]
    refine ⟨hu, ?_⟩
    by_cases hk : k = k2
    · subst hk
      have hpr : parkedReads s k = base ++ extra := by simp [parkedReads, hp]
      refine ⟨extra ++ [c], ?_⟩
      simp [hu, hpr]
    · simp only [hk, false_and, if_false]
      exact ⟨extra, hp⟩
  by_cases h4 : r = Request.Clear
  · subst h4
    show (ClearHandler s c).server.kv_.find k = none ∧
      ∃ extra, (ClearHandler s c).server.pending_kv_calls_.find k = some (base ++ extra)
    rw [(Clear_kv s c).1, (Clear_kv s c).2.2.1]
    exact ⟨HashMap.find_clear k, extra, hp⟩
  · obtain ⟨f1, f2⟩ := kv_frame s c r (fun k v e => h1 ⟨k, v, e⟩) (fun k e => h2 ⟨k, e⟩)
      (fun k e => h3 ⟨k, e⟩) h4
    rw [f1, f2]
    exact ⟨hu, extra, hp⟩

theorem PushKV_status (s : CtrlServer) (c : CallId) (k v : String) :
    (PushKVHandler s c k v).status = Status.ok ↔ s.kv_.find k = none := by
  cases h : s.kv_.find k with
  | some x => rw [PushKV_published s c k v x h]; simp
  | none =>
    rcases PushKV_unpublished s c k v h with he | ⟨_, he⟩ <;> rw [he] <;> simp

theorem PullKV_published (s : CtrlServer) (c : CallId) (k v : String)
    (h : s.kv_.find k = some v) :
    PullKVHandler s c k =
      ⟨s, [Event.SendResponse c (Payload.val v), Event.EnqueueRequest CtrlMethod.kPullKV],
        Status.ok⟩ := by
  unfold PullKVHandler; rw [h]

theorem PullKV_unpublished (s : CtrlServer) (c : CallId) (k : String)
    (h : s.kv_.find k = none) :
    (PullKVHandler s c k).status = Status.ok ∧
    (PullKVHandler s c k).events = [Event.EnqueueRequest CtrlMethod.kPullKV] ∧
    (PullKVHandler s c k).server.kv_.find k = none ∧
    (PullKVHandler s c k).server.pending_kv_calls_.find k = some (parkedReads s k ++ [c]) := by
  have hp := (find_pending_PullKV s c k k).2
  have hk := (find_pending_PullKV s c k k).1
  simp only [h, and_self, if_true] at hp
  refine ⟨?_, ?_, by rw [hk]; exact h, hp⟩
  · unfold PullKVHandler; rw [h]
  · unfold PullKVHandler; rw [h]

/-- C14 (publish/read round trip).  (a) Let `Publish(k, v)` by call `pub`
return normally, and let any requests `mid` without a withdrawal of `k` and
without a reset follow.  A read of `k` by call `c` then returns normally, leaves
the state as it is, and its actions are the response to `c` with payload `v`,
followed by the re-arming.  (b) Let `k` be unpublished.  A read of `k` by call
`c` returns normally with the re-arming as its only action (no response).  After
any requests `mid` without a publish of `k`, call `c` is still parked under `k`,
and `Publish(k, v)` by call `pub` then answers every read parked under `k`, `c`
among them, with payload `v`, and after them the publisher. -/
theorem publish_read_round_trip (s : CtrlServer) (k v : String) :
    (∀ (pub c : CallId) (mid : List (CallId × Request)),
      (PushKVHandler s pub k v).status = Status.ok →
      (∀ x ∈ mid, x.2 ≠ Request.Clear ∧ x.2 ≠ Request.ClearKV k) →
      PullKVHandler (HandleRpcs (PushKVHandler s pub k v).server mid).server c k =
        ⟨(HandleRpcs (PushKVHandler s pub k v).server mid).server,
          [Event.SendResponse c (Payload.val v), Event.EnqueueRequest CtrlMethod.kPullKV],
          Status.ok⟩) ∧
    (∀ (pub c : CallId) (mid : List (CallId × Request)),
      s.kv_.find k = none →
      (∀ x ∈ mid, ∀ w, x.2 ≠ Request.PushKV k w) →
      (PullKVHandler s c k).status = Status.ok ∧
      (PullKVHandler s c k).events = [Event.EnqueueRequest CtrlMethod.kPullKV] ∧
      responses (PullKVHandler s c k).events = [] ∧
      c ∈ parkedReads (HandleRpcs (PullKVHandler s c k).server mid).server k ∧
      (PushKVHandler (HandleRpcs (PullKVHandler s c k).server mid).server pub k v).status
        = Status.ok ∧
      responses
          (PushKVHandler (HandleRpcs (PullKVHandler s c k).server mid).server pub k v).events
        = (parkedReads (HandleRpcs (PullKVHandler s c k).server mid).server k).map
            (fun p => (p, Payload.val v)) ++ [(pub, Payload.empty)] ∧
      (c, Payload.val v) ∈ responses
          (PushKVHandler (HandleRpcs (PullKVHandler s c k).server mid).server pub k
            v).events) := by
  constructor
  · intro pub c mid hok hmid
    have hun := (PushKV_status s pub k v).mp hok
    have hpub : (PushKVHandler s pub k v).server.kv_.find k = some v := by
      rw [find_kv_PushKV]; simp [hun]
    have hrun := HandleRpcs_preserves (fun t => t.kv_.find k = some v)
      (fun r => r ≠ Request.Clear ∧ r ≠ Request.ClearKV k)
      (fun t call r hg ht => published_step t call r k v hg ht) mid _ hmid hpub
    exact PullKV_published _ c k v hrun
  · intro pub c mid hun hmid
    obtain ⟨p1, p2, p3, p4⟩ := PullKV_unpublished s c k hun
    have hrun := HandleRpcs_preserves
      (fun t => t.kv_.find k = none ∧
        ∃ extra, t.pending_kv_calls_.find k = some ((parkedReads s k ++ [c]) ++ extra))
      (fun r => ∀ w, r ≠ Request.PushKV k w)
      (fun t call r hg ht => parked_step t call r k _ hg ht) mid _ hmid
      ⟨p3, [], by simpa using p4⟩
    obtain ⟨q1, extra, q2⟩ := hrun
    have hparked : parkedReads (HandleRpcs (PullKVHandler s c k).server mid).server k
        = (parkedReads s k ++ [c]) ++ extra := by
      simp only [parkedReads, q2]
    have hmem : c ∈ parkedReads (HandleRpcs (PullKVHandler s c k).server mid).server k := by
      rw [hparked]; simp
    have hst := (PushKV_status (HandleRpcs (PullKVHandler s c k).server mid).server pub k
      v).mpr q1
    have hresp : responses
        (PushKVHandler (HandleRpcs (PullKVHandler s c k).server mid).server pub k v).events
        = (parkedReads (HandleRpcs (PullKVHandler s c k).server mid).server k).map
            (fun p => (p, Payload.val v)) ++ [(pub, Payload.empty)] := by
      rcases PushKV_unpublished (HandleRpcs (PullKVHandler s c k).server mid).server pub k v
        q1 with he | ⟨hn, _⟩
      · rw [he]
        simp only [responses_append, responses_sends]
        rfl
      · rw [q2] at hn; cases hn
    refine ⟨p1, p2, by rw [p2]; rfl, hmem, hst, hresp, ?_⟩
    rw [hresp]
    exact List.mem_append_left _ (List.mem_map.mpr ⟨c, hmem, rfl⟩)

/-- Witness of C14: call 1 reads "cfg" first, an unrelated request follows,
then call 3 publishes "v1"; and a read after the publish is answered at once. -/
theorem publish_read_round_trip_witness :
    (1, Payload.val "v1") ∈ responses
        (PushKVHandler (HandleRpcs (PullKVHandler CtrlServer.init 1 "cfg").server
          [(2, Request.TryLock "ckpt")]).server 3 "cfg" "v1").events ∧
    (PullKVHandler (HandleRpcs (PushKVHandler CtrlServer.init 3 "cfg" "v1").server
        [(2, Request.TryLock "ckpt")]).server 4 "cfg").events
      = [Event.SendResponse 4 (Payload.val "v1"), Event.EnqueueRequest CtrlMethod.kPullKV] :=
  ⟨((publish_read_round_trip CtrlServer.init "cfg" "v1").2 3 1
      [(2, Request.TryLock "ckpt")] (by decide) (by simp)).2.2.2.2.2.2,
   congrArg Outcome.events ((publish_read_round_trip CtrlServer.init "cfg" "v1").1 3 4
      [(2, Request.TryLock "ckpt")] (by decide) (by decide))⟩

/-! ## Withdrawal in consistent states -/

theorem ClearKV_absent (s : CtrlServer) (c : CallId) (key : String)
    (h : s.kv_.find key = none) :
    (ClearKVHandler s c key).status = Status.checkFailed ∧
    (ClearKVHandler s c key).events = [] := by
  unfold ClearKVHandler
  simp [HashMap.erase_snd, h]

theorem ClearKV_present (s : CtrlServer) (c : CallId) (key : String)
    (h : s.kv_.find key ≠ none) (hp : s.pending_kv_calls_.find key = none) :
    (ClearKVHandler s c key).status = Status.ok ∧
    (ClearKVHandler s c key).events
      = [Event.SendResponse c Payload.empty, Event.EnqueueRequest CtrlMethod.kClearKV] := by
  have hs : (s.kv_.find key).isSome = true := by
    cases hf : s.kv_.find key with
    | none => exact absurd hf h
    | some x => rfl
  unfold ClearKVHandler
  simp [HashMap.erase_snd, hs, hp]

/-- C15 (withdraw succeeds exactly on published keys).  Let the server be in a
state it reaches from its initial state by the requests `pre`.  `ClearKVHandler`
on `key` returns normally if and only if `key` is published.  If it is, the
actions are the response to the caller and the re-arming, and `key` is
unpublished afterwards.  If it is not, the handler fails its `CHECK_EQ` with no
action.  In particular, when a read is parked under `key` the handler fails with
no action and `pending_kv_calls_` is as before.  And in the scenario Read("cfg"),
Publish("cfg", "v1"), Withdraw("cfg"), Withdraw("cfg") from the initial state,
the read is answered with "v1" by the publish, the first withdraw returns
normally and answers its caller, and the second fails with no action. -/
theorem withdraw_iff_published (pre : List (CallId × Request)) (c : CallId) (key : String) :
    ((ClearKVHandler (HandleRpcs CtrlServer.init pre).server c key).status = Status.ok ↔
      (HandleRpcs CtrlServer.init pre).server.kv_.find key ≠ none) ∧
    ((HandleRpcs CtrlServer.init pre).server.kv_.find key ≠ none →
      (ClearKVHandler (HandleRpcs CtrlServer.init pre).server c key).events
        = [Event.SendResponse c Payload.empty, Event.EnqueueRequest CtrlMethod.kClearKV] ∧
      (ClearKVHandler (HandleRpcs CtrlServer.init pre).server c key).server.kv_.find key
        = none) ∧
    ((HandleRpcs CtrlServer.init pre).server.kv_.find key = none →
      (ClearKVHandler (HandleRpcs CtrlServer.init pre).server c key).status
        = Status.checkFailed ∧
      (ClearKVHandler (HandleRpcs CtrlServer.init pre).server c key).events = []) ∧
    (parkedReads (HandleRpcs CtrlServer.init pre).server key ≠ [] →
      (ClearKVHandler (HandleRpcs CtrlServer.init pre).server c key).status
        = Status.checkFailed ∧
      (ClearKVHandler (HandleRpcs CtrlServer.init pre).server c key).events = [] ∧
      (ClearKVHandler (HandleRpcs CtrlServer.init pre).server c key).server.pending_kv_calls_
        = (HandleRpcs CtrlServer.init pre).server.pending_kv_calls_) ∧
    (∀ c1 c2 c3 c4 : CallId,
      responses (PullKVHandler CtrlServer.init c1 "cfg").events = [] ∧
      responses (PushKVHandler (PullKVHandler CtrlServer.init c1 "cfg").server c2 "cfg"
          "v1").events = [(c1, Payload.val "v1"), (c2, Payload.empty)] ∧
      ClearKVHandler (PushKVHandler (PullKVHandler CtrlServer.init c1 "cfg").server c2 "cfg"
          "v1").server c3 "cfg"
        = ⟨CtrlServer.init,
           [Event.SendResponse c3 Payload.empty, Event.EnqueueRequest CtrlMethod.kClearKV],
           Status.ok⟩ ∧
      ClearKVHandler (ClearKVHandler (PushKVHandler
          (PullKVHandler CtrlServer.init c1 "cfg").server c2 "cfg" "v1").server c3
          "cfg").server c4 "cfg"
        = ⟨CtrlServer.init, [], Status.checkFailed⟩) := by
  obtain ⟨i1, i2⟩ := kvConsistent_reachable pre
  generalize (HandleRpcs CtrlServer.init pre).server = s at i1 i2 ⊢
  refine ⟨?_, ?_, ?_, ?_, ?_⟩
  · constructor
    · intro hok hnone
      rw [(ClearKV_absent s c key hnone).1] at hok
      cases hok
    · intro hpub
      exact (ClearKV_present s c key hpub (i1 key hpub)).1
  · intro hpub
    refine ⟨(ClearKV_present s c key hpub (i1 key hpub)).2, ?_⟩
    rw [(find_kv_ClearKV s c key key).1]; simp
  · intro hnone
    exact ClearKV_absent s c key hnone
  · intro hparked
    have hnone : s.kv_.find key = none := by
      by_contra hpub
      have := i1 key hpub
      simp [parkedReads, this] at hparked
    exact ⟨(ClearKV_absent s c key hnone).1, (ClearKV_absent s c key hnone).2,
      (find_kv_ClearKV s c key key).2⟩
  · intro c1 c2 c3 c4
    exact ⟨rfl, rfl, rfl, rfl⟩

/-- Witness of C15: after Read("cfg") by call 1 and Publish("cfg", "v1") by
call 2, the withdraw of "cfg" by call 3 returns normally. -/
theorem withdraw_iff_published_witness :
    (ClearKVHandler (HandleRpcs CtrlServer.init
        [(1, Request.PullKV "cfg"), (2, Request.PushKV "cfg" "v1")]).server 3 "cfg").status
      = Status.ok :=
  (withdraw_iff_published [(1, Request.PullKV "cfg"), (2, Request.PushKV "cfg" "v1")] 3
    "cfg").1.mpr (by decide)

/-- C16 (published keys never have pending reads).  In every state the server
reaches from its initial state by a sequence of requests `pre`, no key has both
a value in `kv_` and an entry in `pending_kv_calls_`.  Hence, in such a state,
whenever the first assertion of `ClearKVHandler` passes (`kv_.erase` returns 1)
the handler returns normally: its second assertion does not fail. -/
theorem published_never_pending (pre : List (CallId × Request)) (key : String) :
    ¬ ((HandleRpcs CtrlServer.init pre).server.kv_.find key ≠ none ∧
       (HandleRpcs CtrlServer.init pre).server.pending_kv_calls_.find key ≠ none) ∧
    (∀ c : CallId, ((HandleRpcs CtrlServer.init pre).server.kv_.erase key).2 = 1 →
      (ClearKVHandler (HandleRpcs CtrlServer.init pre).server c key).status = Status.ok) := by
  obtain ⟨i1, _⟩ := kvConsistent_reachable pre
  generalize (HandleRpcs CtrlServer.init pre).server = s at i1 ⊢
  constructor
  · rintro ⟨h1, h2⟩
    exact h2 (i1 key h1)
  · intro c he
    have hpub : s.kv_.find key ≠ none := by
      intro hnone
      rw [HashMap.erase_snd, hnone] at he
      simp at he
    exact (ClearKV_present s c key hpub (i1 key hpub)).1

/-- Witness of C16: after a read and a publish of "cfg" and a read of "other",
"cfg" is published and has no pending-read entry. -/
theorem published_never_pending_witness :
    ¬ ((HandleRpcs CtrlServer.init
          [(1, Request.PullKV "cfg"), (2, Request.PushKV "cfg" "v1"),
           (3, Request.PullKV "other")]).server.kv_.find "cfg" ≠ none ∧
       (HandleRpcs CtrlServer.init
          [(1, Request.PullKV "cfg"), (2, Request.PushKV "cfg" "v1"),
           (3, Request.PullKV "other")]).server.pending_kv_calls_.find "cfg" ≠ none) :=
  (published_never_pending
    [(1, Request.PullKV "cfg"), (2, Request.PushKV "cfg" "v1"), (3, Request.PullKV "other")]
    "cfg").1

/-! ## Counters -/

theorem toInt32_add (a b : Int) : toInt32 (toInt32 a + b) = toInt32 (a + b) := by
  unfold toInt32; omega

theorem toInt32_of_isInt32 (a : Int) (h : isInt32 a) : toInt32 a = a := by
  unfold isInt32 at h
  unfold toInt32; omega

theorem getOrCreate_counter (s : CtrlServer) (key : String) :
    (s.count_.getOrCreate key 0).2 = counterValue s key := by
  unfold HashMap.getOrCreate counterValue
  cases s.count_.find key <;> rfl

theorem IncreaseCount_eq (s : CtrlServer) (c : CallId) (key : String) (val : Int) :
    IncreaseCountHandler s c key val =
      ⟨{ s with count_ := (s.count_.getOrCreate key 0).1.assign key
                            (toInt32 (counterValue s key + val)) },
        [Event.SendResponse c (Payload.count (toInt32 (counterValue s key + val))),
         Event.EnqueueRequest CtrlMethod.kIncreaseCount], Status.ok⟩ := by
  unfold IncreaseCountHandler
  simp only [getOrCreate_counter]

theorem find_count_Increase (s : CtrlServer) (c : CallId) (key k : String) (val : Int) :
    (IncreaseCountHandler s c key val).server.count_.find k =
      if k = key then some (toInt32 (counterValue s key + val)) else s.count_.find k := by
  rw [IncreaseCount_eq]
  simp only [HashMap.find_assign, HashMap.find_getOrCreate]
  by_cases hk : k = key
  · simp [hk]
  · simp [hk]

theorem counterValue_Increase (s : CtrlServer) (c : CallId) (key : String) (val : Int) :
    counterValue (IncreaseCountHandler s c key val).server key
      = toInt32 (counterValue s key + val) := by
  have h := find_count_Increase s c key key val
  simp only [if_true] at h
  simp only [counterValue, h]

/-- A series of increments of one counter: the run returns normally and the
counter holds, reduced to 32 bits, its old value plus the sum of the deltas. -/
theorem increases_run (key : String) (steps : List (CallId × Int)) :
    ∀ s : CtrlServer,
      (HandleRpcs s (increases key steps)).status = Status.ok ∧
      toInt32 (counterValue (HandleRpcs s (increases key steps)).server key)
        = toInt32 (counterValue s key + sumDeltas (steps.map (fun x => x.2))) := by
  induction steps with
  | nil => intro s; simp [increases, HandleRpcs_nil, sumDeltas]
  | cons x t ih =>
    intro s
    have hp : Process s x.1 (Request.IncreaseCount key x.2) = IncreaseCountHandler s x.1 key x.2 :=
      rfl
    have hok : (Process s x.1 (Request.IncreaseCount key x.2)).status = Status.ok := by
      rw [hp, IncreaseCount_eq]
    have hsplit : increases key (x :: t) = (x.1, Request.IncreaseCount key x.2) :: increases key t :=
      rfl
    obtain ⟨i1, i2⟩ := ih (IncreaseCountHandler s x.1 key x.2).server
    rw [hsplit, HandleRpcs_cons_ok _ _ _ _ hok, hp]
    refine ⟨i1, ?_⟩
    show toInt32 (counterValue (HandleRpcs (IncreaseCountHandler s x.1 key x.2).server
      (increases key t)).server key) = _
    rw [i2, counterValue_Increase, toInt32_add]
    simp only [List.map_cons, sumDeltas]
    congr 1
    ring

/-- C17 (increase accumulates from zero).  `IncreaseCountHandler` on `name` with
any delta returns normally; with `old` the stored value of the counter, or 0
when it does not exist, the value it stores and the value it sends to the
caller are both `old + delta` as an `int32_t` (the sum itself when it lies in
the range of `int32_t`); the other counters are unchanged.  After a series of
increments of a fresh counter, the next increment returns, as an `int32_t`, the
sum of all deltas so far, and the sum itself when it lies in the range of
`int32_t`.  An increment by 5 of a fresh counter returns 5. -/
theorem increase_accumulates (s : CtrlServer) (c : CallId) (name : String) (delta : Int) :
    (IncreaseCountHandler s c name delta).status = Status.ok ∧
    (IncreaseCountHandler s c name delta).events
      = [Event.SendResponse c (Payload.count (toInt32 (counterValue s name + delta))),
         Event.EnqueueRequest CtrlMethod.kIncreaseCount] ∧
    (IncreaseCountHandler s c name delta).server.count_.find name
      = some (toInt32 (counterValue s name + delta)) ∧
    (isInt32 (counterValue s name + delta) →
      toInt32 (counterValue s name + delta) = counterValue s name + delta) ∧
    (∀ k, k ≠ name →
      (IncreaseCountHandler s c name delta).server.count_.find k = s.count_.find k) ∧
    (∀ steps : List (CallId × Int), s.count_.find name = none →
      (IncreaseCountHandler (HandleRpcs s (increases name steps)).server c name delta).events
        = [Event.SendResponse c
            (Payload.count (toInt32 (sumDeltas (steps.map (fun x => x.2)) + delta))),
           Event.EnqueueRequest CtrlMethod.kIncreaseCount] ∧
      (isInt32 (sumDeltas (steps.map (fun x => x.2)) + delta) →
        (IncreaseCountHandler (HandleRpcs s (increases name steps)).server c name
            delta).events
          = [Event.SendResponse c
              (Payload.count (sumDeltas (steps.map (fun x => x.2)) + delta)),
             Event.EnqueueRequest CtrlMethod.kIncreaseCount])) ∧
    (s.count_.find name = none →
      (IncreaseCountHandler s c name 5).events
        = [Event.SendResponse c (Payload.count 5),
           Event.EnqueueRequest CtrlMethod.kIncreaseCount]) := by
  have hfresh0 : s.count_.find name = none → counterValue s name = 0 := by
    intro h; simp [counterValue, h]
  refine ⟨by rw [IncreaseCount_eq], by rw [IncreaseCount_eq], ?_, ?_, ?_, ?_, ?_⟩
  · rw [find_count_Increase]; simp
  · exact toInt32_of_isInt32 _
  · intro k hk
    rw [find_count_Increase]; simp [hk]
  · intro steps hfresh
    have hval : toInt32 (counterValue (HandleRpcs s (increases name steps)).server name + delta)
        = toInt32 (sumDeltas (steps.map (fun x => x.2)) + delta) := by
      rw [← toInt32_add, (increases_run name steps s).2, toInt32_add, hfresh0 hfresh]
      congr 1
      ring
    have hev : (IncreaseCountHandler (HandleRpcs s (increases name steps)).server c name
        delta).events
        = [Event.SendResponse c
            (Payload.count (toInt32 (sumDeltas (steps.map (fun x => x.2)) + delta))),
           Event.EnqueueRequest CtrlMethod.kIncreaseCount] := by
      rw [IncreaseCount_eq, hval]
    refine ⟨hev, ?_⟩
    intro hin
    rw [hev, toInt32_of_isInt32 _ hin]
  · intro hfresh
    rw [IncreaseCount_eq, hfresh0 hfresh]
    rfl

/-- Witness of C17: the third increment of the fresh counter "n" by 5, -7 and 4
returns 2. -/
theorem increase_accumulates_witness :
    (IncreaseCountHandler (HandleRpcs CtrlServer.init (increases "n" [(1, 5), (2, -7)])).server
        3 "n" 4).events
      = [Event.SendResponse 3 (Payload.count 2),
         Event.EnqueueRequest CtrlMethod.kIncreaseCount] :=
  ((increase_accumulates CtrlServer.init 3 "n" 4).2.2.2.2.2.1 [(1, 5), (2, -7)] rfl).2
    (by decide)

theorem find_count_Erase (s : CtrlServer) (c : CallId) (key k : String) :
    (EraseCountHandler s c key).server.count_.find k =
      if k = key then none else s.count_.find k := by
  unfold EraseCountHandler
  dsimp only
  split <;> exact HashMap.find_erase _ _ _

theorem EraseCount_absent (s : CtrlServer) (c : CallId) (key : String)
    (h : s.count_.find key = none) :
    (EraseCountHandler s c key).status = Status.checkFailed ∧
    (EraseCountHandler s c key).events = [] := by
  unfold EraseCountHandler
  simp [HashMap.erase_snd, h]

theorem EraseCount_present (s : CtrlServer) (c : CallId) (key : String)
    (h : s.count_.find key ≠ none) :
    (EraseCountHandler s c key).status = Status.ok ∧
    (EraseCountHandler s c key).events
      = [Event.SendResponse c Payload.empty, Event.EnqueueRequest CtrlMethod.kEraseCount] := by
  have hs : (s.count_.find key).isSome = true := by
    cases hf : s.count_.find key with
    | none => exact absurd hf h
    | some x => rfl
  unfold EraseCountHandler
  simp [HashMap.erase_snd, hs]

/-- C18 (counter deletion).  `EraseCountHandler` on `name` returns normally if
and only if the counter exists.  If it does not exist the handler fails its
`CHECK_EQ` with no action; so does a second deletion right after a first one.
If it exists, the actions are the response to the caller and the re-arming, and
the counter is removed.  The other counters are unchanged.  An increment of
`name` by `delta` that follows the deletion returns `delta`, whatever the
counter held before. -/
theorem counter_deletion (s : CtrlServer) (c : CallId) (name : String) :
    ((EraseCountHandler s c name).status = Status.ok ↔ s.count_.find name ≠ none) ∧
    (s.count_.find name = none →
      (EraseCountHandler s c name).status = Status.checkFailed ∧
      (EraseCountHandler s c name).events = []) ∧
    (s.count_.find name ≠ none →
      (EraseCountHandler s c name).events
        = [Event.SendResponse c Payload.empty,
           Event.EnqueueRequest CtrlMethod.kEraseCount] ∧
      (EraseCountHandler s c name).server.count_.find name = none) ∧
    (∀ k, k ≠ name →
      (EraseCountHandler s c name).server.count_.find k = s.count_.find k) ∧
    (∀ c2 : CallId,
      (EraseCountHandler (EraseCountHandler s c name).server c2 name).status
        = Status.checkFailed ∧
      (EraseCountHandler (EraseCountHandler s c name).server c2 name).events = []) ∧
    (∀ (c2 : CallId) (delta : Int), isInt32 delta →
      (IncreaseCountHandler (EraseCountHandler s c name).server c2 name delta).events
        = [Event.SendResponse c2 (Payload.count delta),
           Event.EnqueueRequest CtrlMethod.kIncreaseCount]) := by
  have hgone : (EraseCountHandler s c name).server.count_.find name = none := by
    rw [find_count_Erase]; simp
  refine ⟨?_, ?_, ?_, ?_, ?_, ?_⟩
  · constructor
    · intro hok hnone
      rw [(EraseCount_absent s c name hnone).1] at hok
      cases hok
    · intro h; exact (EraseCount_present s c name h).1
  · intro h; exact EraseCount_absent s c name h
  · intro h; exact ⟨(EraseCount_present s c name h).2, hgone⟩
  · intro k hk
    rw [find_count_Erase]; simp [hk]
  · intro c2
    exact EraseCount_absent _ c2 name hgone
  · intro c2 delta hin
    have h0 : counterValue (EraseCountHandler s c name).server name = 0 := by
      simp [counterValue, hgone]
    rw [IncreaseCount_eq, h0, zero_add, toInt32_of_isInt32 _ hin]

/-- Witness of C18: the counter "n" holds 5 and is deleted; the next increment
by 3 returns 3. -/
theorem counter_deletion_witness :
    (IncreaseCountHandler (EraseCountHandler (IncreaseCountHandler CtrlServer.init 1 "n"
        5).server 2 "n").server 3 "n" 3).events
      = [Event.SendResponse 3 (Payload.count 3),
         Event.EnqueueRequest CtrlMethod.kIncreaseCount] :=
  (counter_deletion (IncreaseCountHandler CtrlServer.init 1 "n" 5).server 2 "n").2.2.2.2.2
    3 3 (by decide)

/-! ## The reset -/

theorem HashMap.empty_iff {V : Type} (m : HashMap V) :
    m.empty = true ↔ ∀ k, m.find k = none := by
  obtain ⟨entries⟩ := m
  cases entries with
  | nil => simp [HashMap.empty, HashMap.find]
  | cons e t =>
    obtain ⟨a, b⟩ := e
    simp only [HashMap.empty, List.isEmpty_cons, Bool.false_eq_true, false_iff, not_forall]
    exact ⟨a, by simp [HashMap.find, HashMap.lookup_cons_self]⟩

theorem Clear_ok (s : CtrlServer) (c : CallId) (h : s.pending_kv_calls_.empty = true) :
    ClearHandler s c =
      ⟨{ s with name2lock_status_ := HashMap.clear, kv_ := HashMap.clear },
        [Event.SendResponse c Payload.empty, Event.EnqueueRequest CtrlMethod.kClear],
        Status.ok⟩ := by
  unfold ClearHandler
  simp [h]

theorem Clear_fail (s : CtrlServer) (c : CallId) (h : s.pending_kv_calls_.empty = false) :
    ClearHandler s c =
      ⟨{ s with name2lock_status_ := HashMap.clear, kv_ := HashMap.clear }, [],
        Status.checkFailed⟩ := by
  unfold ClearHandler
  simp [h]

/-- In a consistent state the pending-read map is empty exactly when no read is
parked under any key. -/
theorem pending_empty_iff (s : CtrlServer) (h : kvConsistent s) :
    s.pending_kv_calls_.empty = false ↔ ∃ k, parkedReads s k ≠ [] := by
  constructor
  · intro he
    have hne : ¬ ∀ k, s.pending_kv_calls_.find k = none := by
      intro hall
      rw [(HashMap.empty_iff _).mpr hall] at he
      cases he
    obtain ⟨k, hk⟩ := not_forall.mp hne
    refine ⟨k, ?_⟩
    cases hf : s.pending_kv_calls_.find k with
    | none => exact absurd hf hk
    | some l =>
      simp only [parkedReads, hf]
      exact h.2 k l hf
  · rintro ⟨k, hk⟩
    cases he : s.pending_kv_calls_.empty with
    | false => rfl
    | true =>
      have := (HashMap.empty_iff _).mp he k
      simp [parkedReads, this] at hk

/-- C19 (the reset under its precondition).  Let `s` be a state the server
reaches from its initial state by the requests `pre`.  `ClearHandler` fails its
`CHECK` with no action (no response, no re-arming) if and only if a read is
parked under some key.  Otherwise it returns normally, its actions are the
response to the caller and the re-arming, and afterwards: every lock name is
unset and the next `TryLock` on any name is answered `kLocked`; every key is
unpublished, a read of any key is parked without a response, and a publish of
any key returns normally and answers its caller. -/
theorem reset_under_precondition (pre : List (CallId × Request)) (s : CtrlServer)
    (hreach : s = (HandleRpcs CtrlServer.init pre).server) (c : CallId) :
    (((ClearHandler s c).status = Status.checkFailed ∧ (ClearHandler s c).events = []) ↔
      ∃ k, parkedReads s k ≠ []) ∧
    ((¬ ∃ k, parkedReads s k ≠ []) →
      (ClearHandler s c).status = Status.ok ∧
      (ClearHandler s c).events
        = [Event.SendResponse c Payload.empty, Event.EnqueueRequest CtrlMethod.kClear] ∧
      (∀ name, lockState (ClearHandler s c).server name = LockState.Unset) ∧
      (∀ name c2, (TryLockHandler (ClearHandler s c).server c2 name).events
        = [Event.SendResponse c2 (Payload.result TryLockResult.kLocked),
           Event.EnqueueRequest CtrlMethod.kTryLock]) ∧
      (∀ k, (ClearHandler s c).server.kv_.find k = none) ∧
      (∀ k c2,
        (PullKVHandler (ClearHandler s c).server c2 k).status = Status.ok ∧
        (PullKVHandler (ClearHandler s c).server c2 k).events
          = [Event.EnqueueRequest CtrlMethod.kPullKV] ∧
        parkedReads (PullKVHandler (ClearHandler s c).server c2 k).server k = [c2]) ∧
      (∀ k v c2,
        (PushKVHandler (ClearHandler s c).server c2 k v).status = Status.ok ∧
        (PushKVHandler (ClearHandler s c).server c2 k v).events
          = [Event.SendResponse c2 Payload.empty,
             Event.EnqueueRequest CtrlMethod.kPushKV])) := by
  have hcons : kvConsistent s := by rw [hreach]; exact kvConsistent_reachable pre
  have hiff := pending_empty_iff s hcons
  constructor
  · constructor
    · rintro ⟨hst, _⟩
      apply hiff.mp
      cases he : s.pending_kv_calls_.empty with
      | false => rfl
      | true => rw [Clear_ok s c he] at hst; cases hst
    · intro hex
      rw [Clear_fail s c (hiff.mpr hex)]
      exact ⟨rfl, rfl⟩
  · intro hno
    have he : s.pending_kv_calls_.empty = true := by
      cases he : s.pending_kv_calls_.empty with
      | true => rfl
      | false => exact absurd (hiff.mp he) hno
    have hpend : ∀ k, s.pending_kv_calls_.find k = none := (HashMap.empty_iff _).mp he
    rw [Clear_ok s c he]
    have hlock : ∀ name, lockState
        ({ s with name2lock_status_ := HashMap.clear, kv_ := HashMap.clear } : CtrlServer) name
        = LockState.Unset := fun _ => rfl
    have hkv : ∀ k, ({ s with name2lock_status_ := HashMap.clear, kv_ := HashMap.clear } :
        CtrlServer).kv_.find k = none := fun _ => rfl
    have hparked : ∀ k, parkedReads
        ({ s with name2lock_status_ := HashMap.clear, kv_ := HashMap.clear } : CtrlServer) k
        = [] := by
      intro k
      simp [parkedReads, hpend k]
    refine ⟨rfl, rfl, hlock, ?_, hkv, ?_, ?_⟩
    · intro name c2
      rw [(TryLock_answer _ c2 name).2, hlock name]
    · intro k c2
      obtain ⟨p1, p2, _, p4⟩ := PullKV_unpublished _ c2 k (hkv k)
      refine ⟨p1, p2, ?_⟩
      rw [hparked k] at p4
      simp only [parkedReads, p4, List.nil_append]
    · intro k v c2
      refine ⟨(PushKV_status _ c2 k v).mpr (hkv k), ?_⟩
      rcases PushKV_unpublished _ c2 k v (hkv k) with h1 | ⟨_, h1⟩
      · rw [h1, hparked k]; rfl
      · rw [h1]

/-- Witness of C19: after a lock was taken and "cfg" published, with no read
pending, the reset is answered and the lock name is unset again. -/
theorem reset_under_precondition_witness :
    (TryLockHandler (ClearHandler (HandleRpcs CtrlServer.init
        [(1, Request.TryLock "ckpt"), (2, Request.PushKV "cfg" "v1")]).server 3).server
        4 "ckpt").events
      = [Event.SendResponse 4 (Payload.result TryLockResult.kLocked),
         Event.EnqueueRequest CtrlMethod.kTryLock] :=
  ((reset_under_precondition [(1, Request.TryLock "ckpt"), (2, Request.PushKV "cfg" "v1")]
      (HandleRpcs CtrlServer.init
        [(1, Request.TryLock "ckpt"), (2, Request.PushKV "cfg" "v1")]).server rfl 3).2
    (fun ⟨_, hk⟩ => hk rfl)).2.2.2.1 "ckpt" 4

/-- C20 (the reset leaves barriers and counters alone).  For every state,
whether or not `ClearHandler` returns, the barrier map and the counter map are
afterwards what they were before; the only response it can send is the empty
response to its own call, so no call parked at a barrier is answered. -/
theorem reset_keeps_barriers_and_counters (s : CtrlServer) (c : CallId) :
    (ClearHandler s c).server.barrier_calls_ = s.barrier_calls_ ∧
    (ClearHandler s c).server.count_ = s.count_ ∧
    (∀ a p, (a, p) ∈ responses (ClearHandler s c).events → a = c ∧ p = Payload.empty) ∧
    (∀ name a, a ∈ arrived s name → a ≠ c →
      ∀ p, (a, p) ∉ responses (ClearHandler s c).events) := by
  have hresp : ∀ a p, (a, p) ∈ responses (ClearHandler s c).events →
      a = c ∧ p = Payload.empty := by
    intro a p hmem
    cases he : s.pending_kv_calls_.empty with
    | true =>
      rw [Clear_ok s c he] at hmem
      simpa [responses] using hmem
    | false =>
      rw [Clear_fail s c he] at hmem
      simp [responses] at hmem
  refine ⟨(Clear_kv s c).2.2.2.1, (Clear_kv s c).2.2.2.2, hresp, ?_⟩
  intro name a _ hne p hmem
  exact hne (hresp a p hmem).1

/-! ## Re-arming -/

theorem enqueued_append (a b : List Event) :
    enqueued (a ++ b) = enqueued a ++ enqueued b := by
  induction a with
  | nil => rfl
  | cons e t ih => cases e <;> simp [enqueued, ih]

theorem enqueued_sends (l : List CallId) (p : Payload) :
    enqueued (l.map (fun c => Event.SendResponse c p)) = [] := by
  induction l with
  | nil => rfl
  | cons e t ih => simpa [enqueued] using ih

theorem arrive_enqueued (s : CtrlServer) (c : CallId) (name : String) (n : Int)
    (e : List CallId × Int) :
    ((BarrierHandler.arrive s c name n e).status = Status.ok →
      enqueued (BarrierHandler.arrive s c name n e).events = [CtrlMethod.kBarrier]) ∧
    ((BarrierHandler.arrive s c name n e).status ≠ Status.ok →
      enqueued (BarrierHandler.arrive s c name n e).events = []) := by
  unfold BarrierHandler.arrive
  split
  · exact ⟨fun h => (nomatch h), fun _ => rfl⟩
  · dsimp only
    split
    · refine ⟨fun _ => ?_, fun h => absurd rfl h⟩
      rw [enqueued_append, enqueued_sends]; rfl
    · exact ⟨fun _ => rfl, fun h => absurd rfl h⟩

/-- C22 (re-arming).  For each of the thirteen request kinds: when the handler
of a request returns normally, the calls to `EnqueueRequest` among its actions
are exactly one, with the kind of the request, whether the call was answered or
parked; when it does not return, it has not called `EnqueueRequest`. -/
theorem rearming (s : CtrlServer) (c : CallId) (r : Request) :
    ((Process s c r).status = Status.ok → enqueued (Process s c r).events = [r.method]) ∧
    ((Process s c r).status ≠ Status.ok → enqueued (Process s c r).events = []) := by
  cases r with
  | LoadServer => exact ⟨fun _ => rfl, fun h => absurd rfl h⟩
  | Barrier name num =>
    simp only [Process, BarrierHandler, Request.method]
    split <;> exact arrive_enqueued _ c name num _
  | TryLock n =>
    simp only [Process, TryLockHandler, Request.method]
    split
    · split
      · exact ⟨fun _ => rfl, fun h => absurd rfl h⟩
      · exact ⟨fun h => (nomatch h), fun _ => rfl⟩
    · exact ⟨fun _ => rfl, fun h => absurd rfl h⟩
    · exact ⟨fun _ => rfl, fun h => absurd rfl h⟩
  | NotifyDone n =>
    simp only [Process, NotifyDoneHandler, Request.method]
    split
    · exact ⟨fun h => (nomatch h), fun _ => rfl⟩
    · exact ⟨fun h => (nomatch h), fun _ => rfl⟩
    · refine ⟨fun _ => ?_, fun h => absurd rfl h⟩
      rw [enqueued_append, enqueued_sends]; rfl
  | WaitUntilDone n =>
    simp only [Process, WaitUntilDoneHandler, Request.method]
    split
    · exact ⟨fun h => (nomatch h), fun _ => rfl⟩
    · exact ⟨fun _ => rfl, fun h => absurd rfl h⟩
    · exact ⟨fun _ => rfl, fun h => absurd rfl h⟩
  | PushKV key val =>
    simp only [Process, PushKVHandler, Request.method]
    split
    · split
      · refine ⟨fun _ => ?_, fun h => absurd rfl h⟩
        rw [enqueued_append, enqueued_sends]; rfl
      · exact ⟨fun _ => rfl, fun h => absurd rfl h⟩
    · exact ⟨fun h => (nomatch h), fun _ => rfl⟩
  | ClearKV key =>
    simp only [Process, ClearKVHandler, Request.method]
    split
    · exact ⟨fun h => (nomatch h), fun _ => rfl⟩
    · split
      · exact ⟨fun h => (nomatch h), fun _ => rfl⟩
      · exact ⟨fun _ => rfl, fun h => absurd rfl h⟩
  | PullKV key =>
    simp only [Process, PullKVHandler, Request.method]
    split <;> exact ⟨fun _ => rfl, fun h => absurd rfl h⟩
  | PushActEvent a => exact ⟨fun _ => rfl, fun h => absurd rfl h⟩
  | Clear =>
    simp only [Process, ClearHandler, Request.method]
    split
    · exact ⟨fun _ => rfl, fun h => absurd rfl h⟩
    · exact ⟨fun h => (nomatch h), fun _ => rfl⟩
  | IncreaseCount key val => exact ⟨fun _ => rfl, fun h => absurd rfl h⟩
  | EraseCount key =>
    simp only [Process, EraseCountHandler, Request.method]
    split
    · exact ⟨fun h => (nomatch h), fun _ => rfl⟩
    · exact ⟨fun _ => rfl, fun h => absurd rfl h⟩
  | PushAvgActInterval a b => exact ⟨fun _ => rfl, fun h => absurd rfl h⟩

/-- Witness of C22: a wait on the locked name "ckpt" parks the call and re-arms
`kWaitUntilDone` once. -/
theorem rearming_witness :
    enqueued (Process (TryLockHandler CtrlServer.init 1 "ckpt").server 2
        (Request.WaitUntilDone "ckpt")).events = [CtrlMethod.kWaitUntilDone] :=
  (rearming (TryLockHandler CtrlServer.init 1 "ckpt").server 2
    (Request.WaitUntilDone "ckpt")).1 (by decide)

/-! ## The effect of a request on its own entry and on nothing else -/

theorem answeredCalls_append (a b : List Event) :
    answeredCalls (a ++ b) = answeredCalls a ++ answeredCalls b := by
  simp [answeredCalls, responses_append]

theorem answeredCalls_sends (l : List CallId) (p : Payload) :
    answeredCalls (l.map (fun c => Event.SendResponse c p)) = l := by
  induction l with
  | nil => rfl
  | cons e t ih =>
    simp only [answeredCalls, List.map_cons, responses] at ih ⊢
    rw [ih]

theorem arrive_frame (s : CtrlServer) (c : CallId) (name : String) (n : Int)
    (e : List CallId × Int) :
    (BarrierHandler.arrive s c name n e).server.name2lock_status_ = s.name2lock_status_ ∧
    (BarrierHandler.arrive s c name n e).server.kv_ = s.kv_ ∧
    (BarrierHandler.arrive s c name n e).server.pending_kv_calls_ = s.pending_kv_calls_ ∧
    (BarrierHandler.arrive s c name n e).server.count_ = s.count_ ∧
    ∀ k, k ≠ name →
      (BarrierHandler.arrive s c name n e).server.barrier_calls_.find k
        = s.barrier_calls_.find k := by
  refine ⟨arrive_locks s c name n e, (arrive_kv s c name n e).1, (arrive_kv s c name n e).2.1,
    (arrive_kv s c name n e).2.2, ?_⟩
  intro k hk
  unfold BarrierHandler.arrive
  split
  · rfl
  · dsimp only
    split
    · simp [HashMap.find_erase, hk]
    · simp [HashMap.find_assign, hk]

/-- The three ways `BarrierHandler.arrive` ends, seen on the answered calls and
on the entry of the barrier. -/
theorem arrive_entry (s : CtrlServer) (c : CallId) (name : String) (n : Int)
    (e : List CallId × Int) (h : s.barrier_calls_.find name = some e) :
    (answeredCalls (BarrierHandler.arrive s c name n e).events = [] ∧
      (BarrierHandler.arrive s c name n e).status ≠ Status.ok ∧
      (BarrierHandler.arrive s c name n e).server.barrier_calls_.find name = some e) ∨
    (answeredCalls (BarrierHandler.arrive s c name n e).events = [] ∧
      (BarrierHandler.arrive s c name n e).server.barrier_calls_.find name
        = some (e.1 ++ [c], e.2)) ∨
    (answeredCalls (BarrierHandler.arrive s c name n e).events = e.1 ++ [c] ∧
      (BarrierHandler.arrive s c name n e).server.barrier_calls_.find name = none) := by
  unfold BarrierHandler.arrive
  split
  · left; exact ⟨rfl, (by simp), h⟩
  · dsimp only
    split
    · right; right
      refine ⟨?_, by simp [HashMap.find_erase]⟩
      rw [answeredCalls_append, answeredCalls_sends]
      simp [answeredCalls, responses]
    · right; left
      exact ⟨rfl, by simp [HashMap.find_assign, h]⟩

/-- Requests other than `Barrier` leave the barrier map as it is. -/
theorem barrier_frame (s : CtrlServer) (c : CallId) (r : Request)
    (h : ∀ name n, r ≠ Request.Barrier name n) :
    (Process s c r).server.barrier_calls_ = s.barrier_calls_ := by
  cases r with
  | LoadServer => rfl
  | Barrier name num => exact absurd rfl (h name num)
  | TryLock n =>
    simp only [Process, TryLockHandler]
    split
    · split <;> rfl
    · rfl
    · rfl
  | NotifyDone n =>
    simp only [Process, NotifyDoneHandler]
    split <;> rfl
  | WaitUntilDone n =>
    simp only [Process, WaitUntilDoneHandler]
    split <;> rfl
  | PushKV key val =>
    simp only [Process, PushKVHandler]
    split
    · split <;> rfl
    · rfl
  | ClearKV key =>
    simp only [Process, ClearKVHandler]
    split
    · rfl
    · split <;> rfl
  | PullKV key =>
    simp only [Process, PullKVHandler]
    split <;> rfl
  | PushActEvent a => rfl
  | Clear =>
    simp only [Process, ClearHandler]
    split <;> rfl
  | IncreaseCount key val => rfl
  | EraseCount key =>
    simp only [Process, EraseCountHandler]
    split <;> rfl
  | PushAvgActInterval a b => rfl

/-- Requests other than the two counter requests leave the counter map as it
is. -/
theorem count_frame (s : CtrlServer) (c : CallId) (r : Request)
    (h1 : ∀ k v, r ≠ Request.IncreaseCount k v) (h2 : ∀ k, r ≠ Request.EraseCount k) :
    (Process s c r).server.count_ = s.count_ := by
  cases r with
  | LoadServer => rfl
  | Barrier name num =>
    simp only [Process, BarrierHandler]
    split <;> exact (arrive_kv _ c name num _).2.2
  | TryLock n =>
    simp only [Process, TryLockHandler]
    split
    · split <;> rfl
    · rfl
    · rfl
  | NotifyDone n =>
    simp only [Process, NotifyDoneHandler]
    split <;> rfl
  | WaitUntilDone n =>
    simp only [Process, WaitUntilDoneHandler]
    split <;> rfl
  | PushKV key val =>
    simp only [Process, PushKVHandler]
    split
    · split <;> rfl
    · rfl
  | ClearKV key =>
    simp only [Process, ClearKVHandler]
    split
    · rfl
    · split <;> rfl
  | PullKV key =>
    simp only [Process, PullKVHandler]
    split <;> rfl
  | PushActEvent a => rfl
  | Clear =>
    simp only [Process, ClearHandler]
    split <;> rfl
  | IncreaseCount key val => exact absurd rfl (h1 key val)
  | EraseCount key => exact absurd rfl (h2 key)
  | PushAvgActInterval a b => rfl

theorem Barrier_effect (s : CtrlServer) (c : CallId) (name : String) (n : Int) :
    sameOutside Registry.barriers name s (BarrierHandler s c name n).server ∧
    ((((answeredCalls (BarrierHandler s c name n).events = [] ∧
          (BarrierHandler s c name n).status ≠ Status.ok) ∨
        answeredCalls (BarrierHandler s c name n).events = [c]) ∧
      arrived (BarrierHandler s c name n).server name = arrived s name) ∨
    (answeredCalls (BarrierHandler s c name n).events = [] ∧
      arrived (BarrierHandler s c name n).server name = arrived s name ++ [c]) ∨
    (answeredCalls (BarrierHandler s c name n).events = arrived s name ++ [c] ∧
      arrived (BarrierHandler s c name n).server name = [])) := by
  cases hf : s.barrier_calls_.find name with
  | none =>
    have ha : arrived s name = [] := by simp [arrived, hf]
    have h1 : ({ s with barrier_calls_ := (s.barrier_calls_.emplace name ([], n)).1 } :
        CtrlServer).barrier_calls_.find name = some ([], n) := by
      simp [HashMap.find_emplace _ _ _ _ hf]
    obtain ⟨f1, f2, f3, f4, f5⟩ := arrive_frame
      { s with barrier_calls_ := (s.barrier_calls_.emplace name ([], n)).1 } c name n ([], n)
    have he := arrive_entry _ c name n ([], n) h1
    rw [BarrierHandler_fresh s c name n hf, ha]
    refine ⟨⟨f1, f2, f3, f4, ?_⟩, ?_⟩
    · intro k hk
      rw [f5 k hk]
      simp [HashMap.find_emplace _ _ _ _ hf, hk]
    · rcases he with ⟨e1, e0, e2⟩ | ⟨e1, e2⟩ | ⟨e1, e2⟩
      · left; exact ⟨Or.inl ⟨e1, e0⟩, by simp [arrived, e2]⟩
      · right; left; exact ⟨e1, by simp [arrived, e2]⟩
      · right; right; exact ⟨by simpa using e1, by simp [arrived, e2]⟩
  | some e =>
    have ha : arrived s name = e.1 := by simp [arrived, hf]
    have he := arrive_entry s c name n e hf
    rw [BarrierHandler_existing s c name n e hf, ha]
    refine ⟨arrive_frame s c name n e, ?_⟩
    rcases he with ⟨e1, e0, e2⟩ | ⟨e1, e2⟩ | ⟨e1, e2⟩
    · left; exact ⟨Or.inl ⟨e1, e0⟩, by simp [arrived, e2]⟩
    · right; left; exact ⟨e1, by simp [arrived, e2]⟩
    · right; right; exact ⟨e1, by simp [arrived, e2]⟩

/-- The effect of a request that works on the entry of `name` in the registry
`reg`: the state changes nowhere else, and on the answered calls and the queue
of `name` the step is quiet, a park or a flush. -/
theorem targeted_effect (s : CtrlServer) (c : CallId) (r : Request) (reg : Registry)
    (name : String) (ht : r.target = some (reg, name)) :
    sameOutside reg name s (Process s c r).server ∧
    ((((answeredCalls (Process s c r).events = [] ∧
          (Process s c r).status ≠ Status.ok) ∨
        answeredCalls (Process s c r).events = [c]) ∧
      parkedUnder (Process s c r).server reg name = parkedUnder s reg name) ∨
    (answeredCalls (Process s c r).events = [] ∧
      parkedUnder (Process s c r).server reg name = parkedUnder s reg name ++ [c]) ∨
    (answeredCalls (Process s c r).events = parkedUnder s reg name ++ [c] ∧
      parkedUnder (Process s c r).server reg name = [])) := by
  cases r with
  | LoadServer => cases ht
  | PushActEvent a => cases ht
  | Clear => cases ht
  | PushAvgActInterval a b => cases ht
  | Barrier n num =>
    simp only [Request.target, Option.some.injEq, Prod.mk.injEq] at ht
    obtain ⟨rfl, rfl⟩ := ht
    exact Barrier_effect s c n num
  | TryLock n =>
    simp only [Request.target, Option.some.injEq, Prod.mk.injEq] at ht
    obtain ⟨rfl, rfl⟩ := ht
    have hb := barrier_frame s c (Request.TryLock n) (fun _ _ h => nomatch h)
    have hk := kv_frame s c (Request.TryLock n) (fun _ _ h => nomatch h)
      (fun _ h => nomatch h) (fun _ h => nomatch h) (fun h => nomatch h)
    have hc := count_frame s c (Request.TryLock n) (fun _ _ h => nomatch h)
      (fun _ h => nomatch h)
    have hP : Process s c (Request.TryLock n) = TryLockHandler s c n := rfl
    rw [hP] at hb hk hc ⊢
    refine ⟨⟨hb, hk.1, hk.2, hc, ?_⟩, ?_⟩
    · intro k hne
      rw [find_TryLock]
      have : ¬ n = k := fun e => hne e.symm
      simp [this]
    · left
      refine ⟨Or.inr ?_, ?_⟩
      · rw [(TryLock_answer s c n).2]; rfl
      · simp only [parkedUnder, find_TryLock]
        cases hf : s.name2lock_status_.find n with
        | none => simp
        | some st => simp
  | NotifyDone n =>
    simp only [Request.target, Option.some.injEq, Prod.mk.injEq] at ht
    obtain ⟨rfl, rfl⟩ := ht
    have hb := barrier_frame s c (Request.NotifyDone n) (fun _ _ h => nomatch h)
    have hk := kv_frame s c (Request.NotifyDone n) (fun _ _ h => nomatch h)
      (fun _ h => nomatch h) (fun _ h => nomatch h) (fun h => nomatch h)
    have hc := count_frame s c (Request.NotifyDone n) (fun _ _ h => nomatch h)
      (fun _ h => nomatch h)
    have hP : Process s c (Request.NotifyDone n) = NotifyDoneHandler s c n := rfl
    rw [hP] at hb hk hc ⊢
    refine ⟨⟨hb, hk.1, hk.2, hc, ?_⟩, ?_⟩
    · intro k hne
      rw [find_NotifyDone]
      have : ¬ n = k := fun e => hne e.symm
      simp [this]
    · cases hf : s.name2lock_status_.find n with
      | none =>
        left
        have he : NotifyDoneHandler s c n = ⟨s, [], Status.undefinedBehavior⟩ := by
          unfold NotifyDoneHandler; rw [hf]
        rw [he]
        exact ⟨Or.inl ⟨rfl, by simp⟩, rfl⟩
      | some st =>
        cases st with
        | none =>
          left
          have he : NotifyDoneHandler s c n = ⟨s, [], Status.undefinedBehavior⟩ := by
            unfold NotifyDoneHandler; rw [hf]
          rw [he]
          exact ⟨Or.inl ⟨rfl, by simp⟩, rfl⟩
        | some ws =>
          right; right
          have hp : parkedUnder s Registry.locks n = ws := by simp [parkedUnder, hf]
          have he : NotifyDoneHandler s c n =
              ⟨{ s with name2lock_status_ := s.name2lock_status_.assign n none },
                ws.map (fun w => Event.SendResponse w Payload.empty)
                  ++ [Event.SendResponse c Payload.empty,
                      Event.EnqueueRequest CtrlMethod.kNotifyDone],
                Status.ok⟩ := by
            unfold NotifyDoneHandler; rw [hf]
          rw [hp, he]
          constructor
          · rw [answeredCalls_append, answeredCalls_sends]
            simp [answeredCalls, responses]
          · simp [parkedUnder, HashMap.find_assign, hf]
  | WaitUntilDone n =>
    simp only [Request.target, Option.some.injEq, Prod.mk.injEq] at ht
    obtain ⟨rfl, rfl⟩ := ht
    have hb := barrier_frame s c (Request.WaitUntilDone n) (fun _ _ h => nomatch h)
    have hk := kv_frame s c (Request.WaitUntilDone n) (fun _ _ h => nomatch h)
      (fun _ h => nomatch h) (fun _ h => nomatch h) (fun h => nomatch h)
    have hc := count_frame s c (Request.WaitUntilDone n) (fun _ _ h => nomatch h)
      (fun _ h => nomatch h)
    have hP : Process s c (Request.WaitUntilDone n) = WaitUntilDoneHandler s c n := rfl
    rw [hP] at hb hk hc ⊢
    refine ⟨⟨hb, hk.1, hk.2, hc, ?_⟩, ?_⟩
    · intro k hne
      rw [find_WaitUntilDone]
      have : ¬ n = k := fun e => hne e.symm
      cases s.name2lock_status_.find k with
      | none => rfl
      | some st => cases st <;> simp [this]
    · cases hf : s.name2lock_status_.find n with
      | none =>
        left
        have he : WaitUntilDoneHandler s c n = ⟨s, [], Status.outOfRange⟩ := by
          unfold WaitUntilDoneHandler; rw [hf]
        rw [he]
        exact ⟨Or.inl ⟨rfl, by simp⟩, rfl⟩
      | some st =>
        cases st with
        | none =>
          left
          have he : WaitUntilDoneHandler s c n =
              ⟨s, [Event.SendResponse c Payload.empty,
                   Event.EnqueueRequest CtrlMethod.kWaitUntilDone], Status.ok⟩ := by
            unfold WaitUntilDoneHandler; rw [hf]
          rw [he]
          exact ⟨Or.inr rfl, rfl⟩
        | some ws =>
          right; left
          have hp : parkedUnder s Registry.locks n = ws := by simp [parkedUnder, hf]
          have he : WaitUntilDoneHandler s c n =
              ⟨{ s with name2lock_status_ :=
                    s.name2lock_status_.assign n (some (ws ++ [c])) },
                [Event.EnqueueRequest CtrlMethod.kWaitUntilDone], Status.ok⟩ := by
            unfold WaitUntilDoneHandler; rw [hf]
          rw [hp, he]
          exact ⟨rfl, by simp [parkedUnder, HashMap.find_assign, hf]⟩
  | PushKV key val =>
    simp only [Request.target, Option.some.injEq, Prod.mk.injEq] at ht
    obtain ⟨rfl, rfl⟩ := ht
    have hb := barrier_frame s c (Request.PushKV key val) (fun _ _ h => nomatch h)
    have hl := locks_frame s c (Request.PushKV key val) (fun _ h => nomatch h)
      (fun _ h => nomatch h) (fun _ h => nomatch h) (fun h => nomatch h)
    have hc := count_frame s c (Request.PushKV key val) (fun _ _ h => nomatch h)
      (fun _ h => nomatch h)
    have hP : Process s c (Request.PushKV key val) = PushKVHandler s c key val := rfl
    rw [hP] at hb hl hc ⊢
    refine ⟨⟨hb, hl, hc, ?_⟩, ?_⟩
    · intro k hne
      rw [find_kv_PushKV, find_pending_PushKV]
      simp [hne]
    · cases hf : s.kv_.find key with
      | some x =>
        left
        rw [PushKV_published s c key val x hf]
        exact ⟨Or.inl ⟨rfl, by simp⟩, rfl⟩
      | none =>
        right; right
        have hgone : parkedUnder (PushKVHandler s c key val).server Registry.kv key = [] := by
          simp [parkedUnder, parkedReads, find_pending_PushKV, hf]
        refine ⟨?_, hgone⟩
        rcases PushKV_unpublished s c key val hf with he | ⟨hn, he⟩
        · rw [he, answeredCalls_append, answeredCalls_sends]
          simp [answeredCalls, responses, parkedUnder]
        · rw [he]
          simp [answeredCalls, responses, parkedUnder, parkedReads, hn]
  | ClearKV key =>
    simp only [Request.target, Option.some.injEq, Prod.mk.injEq] at ht
    obtain ⟨rfl, rfl⟩ := ht
    have hb := barrier_frame s c (Request.ClearKV key) (fun _ _ h => nomatch h)
    have hl := locks_frame s c (Request.ClearKV key) (fun _ h => nomatch h)
      (fun _ h => nomatch h) (fun _ h => nomatch h) (fun h => nomatch h)
    have hc := count_frame s c (Request.ClearKV key) (fun _ _ h => nomatch h)
      (fun _ h => nomatch h)
    have hP : Process s c (Request.ClearKV key) = ClearKVHandler s c key := rfl
    rw [hP] at hb hl hc ⊢
    refine ⟨⟨hb, hl, hc, ?_⟩, ?_⟩
    · intro k hne
      rw [(find_kv_ClearKV s c key k).1, (find_kv_ClearKV s c key k).2]
      simp [hne]
    · left
      constructor
      · unfold ClearKVHandler
        dsimp only
        split
        · exact Or.inl ⟨rfl, by simp⟩
        · split
          · exact Or.inl ⟨rfl, by simp⟩
          · exact Or.inr rfl
      · simp only [parkedUnder, parkedReads, (find_kv_ClearKV s c key key).2]
  | PullKV key =>
    simp only [Request.target, Option.some.injEq, Prod.mk.injEq] at ht
    obtain ⟨rfl, rfl⟩ := ht
    have hb := barrier_frame s c (Request.PullKV key) (fun _ _ h => nomatch h)
    have hl := locks_frame s c (Request.PullKV key) (fun _ h => nomatch h)
      (fun _ h => nomatch h) (fun _ h => nomatch h) (fun h => nomatch h)
    have hc := count_frame s c (Request.PullKV key) (fun _ _ h => nomatch h)
      (fun _ h => nomatch h)
    have hP : Process s c (Request.PullKV key) = PullKVHandler s c key := rfl
    rw [hP] at hb hl hc ⊢
    refine ⟨⟨hb, hl, hc, ?_⟩, ?_⟩
    · intro k hne
      rw [(find_pending_PullKV s c key k).1, (find_pending_PullKV s c key k).2]
      simp [hne]
    · cases hf : s.kv_.find key with
      | some x =>
        left
        rw [PullKV_published s c key x hf]
        exact ⟨Or.inr rfl, rfl⟩
      | none =>
        right; left
        obtain ⟨_, p2, _, p4⟩ := PullKV_unpublished s c key hf
        exact ⟨by rw [p2]; rfl, by simp [parkedUnder, parkedReads, p4]⟩
  | IncreaseCount key val =>
    simp only [Request.target, Option.some.injEq, Prod.mk.injEq] at ht
    obtain ⟨rfl, rfl⟩ := ht
    have hb := barrier_frame s c (Request.IncreaseCount key val) (fun _ _ h => nomatch h)
    have hl := locks_frame s c (Request.IncreaseCount key val) (fun _ h => nomatch h)
      (fun _ h => nomatch h) (fun _ h => nomatch h) (fun h => nomatch h)
    have hk := kv_frame s c (Request.IncreaseCount key val) (fun _ _ h => nomatch h)
      (fun _ h => nomatch h) (fun _ h => nomatch h) (fun h => nomatch h)
    have hP : Process s c (Request.IncreaseCount key val) = IncreaseCountHandler s c key val := rfl
    rw [hP] at hb hl hk ⊢
    refine ⟨⟨hb, hl, hk.1, hk.2, ?_⟩, ?_⟩
    · intro k hne
      rw [find_count_Increase]
      simp [hne]
    · left
      exact ⟨Or.inr rfl, rfl⟩
  | EraseCount key =>
    simp only [Request.target, Option.some.injEq, Prod.mk.injEq] at ht
    obtain ⟨rfl, rfl⟩ := ht
    have hb := barrier_frame s c (Request.EraseCount key) (fun _ _ h => nomatch h)
    have hl := locks_frame s c (Request.EraseCount key) (fun _ h => nomatch h)
      (fun _ h => nomatch h) (fun _ h => nomatch h) (fun h => nomatch h)
    have hk := kv_frame s c (Request.EraseCount key) (fun _ _ h => nomatch h)
      (fun _ h => nomatch h) (fun _ h => nomatch h) (fun h => nomatch h)
    have hP : Process s c (Request.EraseCount key) = EraseCountHandler s c key := rfl
    rw [hP] at hb hl hk ⊢
    refine ⟨⟨hb, hl, hk.1, hk.2, ?_⟩, ?_⟩
    · intro k hne
      rw [find_count_Erase]
      simp [hne]
    · left
      refine ⟨?_, rfl⟩
      unfold EraseCountHandler
      dsimp only
      split
      · exact Or.inl ⟨rfl, by simp⟩
      · exact Or.inr rfl

theorem mem_answeredCalls (events : List Event) (a : CallId) (p : Payload)
    (h : (a, p) ∈ responses events) : a ∈ answeredCalls events :=
  List.mem_map.mpr ⟨(a, p), h, rfl⟩

/-- C23 (registry and name independence).  Let the request `r` be one of
Arrive, TryAcquire, SignalDone, AwaitDone, Publish, Withdraw, Read, Increase and
Delete, working on `name` in its registry `reg`.  After its handler, whether it
returns or not, the maps of the other three registries are equal to what they
were and every other name of `reg` has the entry it had (for the key-value
registry: the stored value and the pending reads); and every response it sends
goes to its own call or to a call that was parked under `name` in `reg`. -/
theorem registry_and_name_independence (s : CtrlServer) (c : CallId) (r : Request)
    (reg : Registry) (name : String) (ht : r.target = some (reg, name)) :
    sameOutside reg name s (Process s c r).server ∧
    (∀ a p, (a, p) ∈ responses (Process s c r).events →
      a = c ∨ a ∈ parkedUnder s reg name) := by
  obtain ⟨hframe, hshape⟩ := targeted_effect s c r reg name ht
  refine ⟨hframe, ?_⟩
  intro a p hmem
  have ha := mem_answeredCalls _ a p hmem
  rcases hshape with ⟨⟨h1, _⟩ | h1, _⟩ | ⟨h1, _⟩ | ⟨h1, _⟩
  · rw [h1] at ha; cases ha
  · rw [h1] at ha; left; simpa using ha
  · rw [h1] at ha; cases ha
  · rw [h1] at ha
    rcases List.mem_append.mp ha with h | h
    · exact Or.inr h
    · left; simpa using h

/-- Witness of C23: the string "x" names a barrier, a lock with a waiter, a
pending read and a counter; the completion signal on the lock "x" answers the
waiter and the caller and leaves the other three maps as they were. -/
theorem registry_and_name_independence_witness :
    sameOutside Registry.locks "x"
      (HandleRpcs CtrlServer.init
        [(1, Request.Barrier "x" 2), (2, Request.TryLock "x"), (3, Request.WaitUntilDone "x"),
         (4, Request.PullKV "x"), (5, Request.IncreaseCount "x" 7)]).server
      (Process (HandleRpcs CtrlServer.init
        [(1, Request.Barrier "x" 2), (2, Request.TryLock "x"), (3, Request.WaitUntilDone "x"),
         (4, Request.PullKV "x"), (5, Request.IncreaseCount "x" 7)]).server 6
        (Request.NotifyDone "x")).server :=
  (registry_and_name_independence (HandleRpcs CtrlServer.init
        [(1, Request.Barrier "x" 2), (2, Request.TryLock "x"), (3, Request.WaitUntilDone "x"),
         (4, Request.PullKV "x"), (5, Request.IncreaseCount "x" 7)]).server 6
        (Request.NotifyDone "x") Registry.locks "x" rfl).1

/-! ## Parked and answered calls -/

theorem parkedUnder_sameOutside (reg : Registry) (name : String) (s t : CtrlServer)
    (h : sameOutside reg name s t) (reg2 : Registry) (k : String)
    (hne : (reg2, k) ≠ (reg, name)) :
    parkedUnder t reg2 k = parkedUnder s reg2 k := by
  have hk : reg2 = reg → k ≠ name := fun e1 e2 => hne (by rw [e1, e2])
  cases reg <;> cases reg2 <;> simp only [sameOutside] at h <;>
    simp only [parkedUnder, arrived, parkedReads]
  · rw [h.2.2.2.2 k (hk rfl)]
  · rw [h.1]
  · rw [h.2.2.1]
  · rw [h.1]
  · rw [h.2.2.2.2 k (hk rfl)]
  · rw [h.2.2.1]
  · rw [h.1]
  · rw [h.2.1]
  · rw [(h.2.2.2 k (hk rfl)).2]
  · rw [h.1]
  · rw [h.2.1]
  · rw [h.2.2.2.1]

/-- Every handler step is quiet, a park or a flush. -/
theorem step_shape (s : CtrlServer) (c : CallId) (r : Request) :
    StepShape s c (Process s c r).server (answeredCalls (Process s c r).events) := by
  cases ht : r.target with
  | some q =>
    obtain ⟨reg, name⟩ := q
    obtain ⟨hframe, hshape⟩ := targeted_effect s c r reg name ht
    have hsame := parkedUnder_sameOutside reg name s _ hframe
    rcases hshape with ⟨h1, h2⟩ | ⟨h1, h2⟩ | ⟨h1, h2⟩
    · left
      refine ⟨h1.imp (fun x => x.1) id, ?_⟩
      intro reg2 k
      by_cases hq : (reg2, k) = (reg, name)
      · simp only [Prod.mk.injEq] at hq
        obtain ⟨rfl, rfl⟩ := hq
        exact Or.inl h2
      · exact Or.inl (hsame reg2 k hq)
    · right; left
      exact ⟨reg, name, h1, h2, hsame⟩
    · right; right
      exact ⟨reg, name, h1, h2, hsame⟩
  | none =>
    left
    cases r with
    | LoadServer => exact ⟨Or.inr rfl, fun _ _ => Or.inl rfl⟩
    | PushActEvent a => exact ⟨Or.inr rfl, fun _ _ => Or.inl rfl⟩
    | PushAvgActInterval a b => exact ⟨Or.inr rfl, fun _ _ => Or.inl rfl⟩
    | Clear =>
      have hP : Process s c Request.Clear = ClearHandler s c := rfl
      rw [hP]
      obtain ⟨_, f2, f3, f4, _⟩ := Clear_kv s c
      constructor
      · cases he : s.pending_kv_calls_.empty with
        | true => rw [Clear_ok s c he]; exact Or.inr rfl
        | false => rw [Clear_fail s c he]; exact Or.inl rfl
      · intro reg2 k
        cases reg2 with
        | barriers => left; simp only [parkedUnder, arrived, f4]
        | locks => right; simp only [parkedUnder, f2]; rfl
        | kv => left; simp only [parkedUnder, parkedReads, f3]
        | counters => left; rfl
    | Barrier n num => cases ht
    | TryLock n => cases ht
    | NotifyDone n => cases ht
    | WaitUntilDone n => cases ht
    | PushKV key val => cases ht
    | ClearKV key => cases ht
    | PullKV key => cases ht
    | IncreaseCount key val => cases ht
    | EraseCount key => cases ht

theorem callsConsistent_init : callsConsistent CtrlServer.init [] [] := by
  refine ⟨List.nodup_nil, ?_, ?_, ?_, ?_, ?_⟩
  · intro reg k; cases reg <;> exact List.nodup_nil
  · intro reg1 k1 reg2 k2 a h; cases reg1 <;> cases h
  · intro reg k a h; cases reg <;> cases h
  · intro reg k a h; cases reg <;> cases h
  · intro a h; cases h

/-- A quiet step, a park or a flush by a call with an unused handle keeps the
parked and the answered calls consistent. -/
theorem callsConsistent_step (s t : CtrlServer) (c : CallId) (ids answered used : List CallId)
    (hshape : StepShape s c t ids) (hc : c ∉ used) (h : callsConsistent s answered used) :
    callsConsistent t (answered ++ ids) (used ++ [c]) := by
  obtain ⟨n1, n2, n3, n4, n5, n6⟩ := h
  have hca : c ∉ answered := fun hm => hc (n6 c hm)
  have hcq : ∀ reg k, c ∉ parkedUnder s reg k := fun reg k hm => hc (n5 reg k c hm)
  rcases hshape with ⟨hids, hq⟩ | ⟨reg0, k0, hids, hq0, hq⟩ | ⟨reg0, k0, hids, hq0, hq⟩
  · -- quiet
    have hsub : ∀ reg k a, a ∈ parkedUnder t reg k → a ∈ parkedUnder s reg k := by
      intro reg k a ha
      rcases hq reg k with e | e
      · rw [e] at ha; exact ha
      · rw [e] at ha; cases ha
    have hidsc : ∀ a, a ∈ ids → a = c := by
      intro a ha
      rcases hids with e | e
      · rw [e] at ha; cases ha
      · rw [e] at ha; simpa using ha
    refine ⟨?_, ?_, ?_, ?_, ?_, ?_⟩
    · rcases hids with e | e
      · rw [e]; simpa using n1
      · rw [e]
        exact List.nodup_append.mpr ⟨n1, List.nodup_singleton c, by
          intro a ha hb
          rw [List.mem_singleton] at hb
          exact hca (hb ▸ ha)⟩
    · intro reg k
      rcases hq reg k with e | e
      · rw [e]; exact n2 reg k
      · rw [e]; exact List.nodup_nil
    · intro reg1 k1 reg2 k2 a h1 h2
      exact n3 reg1 k1 reg2 k2 a (hsub _ _ _ h1) (hsub _ _ _ h2)
    · intro reg k a ha hmem
      have hold := hsub _ _ _ ha
      rcases List.mem_append.mp hmem with hm | hm
      · exact n4 reg k a hold hm
      · exact hcq reg k (hidsc a hm ▸ hold)
    · intro reg k a ha
      exact List.mem_append_left _ (n5 reg k a (hsub _ _ _ ha))
    · intro a ha
      rcases List.mem_append.mp ha with hm | hm
      · exact List.mem_append_left _ (n6 a hm)
      · rw [hidsc a hm]; simp
  · -- park
    have hmem : ∀ reg k a, a ∈ parkedUnder t reg k →
        a ∈ parkedUnder s reg k ∨ (a = c ∧ (reg, k) = (reg0, k0)) := by
      intro reg k a ha
      by_cases hqe : (reg, k) = (reg0, k0)
      · simp only [Prod.mk.injEq] at hqe
        obtain ⟨rfl, rfl⟩ := hqe
        rw [hq0] at ha
        rcases List.mem_append.mp ha with hm | hm
        · exact Or.inl hm
        · exact Or.inr ⟨by simpa using hm, rfl⟩
      · rw [hq reg k hqe] at ha
        exact Or.inl ha
    rw [hids]
    refine ⟨by simpa using n1, ?_, ?_, ?_, ?_, ?_⟩
    · intro reg k
      by_cases hqe : (reg, k) = (reg0, k0)
      · simp only [Prod.mk.injEq] at hqe
        obtain ⟨rfl, rfl⟩ := hqe
        rw [hq0]
        exact List.nodup_append.mpr ⟨n2 reg k, List.nodup_singleton c, by
          intro a ha hb
          rw [List.mem_singleton] at hb
          exact hcq reg k (hb ▸ ha)⟩
      · rw [hq reg k hqe]; exact n2 reg k
    · intro reg1 k1 reg2 k2 a h1 h2
      rcases hmem _ _ _ h1 with o1 | ⟨e1, q1⟩
      · rcases hmem _ _ _ h2 with o2 | ⟨e2, q2⟩
        · exact n3 reg1 k1 reg2 k2 a o1 o2
        · exact absurd (e2 ▸ o1) (hcq reg1 k1)
      · rcases hmem _ _ _ h2 with o2 | ⟨e2, q2⟩
        · exact absurd (e1 ▸ o2) (hcq reg2 k2)
        · rw [q1, q2]
    · intro reg k a ha hm
      have hm2 : a ∈ answered := by simpa using hm
      rcases hmem _ _ _ ha with o | ⟨e, _⟩
      · exact n4 reg k a o hm2
      · exact hca (e ▸ hm2)
    · intro reg k a ha
      rcases hmem _ _ _ ha with o | ⟨e, _⟩
      · exact List.mem_append_left _ (n5 reg k a o)
      · rw [e]; simp
    · intro a ha
      have hm2 : a ∈ answered := by simpa using ha
      exact List.mem_append_left _ (n6 a hm2)
  · -- flush
    have hmem : ∀ reg k a, a ∈ parkedUnder t reg k →
        a ∈ parkedUnder s reg k ∧ (reg, k) ≠ (reg0, k0) := by
      intro reg k a ha
      by_cases hqe : (reg, k) = (reg0, k0)
      · simp only [Prod.mk.injEq] at hqe
        obtain ⟨rfl, rfl⟩ := hqe
        rw [hq0] at ha; cases ha
      · rw [hq reg k hqe] at ha
        exact ⟨ha, hqe⟩
    have hidsm : ∀ a, a ∈ ids → a ∈ parkedUnder s reg0 k0 ∨ a = c := by
      intro a ha
      rw [hids] at ha
      rcases List.mem_append.mp ha with hm | hm
      · exact Or.inl hm
      · exact Or.inr (by simpa using hm)
    refine ⟨?_, ?_, ?_, ?_, ?_, ?_⟩
    · rw [hids]
      have hinner : (parkedUnder s reg0 k0 ++ [c]).Nodup :=
        List.nodup_append.mpr ⟨n2 reg0 k0, List.nodup_singleton c, by
          intro a ha hb
          rw [List.mem_singleton] at hb
          exact hcq reg0 k0 (hb ▸ ha)⟩
      refine List.nodup_append.mpr ⟨n1, hinner, ?_⟩
      intro a ha hb
      rcases List.mem_append.mp hb with hm | hm
      · exact n4 reg0 k0 a hm ha
      · rw [List.mem_singleton] at hm
        exact hca (hm ▸ ha)
    · intro reg k
      by_cases hqe : (reg, k) = (reg0, k0)
      · simp only [Prod.mk.injEq] at hqe
        obtain ⟨rfl, rfl⟩ := hqe
        rw [hq0]; exact List.nodup_nil
      · rw [hq reg k hqe]; exact n2 reg k
    · intro reg1 k1 reg2 k2 a h1 h2
      exact n3 reg1 k1 reg2 k2 a (hmem _ _ _ h1).1 (hmem _ _ _ h2).1
    · intro reg k a ha hm
      obtain ⟨hold, hqe⟩ := hmem _ _ _ ha
      rcases List.mem_append.mp hm with hm1 | hm1
      · exact n4 reg k a hold hm1
      · rcases hidsm a hm1 with o | o
        · exact hqe (n3 reg k reg0 k0 a hold o)
        · exact hcq reg k (o ▸ hold)
    · intro reg k a ha
      exact List.mem_append_left _ (n5 reg k a (hmem _ _ _ ha).1)
    · intro a ha
      rcases List.mem_append.mp ha with hm | hm
      · exact List.mem_append_left _ (n6 a hm)
      · rcases hidsm a hm with o | o
        · exact List.mem_append_left _ (n5 reg0 k0 a o)
        · rw [o]; simp

theorem callsConsistent_used (s : CtrlServer) (answered used used2 : List CallId)
    (hsub : ∀ a, a ∈ used → a ∈ used2) (h : callsConsistent s answered used) :
    callsConsistent s answered used2 := by
  obtain ⟨n1, n2, n3, n4, n5, n6⟩ := h
  exact ⟨n1, n2, n3, n4, fun reg k a ha => hsub a (n5 reg k a ha), fun a ha => hsub a (n6 a ha)⟩

/-- Consistency of the parked and the answered calls along a run of requests
with pairwise distinct, unused call handles. -/
theorem callsConsistent_run (reqs : List (CallId × Request)) :
    ∀ (s : CtrlServer) (answered used : List CallId),
      callsConsistent s answered used →
      (reqs.map (fun x => x.1)).Nodup →
      (∀ x ∈ reqs, x.1 ∉ used) →
      callsConsistent (HandleRpcs s reqs).server
        (answered ++ answeredCalls (HandleRpcs s reqs).events)
        (used ++ reqs.map (fun x => x.1)) := by
  induction reqs with
  | nil =>
    intro s answered used h _ _
    simpa [HandleRpcs_nil, answeredCalls, responses] using h
  | cons x t ih =>
    intro s answered used h hnd hfresh
    obtain ⟨c, r⟩ := x
    have hc : c ∉ used := hfresh (c, r) (List.mem_cons_self _ _)
    have hstep := callsConsistent_step s _ c _ answered used (step_shape s c r) hc h
    simp only [List.map_cons, List.nodup_cons] at hnd
    by_cases hx : (Process s c r).status = Status.ok
    · rw [HandleRpcs_cons_ok _ _ _ _ hx]
      have hfresh2 : ∀ y ∈ t, y.1 ∉ used ++ [c] := by
        intro y hy hm
        rcases List.mem_append.mp hm with h1 | h1
        · exact hfresh y (List.mem_cons_of_mem _ hy) h1
        · rw [List.mem_singleton] at h1
          exact hnd.1 (List.mem_map.mpr ⟨y, hy, h1⟩)
      have := ih (Process s c r).server _ _ hstep hnd.2 hfresh2
      simpa [answeredCalls_append, List.append_assoc] using this
    · rw [HandleRpcs_cons_stop _ _ _ _ hx]
      apply callsConsistent_used _ _ (used ++ [c]) _ _ hstep
      intro a ha
      rcases List.mem_append.mp ha with h1 | h1
      · exact List.mem_append_left _ h1
      · rw [List.mem_singleton] at h1
        rw [h1]; simp

/-! ## Accepted calls are answered, parked or discarded by a reset -/

theorem mem_waitersOf (entries : List (String × Option (List CallId))) (k : String)
    (ws : List CallId) (a : CallId) (h : List.lookup k entries = some (some ws))
    (ha : a ∈ ws) : a ∈ waitersOf entries := by
  induction entries with
  | nil => cases h
  | cons e t ih =>
    obtain ⟨k2, st⟩ := e
    by_cases hk : k = k2
    · subst hk
      rw [HashMap.lookup_cons_self] at h
      cases h
      exact List.mem_append_left _ ha
    · rw [HashMap.lookup_cons_ne _ _ _ _ hk] at h
      cases st with
      | none => exact ih h
      | some ws2 => exact List.mem_append_right _ (ih h)

theorem mem_lockWaiters (s : CtrlServer) (k : String) (a : CallId)
    (h : a ∈ parkedUnder s Registry.locks k) : a ∈ lockWaiters s := by
  simp only [parkedUnder] at h
  cases hf : s.name2lock_status_.find k with
  | none => rw [hf] at h; cases h
  | some st =>
    cases st with
    | none => rw [hf] at h; cases h
    | some ws =>
      rw [hf] at h
      exact mem_waitersOf _ k ws a hf h

/-- A handler that returns normally has answered its call or parked it. -/
theorem step_accepts (s : CtrlServer) (c : CallId) (r : Request)
    (hok : (Process s c r).status = Status.ok) :
    c ∈ answeredCalls (Process s c r).events ∨
    ∃ reg k, c ∈ parkedUnder (Process s c r).server reg k := by
  cases ht : r.target with
  | some q =>
    obtain ⟨reg, name⟩ := q
    obtain ⟨_, hshape⟩ := targeted_effect s c r reg name ht
    rcases hshape with ⟨⟨_, h0⟩ | h1, _⟩ | ⟨_, h2⟩ | ⟨h1, _⟩
    · exact absurd hok h0
    · left; rw [h1]; simp
    · right; exact ⟨reg, name, by rw [h2]; simp⟩
    · left; rw [h1]; simp
  | none =>
    left
    cases r with
    | LoadServer => simp [Process, LoadServerHandler, answeredCalls, responses]
    | PushActEvent a => simp [Process, PushActEventHandler, answeredCalls, responses]
    | PushAvgActInterval a b =>
      simp [Process, PushAvgActIntervalHandler, answeredCalls, responses]
    | Clear =>
      have hP : Process s c Request.Clear = ClearHandler s c := rfl
      rw [hP] at hok ⊢
      cases he : s.pending_kv_calls_.empty with
      | true => rw [Clear_ok s c he]; simp [answeredCalls, responses]
      | false => rw [Clear_fail s c he] at hok; cases hok
    | Barrier n num => cases ht
    | TryLock n => cases ht
    | NotifyDone n => cases ht
    | WaitUntilDone n => cases ht
    | PushKV key val => cases ht
    | ClearKV key => cases ht
    | PullKV key => cases ht
    | IncreaseCount key val => cases ht
    | EraseCount key => cases ht

/-- A parked call is, after one more request, answered or still parked in its
queue, unless the request is a reset and the call was waiting on a lock. -/
theorem step_keeps (s : CtrlServer) (c : CallId) (r : Request) (a : CallId)
    (reg : Registry) (k : String) (h : a ∈ parkedUnder s reg k) :
    a ∈ answeredCalls (Process s c r).events ∨
    a ∈ parkedUnder (Process s c r).server reg k ∨
    (r = Request.Clear ∧ a ∈ lockWaiters s) := by
  cases ht : r.target with
  | some q =>
    obtain ⟨reg0, name0⟩ := q
    obtain ⟨hframe, hshape⟩ := targeted_effect s c r reg0 name0 ht
    have hsame := parkedUnder_sameOutside reg0 name0 s _ hframe
    by_cases hq : (reg, k) = (reg0, name0)
    · simp only [Prod.mk.injEq] at hq
      obtain ⟨rfl, rfl⟩ := hq
      rcases hshape with ⟨_, h2⟩ | ⟨_, h2⟩ | ⟨h1, _⟩
      · right; left; rw [h2]; exact h
      · right; left; rw [h2]; exact List.mem_append_left _ h
      · left; rw [h1]; exact List.mem_append_left _ h
    · right; left; rw [hsame reg k hq]; exact h
  | none =>
    cases r with
    | LoadServer => right; left; exact h
    | PushActEvent x => right; left; exact h
    | PushAvgActInterval x y => right; left; exact h
    | Clear =>
      have hP : Process s c Request.Clear = ClearHandler s c := rfl
      rw [hP]
      obtain ⟨_, _, f3, f4, _⟩ := Clear_kv s c
      cases reg with
      | barriers =>
        right; left
        simp only [parkedUnder, arrived, f4]
        exact h
      | locks => right; right; exact ⟨rfl, mem_lockWaiters s k a h⟩
      | kv =>
        right; left
        simp only [parkedUnder, parkedReads, f3]
        exact h
      | counters => cases h
    | Barrier n num => cases ht
    | TryLock n => cases ht
    | NotifyDone n => cases ht
    | WaitUntilDone n => cases ht
    | PushKV key val => cases ht
    | ClearKV key => cases ht
    | PullKV key => cases ht
    | IncreaseCount key val => cases ht
    | EraseCount key => cases ht

theorem discarded_cons_ok (s : CtrlServer) (c : CallId) (r : Request)
    (t : List (CallId × Request)) (hok : (Process s c r).status = Status.ok) :
    discarded s ((c, r) :: t) = resetDrops s r ++ discarded (Process s c r).server t := by
  simp only [discarded, hok]

/-- Along a run that is processed without failure, every call that was parked
at the start or carried by a request of the run is at the end answered, or in a
queue, or was discarded by a reset. -/
theorem accounted_run (reqs : List (CallId × Request)) :
    ∀ (s : CtrlServer), (HandleRpcs s reqs).status = Status.ok →
      ∀ a, (a ∈ reqs.map (fun x => x.1) ∨ ∃ reg k, a ∈ parkedUnder s reg k) →
        a ∈ answeredCalls (HandleRpcs s reqs).events ∨
        (∃ reg k, a ∈ parkedUnder (HandleRpcs s reqs).server reg k) ∨
        a ∈ discarded s reqs := by
  induction reqs with
  | nil =>
    intro s _ a ha
    rcases ha with h | h
    · cases h
    · right; left; simpa [HandleRpcs_nil] using h
  | cons x t ih =>
    intro s hok a ha
    obtain ⟨c, r⟩ := x
    obtain ⟨k1, k2, _⟩ := HandleRpcs_cons_server s (c, r) t hok
    have hrest : ∀ b, (b ∈ t.map (fun x => x.1) ∨
        ∃ reg k, b ∈ parkedUnder (Process s c r).server reg k) →
        b ∈ answeredCalls (HandleRpcs s ((c, r) :: t)).events ∨
        (∃ reg k, b ∈ parkedUnder (HandleRpcs s ((c, r) :: t)).server reg k) ∨
        b ∈ discarded s ((c, r) :: t) := by
      intro b hb
      rw [HandleRpcs_cons_ok _ _ _ _ k1, discarded_cons_ok _ _ _ _ k1]
      rcases ih (Process s c r).server k2 b hb with h | h | h
      · left; rw [answeredCalls_append]; exact List.mem_append_right _ h
      · right; left; exact h
      · right; right; exact List.mem_append_right _ h
    have hfirst : ∀ b, b ∈ answeredCalls (Process s c r).events →
        b ∈ answeredCalls (HandleRpcs s ((c, r) :: t)).events := by
      intro b hb
      rw [HandleRpcs_cons_ok _ _ _ _ k1, answeredCalls_append]
      exact List.mem_append_left _ hb
    rcases ha with h | ⟨reg, k, h⟩
    · simp only [List.map_cons, List.mem_cons] at h
      rcases h with h | h
      · subst h
        rcases step_accepts s a r k1 with h1 | h1
        · exact Or.inl (hfirst a h1)
        · exact hrest a (Or.inr h1)
      · exact hrest a (Or.inl h)
    · rcases step_keeps s c r a reg k h with h1 | h1 | ⟨h1, h2⟩
      · exact Or.inl (hfirst a h1)
      · exact hrest a (Or.inr ⟨reg, k, h1⟩)
      · right; right
        rw [discarded_cons_ok _ _ _ _ k1, h1]
        exact List.mem_append_left _ h2

theorem discarded_without_reset (reqs : List (CallId × Request)) :
    ∀ s : CtrlServer, (∀ x ∈ reqs, x.2 ≠ Request.Clear) → discarded s reqs = [] := by
  induction reqs with
  | nil => intro s _; rfl
  | cons x t ih =>
    intro s h
    obtain ⟨c, r⟩ := x
    have hr : r ≠ Request.Clear := h (c, r) (List.mem_cons_self _ _)
    have ht := fun u => ih u (fun y hy => h y (List.mem_cons_of_mem _ hy))
    have h1 : resetDrops s r = [] := by
      cases r <;> first | rfl | exact absurd rfl hr
    simp only [discarded, h1, List.nil_append]
    cases (Process s c r).status <;> simp [ht]

/-- Counterexample to C21 as stated ("each parked call appears in exactly one
waiter queue").  Call 1 acquires the lock "a", call 2 waits on it and is parked
in its waiter list, call 3 resets.  The run is processed without failure and
answers the calls 1 and 3 only; afterwards all maps are empty, so call 2, which
was accepted and never answered, is in no queue. -/
theorem parked_in_one_queue_counterexample :
    parkedUnder (HandleRpcs CtrlServer.init
        [(1, Request.TryLock "a"), (2, Request.WaitUntilDone "a")]).server
        Registry.locks "a" = [2] ∧
    (HandleRpcs CtrlServer.init
        [(1, Request.TryLock "a"), (2, Request.WaitUntilDone "a"),
         (3, Request.Clear)]).status = Status.ok ∧
    answeredCalls (HandleRpcs CtrlServer.init
        [(1, Request.TryLock "a"), (2, Request.WaitUntilDone "a"),
         (3, Request.Clear)]).events = [1, 3] ∧
    (HandleRpcs CtrlServer.init
        [(1, Request.TryLock "a"), (2, Request.WaitUntilDone "a"),
         (3, Request.Clear)]).server = CtrlServer.init ∧
    discarded CtrlServer.init
        [(1, Request.TryLock "a"), (2, Request.WaitUntilDone "a"), (3, Request.Clear)]
      = [2] := by
  decide

/-- C21 as amended (at most one response per call).  Let the server process,
from its initial state, any finite sequence of requests whose call handles are
pairwise distinct.  Then `SendResponse` was called at most once on each handle;
and in the state reached, no queue (the list of a barrier, the waiter list of a
lock, the pending reads of a key) holds a call twice, no call is in two queues,
and no call in a queue has been answered.  If moreover the sequence was
processed without failure, every call of the sequence that has not been
answered and was not waiting on a lock when a reset was processed is in exactly
one queue and exactly once in it; a sequence without reset discards no call. -/
theorem at_most_one_response (reqs : List (CallId × Request))
    (hdistinct : (reqs.map (fun x => x.1)).Nodup) :
    (∀ a, List.count a (answeredCalls (HandleRpcs CtrlServer.init reqs).events) ≤ 1) ∧
    (∀ reg k a, List.count a (parkedUnder (HandleRpcs CtrlServer.init reqs).server reg k) ≤ 1) ∧
    (∀ reg1 k1 reg2 k2 a,
      a ∈ parkedUnder (HandleRpcs CtrlServer.init reqs).server reg1 k1 →
      a ∈ parkedUnder (HandleRpcs CtrlServer.init reqs).server reg2 k2 →
      (reg1, k1) = (reg2, k2)) ∧
    (∀ reg k a, a ∈ parkedUnder (HandleRpcs CtrlServer.init reqs).server reg k →
      a ∉ answeredCalls (HandleRpcs CtrlServer.init reqs).events) ∧
    ((HandleRpcs CtrlServer.init reqs).status = Status.ok →
      ∀ a, a ∈ reqs.map (fun x => x.1) →
        a ∉ answeredCalls (HandleRpcs CtrlServer.init reqs).events →
        a ∉ discarded CtrlServer.init reqs →
        ∃ reg k,
          List.count a (parkedUnder (HandleRpcs CtrlServer.init reqs).server reg k) = 1 ∧
          ∀ reg2 k2, a ∈ parkedUnder (HandleRpcs CtrlServer.init reqs).server reg2 k2 →
            (reg2, k2) = (reg, k)) ∧
    ((∀ x ∈ reqs, x.2 ≠ Request.Clear) → discarded CtrlServer.init reqs = []) := by
  have h := callsConsistent_run reqs CtrlServer.init [] [] callsConsistent_init hdistinct
    (fun _ _ hm => by cases hm)
  simp only [List.nil_append] at h
  obtain ⟨n1, n2, n3, n4, _, _⟩ := h
  refine ⟨fun a => List.nodup_iff_count_le_one.mp n1 a,
    fun reg k a => List.nodup_iff_count_le_one.mp (n2 reg k) a, n3, n4, ?_,
    discarded_without_reset reqs CtrlServer.init⟩
  intro hok a ha hna hnd
  rcases accounted_run reqs CtrlServer.init hok a (Or.inl ha) with h1 | ⟨reg, k, h1⟩ | h1
  · exact absurd h1 hna
  · exact ⟨reg, k, List.count_eq_one_of_mem (n2 reg k) h1,
      fun reg2 k2 h2 => n3 reg2 k2 reg k a h2 h1⟩
  · exact absurd h1 hnd

/-- Witness of C21 as amended: two waiters on a lock are flushed by the
completion signal; in the run call 2 is answered at most once. -/
theorem at_most_one_response_witness :
    List.count 2 (answeredCalls (HandleRpcs CtrlServer.init
      [(1, Request.TryLock "ckpt"), (2, Request.WaitUntilDone "ckpt"),
       (3, Request.WaitUntilDone "ckpt"), (4, Request.NotifyDone "ckpt"),
       (5, Request.WaitUntilDone "ckpt")]).events) ≤ 1 :=
  (at_most_one_response
      [(1, Request.TryLock "ckpt"), (2, Request.WaitUntilDone "ckpt"),
       (3, Request.WaitUntilDone "ckpt"), (4, Request.NotifyDone "ckpt"),
       (5, Request.WaitUntilDone "ckpt")] (by decide)).1 2

/-! ## Calls that are parked nowhere -/

theorem step_answers (s : CtrlServer) (c : CallId) (r : Request) (a : CallId)
    (h : a ∈ answeredCalls (Process s c r).events) :
    a = c ∨ ∃ reg k, a ∈ parkedUnder s reg k := by
  rcases step_shape s c r with ⟨hids, _⟩ | ⟨_, _, hids, _, _⟩ | ⟨reg0, k0, hids, _, _⟩
  · rcases hids with e | e
    · rw [e] at h; cases h
    · rw [e] at h; left; simpa using h
  · rw [hids] at h; cases h
  · rw [hids] at h
    rcases List.mem_append.mp h with hm | hm
    · exact Or.inr ⟨reg0, k0, hm⟩
    · left; simpa using hm

theorem step_queues (s : CtrlServer) (c : CallId) (r : Request) (a : CallId)
    (reg : Registry) (k : String) (h : a ∈ parkedUnder (Process s c r).server reg k) :
    a = c ∨ a ∈ parkedUnder s reg k := by
  rcases step_shape s c r with ⟨_, hq⟩ | ⟨reg0, k0, _, hq0, hq⟩ | ⟨reg0, k0, _, hq0, hq⟩
  · rcases hq reg k with e | e
    · rw [e] at h; exact Or.inr h
    · rw [e] at h; cases h
  · by_cases hqe : (reg, k) = (reg0, k0)
    · simp only [Prod.mk.injEq] at hqe
      obtain ⟨rfl, rfl⟩ := hqe
      rw [hq0] at h
      rcases List.mem_append.mp h with hm | hm
      · exact Or.inr hm
      · left; simpa using hm
    · rw [hq reg k hqe] at h; exact Or.inr h
  · by_cases hqe : (reg, k) = (reg0, k0)
    · simp only [Prod.mk.injEq] at hqe
      obtain ⟨rfl, rfl⟩ := hqe
      rw [hq0] at h; cases h
    · rw [hq reg k hqe] at h; exact Or.inr h

/-- A call that is in no queue is answered by no run of requests that carry
other handles. -/
theorem never_answered (later : List (CallId × Request)) (w : CallId) :
    ∀ s : CtrlServer, (∀ reg k, w ∉ parkedUnder s reg k) →
      (∀ x ∈ later, x.1 ≠ w) →
      w ∉ answeredCalls (HandleRpcs s later).events := by
  induction later with
  | nil => intro s _ _ h; simp [HandleRpcs_nil, answeredCalls, responses] at h
  | cons x t ih =>
    intro s hq hne
    obtain ⟨c, r⟩ := x
    have hwc : w ≠ c := fun e => hne (c, r) (List.mem_cons_self _ _) e.symm
    have hfirst : w ∉ answeredCalls (Process s c r).events := by
      intro hm
      rcases step_answers s c r w hm with e | ⟨reg, k, e⟩
      · exact hwc e
      · exact hq reg k e
    by_cases hx : (Process s c r).status = Status.ok
    · rw [HandleRpcs_cons_ok _ _ _ _ hx]
      have hq2 : ∀ reg k, w ∉ parkedUnder (Process s c r).server reg k := by
        intro reg k hm
        rcases step_queues s c r w reg k hm with e | e
        · exact hwc e
        · exact hq reg k e
      have hrest := ih (Process s c r).server hq2
        (fun y hy => hne y (List.mem_cons_of_mem _ hy))
      intro hm
      rw [answeredCalls_append] at hm
      rcases List.mem_append.mp hm with h1 | h1
      · exact hfirst h1
      · exact hrest h1
    · rw [HandleRpcs_cons_stop _ _ _ _ hx]
      exact hfirst

/-- C25 (the reset drops parked lock waiters).  Let the server process requests
with pairwise distinct call handles: first `pre`, which leaves no read parked
and leaves `name` locked with call `w` among its waiters, then the reset by call
`c`, then any requests `later`.  The reset returns normally and answers only its
own call; `w` is answered neither by the reset nor by any of the later
requests; after the reset `name` is unset, and the next `TryLock` on `name` is
answered `kLocked` and starts an empty waiter list. -/
theorem reset_drops_lock_waiters (pre later : List (CallId × Request)) (s : CtrlServer)
    (c w : CallId) (name : String) (ws : List CallId)
    (hreach : s = (HandleRpcs CtrlServer.init pre).server)
    (hdistinct : ((pre ++ (c, Request.Clear) :: later).map (fun x => x.1)).Nodup)
    (hnoreads : ∀ k, parkedReads s k = [])
    (hactive : s.name2lock_status_.find name = some (some ws)) (hw : w ∈ ws) :
    (ClearHandler s c).status = Status.ok ∧
    answeredCalls (ClearHandler s c).events = [c] ∧
    w ∉ answeredCalls (ClearHandler s c).events ∧
    w ∉ answeredCalls (HandleRpcs (ClearHandler s c).server later).events ∧
    lockState (ClearHandler s c).server name = LockState.Unset ∧
    (∀ c2,
      (TryLockHandler (ClearHandler s c).server c2 name).events
        = [Event.SendResponse c2 (Payload.result TryLockResult.kLocked),
           Event.EnqueueRequest CtrlMethod.kTryLock] ∧
      (TryLockHandler (ClearHandler s c).server c2 name).server.name2lock_status_.find name
        = some (some [])) := by
  have hcons : kvConsistent s := by rw [hreach]; exact kvConsistent_reachable pre
  have he : s.pending_kv_calls_.empty = true := by
    cases he : s.pending_kv_calls_.empty with
    | true => rfl
    | false =>
      obtain ⟨k, hk⟩ := (pending_empty_iff s hcons).mp he
      exact absurd (hnoreads k) hk
  simp only [List.map_append, List.map_cons] at hdistinct
  obtain ⟨hpre, hrest, hdisj⟩ := List.nodup_append.mp hdistinct
  have hinv := callsConsistent_run pre CtrlServer.init [] [] callsConsistent_init hpre
    (fun _ _ hm => by cases hm)
  rw [← hreach] at hinv
  simp only [List.nil_append] at hinv
  obtain ⟨_, _, n3, _, n5, _⟩ := hinv
  have hwq : w ∈ parkedUnder s Registry.locks name := by
    simp only [parkedUnder, hactive]; exact hw
  have hwused : w ∈ pre.map (fun x => x.1) := n5 _ _ w hwq
  have hwc : w ≠ c := fun e => hdisj hwused (by rw [e]; simp)
  have hwlater : ∀ x ∈ later, x.1 ≠ w := by
    intro x hx e
    exact hdisj hwused (List.mem_cons_of_mem _ (List.mem_map.mpr ⟨x, hx, e⟩))
  have hok := Clear_ok s c he
  have hafter : ∀ reg k, w ∉ parkedUnder (ClearHandler s c).server reg k := by
    intro reg k hm
    rw [hok] at hm
    cases reg with
    | barriers =>
      have hm2 : w ∈ parkedUnder s Registry.barriers k := hm
      cases n3 _ _ _ _ w hm2 hwq
    | locks => cases hm
    | kv =>
      have hm2 : w ∈ parkedUnder s Registry.kv k := hm
      cases n3 _ _ _ _ w hm2 hwq
    | counters => cases hm
  have hunset : lockState (ClearHandler s c).server name = LockState.Unset := by
    rw [hok]; rfl
  refine ⟨by rw [hok], by rw [hok]; rfl, ?_, never_answered later w _ hafter hwlater, hunset,
    ?_⟩
  · rw [hok]
    intro hm
    have : w = c := by simpa [answeredCalls, responses] using hm
    exact hwc this
  · intro c2
    refine ⟨by rw [(TryLock_answer _ c2 name).2, hunset], ?_⟩
    rw [find_TryLock]
    have hnone := (lockState_unset_iff _ name).mp hunset
    simp [hnone]

/-- Witness of C25: call 2 waits on the locked name "ckpt"; the reset by call 3
drops it, and neither a new acquisition nor its completion signal answers it. -/
theorem reset_drops_lock_waiters_witness :
    2 ∉ answeredCalls (HandleRpcs (ClearHandler (HandleRpcs CtrlServer.init
        [(1, Request.TryLock "ckpt"), (2, Request.WaitUntilDone "ckpt")]).server 3).server
        [(4, Request.TryLock "ckpt"), (5, Request.NotifyDone "ckpt")]).events :=
  (reset_drops_lock_waiters
    [(1, Request.TryLock "ckpt"), (2, Request.WaitUntilDone "ckpt")]
    [(4, Request.TryLock "ckpt"), (5, Request.NotifyDone "ckpt")]
    (HandleRpcs CtrlServer.init
      [(1, Request.TryLock "ckpt"), (2, Request.WaitUntilDone "ckpt")]).server
    3 2 "ckpt" [2] rfl (by decide) (fun _ => rfl) (by decide) (by decide)).2.2.2.1

/-! ## Barriers with a count that no list size matches -/

theorem arrive_park_of_ne (s : CtrlServer) (c : CallId) (name : String) (n : Int)
    (pre : List CallId) (hne : listSize (pre ++ [c]) ≠ castToSizeT n) :
    BarrierHandler.arrive s c name n (pre, n) =
      ⟨{ s with barrier_calls_ := s.barrier_calls_.assign name (pre ++ [c], n) },
        [Event.EnqueueRequest CtrlMethod.kBarrier], Status.ok⟩ := by
  simp [BarrierHandler.arrive, hne]

/-- Arrivals at an in-flight barrier are all parked as long as no list size on
the way equals the count as a `size_t`. -/
theorem arrivals_park_of_ne (name : String) (n : Int) (calls : List CallId) :
    ∀ (s : CtrlServer) (pre : List CallId),
      s.barrier_calls_.find name = some (pre, n) →
      (∀ j, pre.length < j → j ≤ pre.length + calls.length → j % 2 ^ 64 ≠ castToSizeT n) →
      (HandleRpcs s (arrivals name n calls)).status = Status.ok ∧
      (HandleRpcs s (arrivals name n calls)).events
        = calls.map (fun _ => Event.EnqueueRequest CtrlMethod.kBarrier) ∧
      (HandleRpcs s (arrivals name n calls)).server.barrier_calls_.find name
        = some (pre ++ calls, n) := by
  induction calls with
  | nil => intro s pre h _; simp [arrivals, HandleRpcs_nil, h]
  | cons c t ih =>
    intro s pre h hj
    have hne : listSize (pre ++ [c]) ≠ castToSizeT n := by
      have := hj (pre.length + 1) (by omega) (by simp)
      simpa [listSize] using this
    have hstep : Process s c (Request.Barrier name n) =
        ⟨{ s with barrier_calls_ := s.barrier_calls_.assign name (pre ++ [c], n) },
          [Event.EnqueueRequest CtrlMethod.kBarrier], Status.ok⟩ := by
      show BarrierHandler s c name n = _
      rw [BarrierHandler_existing s c name n _ h, arrive_park_of_ne s c name n pre hne]
    have hfind : ({ s with barrier_calls_ := s.barrier_calls_.assign name (pre ++ [c], n) } :
        CtrlServer).barrier_calls_.find name = some (pre ++ [c], n) := by
      simp [HashMap.find_assign, h]
    have hj2 : ∀ j, (pre ++ [c]).length < j → j ≤ (pre ++ [c]).length + t.length →
        j % 2 ^ 64 ≠ castToSizeT n := by
      intro j h1 h2
      simp only [List.length_append, List.length_cons, List.length_nil] at h1 h2
      exact hj j (by omega) (by simp only [List.length_cons]; omega)
    have := ih _ (pre ++ [c]) hfind hj2
    have hsplit : arrivals name n (c :: t) = (c, Request.Barrier name n) :: arrivals name n t :=
      rfl
    rw [hsplit, HandleRpcs_cons_ok _ _ _ _ (by rw [hstep]), hstep]
    simpa using this

theorem arrivals_fresh_park_of_ne (name : String) (n : Int) (calls : List CallId)
    (s : CtrlServer) (hfresh : s.barrier_calls_.find name = none)
    (hj : ∀ j, 0 < j → j ≤ calls.length → j % 2 ^ 64 ≠ castToSizeT n) :
    (HandleRpcs s (arrivals name n calls)).status = Status.ok ∧
    (HandleRpcs s (arrivals name n calls)).events
      = calls.map (fun _ => Event.EnqueueRequest CtrlMethod.kBarrier) ∧
    (HandleRpcs s (arrivals name n calls)).server.barrier_calls_.find name
      = if calls = [] then none else some (calls, n) := by
  cases calls with
  | nil => simp [arrivals, HandleRpcs_nil, hfresh]
  | cons c t =>
    have hne : listSize (([] : List CallId) ++ [c]) ≠ castToSizeT n := by
      have := hj 1 (by omega) (by simp)
      simpa [listSize] using this
    have hstep : Process s c (Request.Barrier name n) =
        ⟨{ s with barrier_calls_ :=
              (s.barrier_calls_.emplace name ([], n)).1.assign name ([] ++ [c], n) },
          [Event.EnqueueRequest CtrlMethod.kBarrier], Status.ok⟩ := by
      show BarrierHandler s c name n = _
      rw [BarrierHandler_fresh s c name n hfresh, arrive_park_of_ne _ c name n [] hne]
    have hfind : ({ s with barrier_calls_ :=
          (s.barrier_calls_.emplace name ([], n)).1.assign name ([] ++ [c], n) } :
        CtrlServer).barrier_calls_.find name = some ([c], n) := by
      simp [HashMap.find_assign, HashMap.find_emplace _ _ _ _ hfresh]
    have hj2 : ∀ j, ([c] : List CallId).length < j → j ≤ ([c] : List CallId).length + t.length →
        j % 2 ^ 64 ≠ castToSizeT n := by
      intro j h1 h2
      simp only [List.length_cons, List.length_nil] at h1 h2
      exact hj j (by omega) (by simp only [List.length_cons]; omega)
    obtain ⟨k1, k2, k3⟩ := arrivals_park_of_ne name n t _ [c] hfind hj2
    have hsplit : arrivals name n (c :: t) = (c, Request.Barrier name n) :: arrivals name n t :=
      rfl
    rw [hsplit, HandleRpcs_cons_ok _ _ _ _ (by rw [hstep]), hstep]
    refine ⟨k1, ?_, ?_⟩
    · show [Event.EnqueueRequest CtrlMethod.kBarrier] ++ _ = _
      rw [k2]; rfl
    · show (HandleRpcs _ (arrivals name n t)).server.barrier_calls_.find name = _
      rw [k3]; simp

/-- C24 (a barrier declared with a non-positive count never releases).  Let the
calls `calls` arrive at the fresh barrier `name`, each declaring the same count
`count` with `count ≤ 0`, and let their number be below `2^64 + count` (below
`2^64` for the count 0, the range of the `size_t` list size; below
`2^64 - |count|` for a negative count).  Then every handler returns normally
(the count is not validated), none sends a response, and all the calls are
parked at the barrier, in arrival order, with the stored count `count`. -/
theorem nonpositive_barrier_never_releases (s : CtrlServer) (name : String) (count : Int)
    (calls : List CallId) (hfresh : s.barrier_calls_.find name = none)
    (hint : isInt32 count) (hnonpos : count ≤ 0)
    (hsize : (calls.length : Int) < 2 ^ 64 + count) :
    (HandleRpcs s (arrivals name count calls)).status = Status.ok ∧
    (HandleRpcs s (arrivals name count calls)).events
      = calls.map (fun _ => Event.EnqueueRequest CtrlMethod.kBarrier) ∧
    responses (HandleRpcs s (arrivals name count calls)).events = [] ∧
    (HandleRpcs s (arrivals name count calls)).server.barrier_calls_.find name
      = (if calls = [] then none else some (calls, count)) ∧
    arrived (HandleRpcs s (arrivals name count calls)).server name = calls := by
  have hj : ∀ j, 0 < j → j ≤ calls.length → j % 2 ^ 64 ≠ castToSizeT count := by
    intro j h1 h2
    unfold isInt32 at hint
    unfold castToSizeT
    omega
  obtain ⟨k1, k2, k3⟩ := arrivals_fresh_park_of_ne name count calls s hfresh hj
  refine ⟨k1, k2, by rw [k2, responses_enqueues], k3, ?_⟩
  simp only [arrived, k3]
  cases calls with
  | nil => rfl
  | cons c t => simp

/-- Witness of C24: three calls arrive at the fresh barrier "b" declaring the
count 0; all three stay parked. -/
theorem nonpositive_barrier_never_releases_witness :
    arrived (HandleRpcs CtrlServer.init (arrivals "b" 0 [1, 2, 3])).server "b" = [1, 2, 3] :=
  (nonpositive_barrier_never_releases CtrlServer.init "b" 0 [1, 2, 3] rfl (by decide)
    (by decide) (by decide)).2.2.2.2

/-! ## Integer conversions -/

theorem limits_int32 :
    GetMinVal IntType.int32_t = -2147483648 ∧ GetMaxVal IntType.int32_t = 2147483647 := by
  constructor <;> rfl

theorem limits_uint32 :
    GetMinVal IntType.uint32_t = 0 ∧ GetMaxVal IntType.uint32_t = 4294967295 := by
  constructor <;> rfl

theorem limits_int64 :
    GetMinVal IntType.int64_t = -9223372036854775808 ∧
    GetMaxVal IntType.int64_t = 9223372036854775807 := by
  constructor <;> rfl

theorem limits_uint64 :
    GetMinVal IntType.uint64_t = 0 ∧ GetMaxVal IntType.uint64_t = 18446744073709551615 := by
  constructor <;> rfl

theorem staticCast_int32 (v : Int) :
    staticCast IntType.int32_t v = (v + 2147483648) % 4294967296 - 2147483648 := rfl

theorem staticCast_uint32 (v : Int) : staticCast IntType.uint32_t v = v % 4294967296 := rfl

theorem staticCast_int64 (v : Int) :
    staticCast IntType.int64_t v
      = (v + 9223372036854775808) % 18446744073709551616 - 9223372036854775808 := rfl

theorem staticCast_uint64 (v : Int) :
    staticCast IntType.uint64_t v = v % 18446744073709551616 := rfl

theorem and_sign_bit (x : Nat) :
    (x &&& 0x80000000 ≠ 0) ↔ x / 2 ^ 31 % 2 = 1 := by
  have h31 : (0x80000000 : Nat) = 2 ^ 31 := by norm_num
  rw [h31]
  have hbit : x.testBit 31 = decide (x / 2 ^ 31 % 2 = 1) := Nat.testBit_to_div_mod
  by_cases hb : x.testBit 31 = true
  · have heq : x &&& 2 ^ 31 = 2 ^ 31 := by
      apply Nat.eq_of_testBit_eq
      intro i
      rw [Nat.testBit_and, Nat.testBit_two_pow]
      by_cases hi : 31 = i
      · subst hi; simp [hb]
      · simp [hi]
    rw [heq]
    rw [hbit] at hb
    simp only [decide_eq_true_eq] at hb
    exact ⟨fun _ => hb, fun _ => by norm_num⟩
  · have heq : x &&& 2 ^ 31 = 0 := by
      apply Nat.eq_of_testBit_eq
      intro i
      rw [Nat.testBit_and, Nat.testBit_two_pow]
      by_cases hi : 31 = i
      · subst hi; simp [hb]
      · simp [hi]
    rw [heq]
    rw [hbit] at hb
    simp only [decide_eq_true_eq] at hb
    exact ⟨fun h0 => absurd rfl h0, fun h1 => absurd h1 hb⟩

/-- A function that computes `min (max v MIN_To) MAX_To` on the values of `From`
saturates into `To`. -/
theorem saturates_of_formula (From To : IntType) (f : Int → Int)
    (hlim : GetMinVal To ≤ GetMaxVal To)
    (h : ∀ v, From.holds v → f v = min (max v (GetMinVal To)) (GetMaxVal To)) :
    Saturates From To f := by
  intro v hv
  refine ⟨h v hv, ?_, ?_, ?_⟩
  · rw [h v hv]
    unfold IntType.holds
    omega
  · intro ht
    rw [h v hv]
    unfold IntType.holds at ht
    omega
  · intro w hw hle
    rw [h v hv, h w hw]
    omega

/-- C26 (the integer overloads of `Clamp` saturate).  Each of the six overloads
`uint32_t -> int32_t`, `int32_t -> uint32_t`, `int64_t -> int32_t`,
`uint64_t -> int32_t`, `int64_t -> uint32_t` and `uint64_t -> uint32_t` returns,
on every value `v` of its source type, `min (max v MIN_To) MAX_To` computed over
the integers; hence the result is a value of the target type, it is `v` itself
when `v` is a value of the target type, and the overload is monotone. -/
theorem clamp_saturates :
    Saturates IntType.uint32_t IntType.int32_t Clamp_uint32_to_int32 ∧
    Saturates IntType.int32_t IntType.uint32_t Clamp_int32_to_uint32 ∧
    Saturates IntType.int64_t IntType.int32_t Clamp_int64_to_int32 ∧
    Saturates IntType.uint64_t IntType.int32_t Clamp_uint64_to_int32 ∧
    Saturates IntType.int64_t IntType.uint32_t Clamp_int64_to_uint32 ∧
    Saturates IntType.uint64_t IntType.uint32_t Clamp_uint64_to_uint32 := by
  refine ⟨?_, ?_, ?_, ?_, ?_, ?_⟩
  · apply saturates_of_formula _ _ _ (by decide)
    intro v hv
    unfold IntType.holds at hv
    rw [limits_uint32.1, limits_uint32.2] at hv
    rw [limits_int32.1, limits_int32.2]
    unfold Clamp_uint32_to_int32
    have hbit := and_sign_bit v.toNat
    by_cases hb : v.toNat &&& 0x80000000 ≠ 0
    · have h1 := hbit.mp hb
      rw [if_pos hb, staticCast_int32]
      omega
    · have h1 : ¬ v.toNat / 2 ^ 31 % 2 = 1 := fun e => hb (hbit.mpr e)
      rw [if_neg hb, staticCast_int32]
      omega
  · apply saturates_of_formula _ _ _ (by decide)
    intro v hv
    unfold IntType.holds at hv
    rw [limits_int32.1, limits_int32.2] at hv
    rw [limits_uint32.1, limits_uint32.2]
    unfold Clamp_int32_to_uint32
    rw [staticCast_uint32]
    split <;> omega
  · apply saturates_of_formula _ _ _ (by decide)
    intro v hv
    unfold IntType.holds at hv
    rw [limits_int64.1, limits_int64.2] at hv
    unfold Clamp_int64_to_int32
    rw [limits_int32.1, limits_int32.2, staticCast_int32, staticCast_int64, staticCast_int64]
    split
    · omega
    · split <;> omega
  · apply saturates_of_formula _ _ _ (by decide)
    intro v hv
    unfold IntType.holds at hv
    rw [limits_uint64.1, limits_uint64.2] at hv
    unfold Clamp_uint64_to_int32
    rw [limits_int32.1, limits_int32.2, staticCast_int32, staticCast_uint64]
    split <;> omega
  · apply saturates_of_formula _ _ _ (by decide)
    intro v hv
    unfold IntType.holds at hv
    rw [limits_int64.1, limits_int64.2] at hv
    unfold Clamp_int64_to_uint32
    rw [limits_uint32.1, limits_uint32.2, staticCast_uint32, staticCast_int64]
    split
    · omega
    · split <;> omega
  · apply saturates_of_formula _ _ _ (by decide)
    intro v hv
    unfold IntType.holds at hv
    rw [limits_uint64.1, limits_uint64.2] at hv
    unfold Clamp_uint64_to_uint32
    rw [limits_uint32.1, limits_uint32.2, staticCast_uint32, staticCast_uint64]
    split <;> omega

/-- Witness of C26: the `uint32_t` value 3000000000 is clamped to the greatest
`int32_t`, and the `int64_t` value -5 to the least `uint32_t`. -/
theorem clamp_saturates_witness :
    Clamp_uint32_to_int32 3000000000 = 2147483647 ∧ Clamp_int64_to_uint32 (-5) = 0 :=
  ⟨(clamp_saturates.1 3000000000 (by decide)).1,
   (clamp_saturates.2.2.2.2.1 (-5) (by decide)).1⟩

theorem limits_ordered (T : IntType) : GetMinVal T ≤ GetMaxVal T := by
  cases T <;> decide

theorem holds_subset_iff (F T : IntType) :
    (∀ v, F.holds v → T.holds v) ↔
      (GetMinVal T ≤ GetMinVal F ∧ GetMaxVal F ≤ GetMaxVal T) := by
  have hord := limits_ordered F
  constructor
  · intro h
    have h1 := h (GetMinVal F) ⟨le_refl _, hord⟩
    have h2 := h (GetMaxVal F) ⟨hord, le_refl _⟩
    exact ⟨h1.1, h2.2⟩
  · rintro ⟨h1, h2⟩ v ⟨hv1, hv2⟩
    exact ⟨le_trans h1 hv1, le_trans hv2 h2⟩

theorem needsClamp_false_iff (F T : IntType) :
    NeedsClamp F T = false ↔ (GetMinVal T ≤ GetMinVal F ∧ GetMaxVal F ≤ GetMaxVal T) := by
  cases F <;> cases T <;> decide

theorem staticCast_of_holds (T : IntType) (v : Int) (h : T.holds v) : staticCast T v = v := by
  unfold IntType.holds at h
  cases T <;>
    simp only [GetMinVal, GetMaxVal, staticCast, IntType.is_unsigned, IntType.sizeof] at h ⊢ <;>
    norm_num at h ⊢ <;> omega

/-- C27 (`NeedsClamp` is the non-representability test on integers).  For every
pair `From`, `To` of the eight fixed-width integer types,
`NeedsClamp<From, To>::value` is false if and only if every value of `From` is
a value of `To`, and true if and only if some value of `From` is not a value of
`To`; and when it is false, the overload "not clamp", which is the one enabled
then, returns every value of `From` unchanged. -/
theorem needs_clamp_iff_not_representable (From To : IntType) :
    (NeedsClamp From To = false ↔ ∀ v, From.holds v → To.holds v) ∧
    (NeedsClamp From To = true ↔ ∃ v, From.holds v ∧ ¬ To.holds v) ∧
    (NeedsClamp From To = false → ∀ v, From.holds v → Clamp_not_clamp To v = v) := by
  have h1 : NeedsClamp From To = false ↔ ∀ v, From.holds v → To.holds v := by
    rw [needsClamp_false_iff, holds_subset_iff]
  refine ⟨h1, ?_, ?_⟩
  · constructor
    · intro ht
      by_contra hex
      have hall : ∀ v, From.holds v → To.holds v := by
        intro v hv
        by_contra hn
        exact hex ⟨v, hv, hn⟩
      rw [h1.mpr hall] at ht
      cases ht
    · rintro ⟨v, hv, hn⟩
      cases hc : NeedsClamp From To with
      | true => rfl
      | false => exact absurd (h1.mp hc v hv) hn
  · intro hf v hv
    exact staticCast_of_holds To v (h1.mp hf v hv)

/-- Witness of C27: `uint8_t` to `int16_t` needs no clamp and the conversion of
200 returns 200; `uint32_t` to `int32_t` needs one. -/
theorem needs_clamp_iff_not_representable_witness :
    Clamp_not_clamp IntType.int16_t 200 = 200 ∧
    NeedsClamp IntType.uint32_t IntType.int32_t = true :=
  ⟨(needs_clamp_iff_not_representable IntType.uint8_t IntType.int16_t).2.2 (by decide) 200
      (by decide),
   (needs_clamp_iff_not_representable IntType.uint32_t IntType.int32_t).2.1.mpr
      ⟨3000000000, by decide, by decide⟩⟩

end oneflow
